import Mathlib

/-!
# SproutCore property chains

A shallow embedding of `frameworks/runtime/private/property_chain.js`
(`SC._PropertyChain`): the parser `createChain`, and the node operations
`activate`, `deactivate` and `notifyPropertyDidChange`, run over an explicit
world state (object graph, per-object chain registries, the `object` field of
every node, and the log of invalidations sent to targets).

The per-object registry (`registerDependentKeyWithChain`,
`removeDependentKeyWithChain`), the array variant of it
(`SC.CoreArrayPropertyChainSupport`) and `propertyDidChange` live in files that
are not part of the sources at hand; they are modelled from the specification
and marked as such.

The file also embeds the batching part of `SC.Observers`
(`frameworks/runtime/private/observer_queue.js`: `objectHasPendingChanges`,
`suspendPropertyObserving`, `resumePropertyObserving`) and the escaping helpers
of `SC.RenderContext` (`frameworks/core_foundation/system/render_context.js`:
`escapeHTML`, `escapeAttributeValue`).

Further parts embedded: the render context without backing element (`init`,
`push`, `join`, `end`, the class, style and attribute setters of
`render_context.js`), the queue of `SC.Observers` (`addObserver`,
`removeObserver`, `flush` with the path of its temporary observers), the bulk
and the single form of `addStyle`, and, of `SC.ScrollView`
(`frameworks/desktop/views/scroll.js`), the largest horizontal offset and the
methods that scroll by lines.
-/

set_option linter.unusedVariables false

namespace SC

/-! ## Data model -/

/-- Identity of a JavaScript object of the observed graph. -/
abbrev Obj := Nat

/-- A property value as the chain code sees it. The code only tests a value for
truthiness and then treats a truthy value as an observable object, so `absent`
stands for `undefined`, `null` and every other falsy value, and `ref o` for the
object `o`. -/
inductive Value where
  | absent
  | ref (o : Obj)
deriving DecidableEq, Repr

/-- The fields given to `SC._PropertyChain.create` by `createChain` and `copy`
(property_chain.js 40-80). `property` and `nextProperty` are optional because
`parts[i]` is `undefined` past the end of the path. The `next` pointer is the
position in the list that holds the nodes of one chain; the mutable `object`
field is kept in the world. -/
structure PropertyChain where
  property : Option String
  target : Obj
  toInvalidate : String
  nextProperty : Option String
  isAtEach : Bool
deriving DecidableEq, Repr

/-- One chain node as an object with identity. `chain` holds the fields of this
node followed by those of `next`, `next.next`, ...; `guid` names the linked list
the node belongs to and `via` the collection members through which a per-member
clone of that list was reached (empty for the list built by `createChain`).
Two nodes are the same object exactly when the three components agree. -/
structure Node where
  guid : Nat
  via : List Obj
  chain : List PropertyChain
deriving DecidableEq, Repr

/-- The state the chain code reads and writes.

* `get o k` is `o.get(k)`, `members c` the content of the enumerable `c`;
* `object a` is the `object` field of node `a` (`null` is `absent`);
* `chains o k` is the registry entry of `(o, k)`, a set of nodes kept as a list;
* `enumerableChains c` is the set of `@each` nodes attached to collection `c`,
  and `clones c a` the members of `c` that hold a clone of `a`;
* `invalidated` logs the calls `target.propertyDidChange(key)`, oldest first. -/
structure World where
  get : Obj → String → Value
  members : Obj → List Obj
  object : Node → Value
  chains : Obj → String → List Node
  enumerableChains : Obj → List Node
  clones : Obj → Node → List Obj
  invalidated : List (Obj × String)

/-- A world with no property set, no member, no registration and an empty log. -/
def World.empty : World :=
  ⟨fun _ _ => .absent, fun _ => [], fun _ => .absent, fun _ _ => [], fun _ => [],
    fun _ _ => [], []⟩

/-- The assignment `o.set(k, v)` on the object graph, without any notification. -/
def World.set (w : World) (o : Obj) (k : String) (v : Value) : World :=
  { w with get := fun o2 k2 => if o2 = o ∧ k2 = k then v else w.get o2 k2 }

/-- Replaces the content of the enumerable `c`. -/
def World.setMembers (w : World) (c : Obj) (ms : List Obj) : World :=
  { w with members := fun c2 => if c2 = c then ms else w.members c2 }

/-- The write `this.set('object', v)` on node `a`. -/
def World.setObject (w : World) (a : Node) (v : Value) : World :=
  { w with object := fun b => if b = a then v else w.object b }

/-- A JavaScript property key: `undefined` used as a key is the string
"undefined". -/
def key (property : Option String) : String := property.getD "undefined"

/-! ## createChain (property_chain.js 217-264) -/

/-- The call `path.split('.')`: the maximal runs between dots, at least one. -/
def split (path : String) : List String :=
  (path.toList.splitOn '.').map String.mk

/-- The `for` loop of `createChain`, entered with loop index `i` and the nodes
linked so far (`root` is the first of them, `tail` the last). -/
def createChainLoop (parts : List String) (target : Obj) (toInvalidate : String)
    (i : Nat) (nodes : List PropertyChain) : List PropertyChain :=
  if i < parts.length then
    let isAtEach := decide (parts[i]? = some "@each")
    -- Skip over the @each string.
    let i := if isAtEach then i + 1 else i
    let property := parts[i]?
    let nextProperty := parts[i + 1]?
    let nextProperty := if nextProperty = some "@each" then parts[i + 2]? else nextProperty
    let node : PropertyChain := ⟨property, target, toInvalidate, nextProperty, isAtEach⟩
    createChainLoop parts target toInvalidate (i + 1) (nodes ++ [node])
  else nodes
termination_by parts.length - i
decreasing_by
  simp_wf
  split <;> omega

/-- The function `SC._PropertyChain.createChain(path, target, toInvalidate)`:
the nodes of the returned chain from `root` on, each linked to the following
one. -/
def createChain (path : String) (target : Obj) (toInvalidate : String) : List PropertyChain :=
  createChainLoop (split path) target toInvalidate 0 []

/-- What the loop of `createChain` stores as `nextProperty` when `rest` are the
segments after the current one. -/
def lookahead (rest : List String) : Option String :=
  if rest[0]? = some "@each" then rest[1]? else rest[0]?

/-- The nodes `createChainLoop` builds from the segments that are still to be
read, by recursion on these segments (used to reason about the loop). -/
def nodesFrom (target : Obj) (toInvalidate : String) : List String → List PropertyChain
  | [] => []
  | p :: rest =>
    if p = "@each" then
      match rest with
      | [] => [⟨none, target, toInvalidate, none, true⟩]
      | q :: rest2 =>
        ⟨some q, target, toInvalidate, lookahead rest2, true⟩ :: nodesFrom target toInvalidate rest2
    else ⟨some p, target, toInvalidate, lookahead rest, false⟩ :: nodesFrom target toInvalidate rest

/-- Every `@each` segment is immediately followed by a segment other than
`@each`. -/
def EachFollowed (segs : List String) : Prop :=
  ∀ i, segs[i]? = some "@each" → ∃ q, segs[i + 1]? = some q ∧ q ≠ "@each"

/-! ## The per-object registry and the invalidation sink -/

/-- Modelled from the spec: `registerDependentKeyWithChain` of the observable
mixin, which is not among the sources. Section 4.4 `register(propertyName,
node)` on the ChainRegistry entry of section 3, "a set of ChainNodes currently
interested in changes to that property": the node is added to the set of
`(o, property)` unless it is already there. -/
def registerDependentKeyWithChain (o : Obj) (property : Option String) (a : Node) (w : World) :
    World :=
  { w with chains := fun o2 k2 =>
      if o2 = o ∧ k2 = key property then (w.chains o2 k2).insert a else w.chains o2 k2 }

/-- Modelled from the spec: `removeDependentKeyWithChain` of the observable
mixin, which is not among the sources. Section 4.4 `unregister(propertyName,
node)`: the node is taken out of the set of `(o, property)`. -/
def removeDependentKeyWithChain (o : Obj) (property : Option String) (a : Node) (w : World) :
    World :=
  { w with chains := fun o2 k2 =>
      if o2 = o ∧ k2 = key property then (w.chains o2 k2).erase a else w.chains o2 k2 }

/-- Modelled from the spec: `target.propertyDidChange(key)` of the observable
mixin, which is not among the sources. Section 6 `invalidate(targetObject,
propertyName)`, the call the chain engine makes into the cache-invalidation
system; the call is recorded at the end of the log. -/
def propertyDidChange (target : Obj) (k : String) (w : World) : World :=
  { w with invalidated := w.invalidated ++ [(target, k)] }

/-! ## The array variant of the registry -/

/-- Adds node `a` to the set of `@each` nodes attached to collection `c`. -/
def World.addEnumerable (w : World) (c : Obj) (a : Node) : World :=
  { w with enumerableChains := fun c2 =>
      if c2 = c then (w.enumerableChains c2).insert a else w.enumerableChains c2 }

/-- Takes node `a` out of the set of `@each` nodes attached to collection `c`. -/
def World.dropEnumerable (w : World) (c : Obj) (a : Node) : World :=
  { w with enumerableChains := fun c2 =>
      if c2 = c then (w.enumerableChains c2).erase a else w.enumerableChains c2 }

/-- Creation of the nodes of a clone list: every node of the list `(guid, via)`
and of the lists cloned from it starts with `object` unset, as `copy` leaves
it. -/
def World.allocate (w : World) (guid : Nat) (via : List Obj) : World :=
  { w with object := fun b => if b.guid = guid ∧ via <:+ b.via then Value.absent else w.object b }

/-- Notes that member `m` of collection `c` holds a clone of node `a`. -/
def World.recordClone (w : World) (c : Obj) (a : Node) (m : Obj) : World :=
  { w with clones := fun c2 b => if c2 = c ∧ b = a then m :: w.clones c2 b else w.clones c2 b }

/-- Forgets the clones of node `a` on collection `c`. -/
def World.clearClones (w : World) (c : Obj) (a : Node) : World :=
  { w with clones := fun c2 b => if c2 = c ∧ b = a then [] else w.clones c2 b }

/-- Modelled from the spec: the per-member part of
`SC.CoreArrayPropertyChainSupport.registerDependentKeyWithChain`, which is not
among the sources. Section 4.3: "maintain exactly one ChainNode clone per
current member, each clone bound to that member and continuing the chain's
remainder"; "for each, create and activate a clone". A member that already
holds a clone of the node is left alone. Otherwise the clone of the node
`(guid, via, n :: rest)` for member `m` is created as an ordinary node of `m`
and activated on `m` as in section 4.2: it is registered in the registry of `m`
under its property, the value of that property is read, and the clone's next
node is activated on the value when it is present (`activateNext` is `activate`
of the next node of the list named by its first argument). -/
def attachClone (activateNext : List Obj → Value → World → World) (c : Obj) (n : PropertyChain)
    (rest : List PropertyChain) (guid : Nat) (via : List Obj) (m : Obj) (w : World) : World :=
  let this : Node := ⟨guid, via, n :: rest⟩
  if m ∈ w.clones c this then w
  else
    let clone : Node := ⟨guid, m :: via, { n with isAtEach := false } :: rest⟩
    let w := (w.allocate guid (m :: via)).recordClone c this m
    let w := w.setObject clone (.ref m)
    let w := registerDependentKeyWithChain m n.property clone w
    if rest ≠ [] then
      match w.get m (key n.property) with
      | .ref nextObject => activateNext (m :: via) (.ref nextObject) w
      | .absent => w
    else w

/-- Modelled from the spec: `SC.CoreArrayPropertyChainSupport
.registerDependentKeyWithChain.call(c, property, this)`, which is not among the
sources. Section 4.3 `attachToCollection(collection)`: the node is added to the
set of `@each` nodes of the collection, and for each member of a snapshot of
the collection a clone is created and activated (`attachClone`). -/
def registerEnumerable (activateNext : List Obj → Value → World → World) (c : Obj)
    (n : PropertyChain) (rest : List PropertyChain) (guid : Nat) (via : List Obj) (w : World) :
    World :=
  let this : Node := ⟨guid, via, n :: rest⟩
  let w := w.addEnumerable c this
  (w.members c).foldl (fun w m => attachClone activateNext c n rest guid via m w) w

/-- Modelled from the spec: the per-member part of
`SC.CoreArrayPropertyChainSupport.removeDependentKeyWithChain`, which is not
among the sources. Section 4.3 "deactivate and discard clones": the clone of
member `m` is deactivated as an ordinary node, that is, removed from the
registry of the object it is attached to, and its next node is deactivated
(`deactivateNext` is `deactivate` of the next node of the list named by its
first argument). -/
def detachClone (deactivateNext : List Obj → World → World) (n : PropertyChain)
    (rest : List PropertyChain) (guid : Nat) (via : List Obj) (m : Obj) (w : World) : World :=
  let clone : Node := ⟨guid, m :: via, { n with isAtEach := false } :: rest⟩
  let w := match w.object clone with
    | .ref object => removeDependentKeyWithChain object n.property clone w
    | .absent => w
  if rest ≠ [] then deactivateNext (m :: via) w else w

/-- Modelled from the spec: `SC.CoreArrayPropertyChainSupport
.removeDependentKeyWithChain.call(c, property, this)`, which is not among the
sources. Section 3 FanoutSet, "destroyed when that node deactivates or the
collection itself is replaced upstream": the node is taken out of the set of
`@each` nodes of the collection and every clone made for it is deactivated and
discarded. -/
def removeEnumerable (deactivateNext : List Obj → World → World) (c : Obj) (n : PropertyChain)
    (rest : List PropertyChain) (guid : Nat) (via : List Obj) (w : World) : World :=
  let this : Node := ⟨guid, via, n :: rest⟩
  let w := w.dropEnumerable c this
  let w := (w.clones c this).foldl (fun w m => detachClone deactivateNext n rest guid via m w) w
  w.clearClones c this

/-! ## The node operations (property_chain.js 92-182) -/

/-- The method `deactivate` (property_chain.js 136-156) of the node
`(guid, via, n :: rest)`; `this.next` is the node `(guid, via, rest)` and exists
when `rest` is not empty. -/
def deactivate : List PropertyChain → Nat → List Obj → World → World
  | [], _, _, w => w
  | n :: rest, guid, via, w =>
    let this : Node := ⟨guid, via, n :: rest⟩
    -- If the chain element is not associated with an object,
    -- we don't need to deactivate anything.
    let w := match w.object this with
      | .ref object =>
        if n.isAtEach then removeEnumerable (deactivate rest guid) object n rest guid via w
        else removeDependentKeyWithChain object n.property this w
      | .absent => w
    if rest ≠ [] ∧ n.isAtEach = false then deactivate rest guid via w else w

/-- The method `activate(newObject)` (property_chain.js 92-129) of the node
`(guid, via, n :: rest)`; a call without argument passes `absent`. -/
def activate : List PropertyChain → Nat → List Obj → Value → World → World
  | [], _, _, _, w => w
  | n :: rest, guid, via, newObject, w =>
    let this : Node := ⟨guid, via, n :: rest⟩
    let curObject := w.object this
    -- If no parameter is passed, assume we are the root in the chain
    let newObject := if newObject = .absent then Value.ref n.target else newObject
    let w := if curObject ≠ .absent ∧ curObject ≠ newObject then deactivate (n :: rest) guid via w
      else w
    let w := w.setObject this newObject
    let w := match newObject with
      | .ref o =>
        if n.isAtEach then registerEnumerable (activate rest guid) o n rest guid via w
        else registerDependentKeyWithChain o n.property this w
      | .absent => w
    -- now - lookup the object for the next one...
    if rest ≠ [] ∧ n.isAtEach = false then
      let nextObject := match newObject with
        | .ref o => w.get o (key n.property)
        | .absent => Value.absent
      match nextObject with
      | .ref o => activate rest guid via (.ref o) w
      | .absent => w
    else w

/-- The object a node is hooked to by `activate(newObject)`: the argument, or
the target when no argument is passed. -/
def anchorOf (n : PropertyChain) (newObject : Value) : Obj :=
  match newObject with
  | .ref o => o
  | .absent => n.target

/-- The first half of `deactivate`: the node leaves the registry of its object
(used to reason about `deactivate`). -/
def deactivateHead (n : PropertyChain) (rest : List PropertyChain) (guid : Nat) (via : List Obj)
    (w : World) : World :=
  match w.object ⟨guid, via, n :: rest⟩ with
  | .ref object =>
    if n.isAtEach then removeEnumerable (deactivate rest guid) object n rest guid via w
    else removeDependentKeyWithChain object n.property ⟨guid, via, n :: rest⟩ w
  | .absent => w

/-- The first part of `activate`, up to the write of `object`: a node hooked to
another object is deactivated first (used to reason about `activate`). -/
def activateSwitch (n : PropertyChain) (rest : List PropertyChain) (guid : Nat) (via : List Obj)
    (newObject : Value) (w : World) : World :=
  (if w.object ⟨guid, via, n :: rest⟩ ≠ .absent
      ∧ w.object ⟨guid, via, n :: rest⟩ ≠ .ref (anchorOf n newObject) then
    deactivate (n :: rest) guid via w
  else w).setObject ⟨guid, via, n :: rest⟩ (.ref (anchorOf n newObject))

/-- The part of `activate` up to the registration of the node (used to reason
about `activate`). -/
def activateHead (n : PropertyChain) (rest : List PropertyChain) (guid : Nat) (via : List Obj)
    (newObject : Value) (w : World) : World :=
  if n.isAtEach then
    registerEnumerable (activate rest guid) (anchorOf n newObject) n rest guid via
      (activateSwitch n rest guid via newObject w)
  else
    registerDependentKeyWithChain (anchorOf n newObject) n.property ⟨guid, via, n :: rest⟩
      (activateSwitch n rest guid via newObject w)

/-- The method `notifyPropertyDidChange` (property_chain.js 161-182) of node
`this`. -/
def notifyPropertyDidChange (this : Node) (w : World) : World :=
  match this.chain with
  | [] => w
  | n :: rest =>
    -- Tell the target of the chain to invalidate the property
    let w := propertyDidChange n.target n.toInvalidate w
    if rest ≠ [] ∧ n.isAtEach = false then
      let newObj := match w.object this with
        | .ref curObj => w.get curObj (key n.property)
        | .absent => Value.absent
      match newObj with
      | .ref o => activate rest this.guid this.via (.ref o) w
      | .absent => w
    else w

/-- Modelled from the spec: the registry walk that the observable mixin, which
is not among the sources, runs when property `k` of object `o` has changed.
Section 4.4 `notify(propertyName)`: every node interested in exactly that name
is notified, iterating over a snapshot of the set. -/
def notifyPropertyChains (o : Obj) (k : String) (w : World) : World :=
  (w.chains o k).foldl (fun w a => notifyPropertyDidChange a w) w

/-- The object reached from `o` by reading the properties of the nodes `ns` one
after the other; `absent` as soon as one of them is absent. -/
def follow (w : World) : List PropertyChain → Obj → Value
  | [], o => .ref o
  | n :: ns, o =>
    match w.get o (key n.property) with
    | .ref y => follow w ns y
    | .absent => .absent

/-! ## Footprints

Every operation above is a sequence of elementary updates of single cells of
the world. `Steps F w w2` says that `w2` is reached from `w` by such updates on
cells of `F` only; what an operation leaves alone is read off its footprint. -/

/-- The cells of the world an elementary update can write. -/
inductive Cell where
  | object (a : Node)
  | register (a : Node)
  | remove (a : Node)
  | addEnumerable (a : Node)
  | dropEnumerable (a : Node)
  | recordClone (a : Node)
  | clearClones (a : Node)

/-- One elementary update, allowed by the footprint `F`. -/
inductive Prim (F : Cell → Prop) : World → World → Prop where
  | setObject (w : World) (a : Node) (v : Value) :
      F (.object a) → Prim F w (w.setObject a v)
  | allocate (w : World) (guid : Nat) (via : List Obj) :
      (∀ b : Node, b.guid = guid → via <:+ b.via → F (.object b)) → Prim F w (w.allocate guid via)
  | register (w : World) (o : Obj) (p : Option String) (a : Node) :
      F (.register a) → Prim F w (registerDependentKeyWithChain o p a w)
  | remove (w : World) (o : Obj) (p : Option String) (a : Node) :
      F (.remove a) → Prim F w (removeDependentKeyWithChain o p a w)
  | addEnumerable (w : World) (c : Obj) (a : Node) :
      F (.addEnumerable a) → Prim F w (w.addEnumerable c a)
  | dropEnumerable (w : World) (c : Obj) (a : Node) :
      F (.dropEnumerable a) → Prim F w (w.dropEnumerable c a)
  | recordClone (w : World) (c : Obj) (a : Node) (m : Obj) :
      F (.recordClone a) → Prim F w (w.recordClone c a m)
  | clearClones (w : World) (c : Obj) (a : Node) :
      F (.clearClones a) → Prim F w (w.clearClones c a)

/-- A sequence of elementary updates allowed by `F`. -/
def Steps (F : Cell → Prop) : World → World → Prop := Relation.ReflTransGen (Prim F)

/-- The node a cell belongs to. -/
def Cell.node : Cell → Node
  | .object a => a
  | .register a => a
  | .remove a => a
  | .addEnumerable a => a
  | .dropEnumerable a => a
  | .recordClone a => a
  | .clearClones a => a

/-- Node `a` is one of the last `len` nodes of the list `(guid, via)`, or a node
of a list cloned from it. -/
def Below (guid : Nat) (via : List Obj) (len : Nat) (a : Node) : Prop :=
  a.guid = guid ∧ via <:+ a.via ∧ (a.via = via → a.chain.length ≤ len)

/-- A cell that only a removal may write. -/
def Cell.isRemoval : Cell → Prop
  | .remove _ => True
  | .dropEnumerable _ => True
  | .clearClones _ => True
  | _ => False

/-- The cells `registerEnumerable` writes after it has attached the node
`(guid, via, n :: rest)`: the clone records of the node, and the cells of its
clones. -/
def CloneCells (guid : Nat) (via : List Obj) (n : PropertyChain) (rest : List PropertyChain)
    (c : Cell) : Prop :=
  (∃ a, c = .recordClone a ∧ a = ⟨guid, via, n :: rest⟩)
    ∨ ((∃ m, (m :: via) <:+ c.node.via) ∧ c.node.guid = guid)

/-- The cells of the nodes of the list `(guid, via)` that come before its last
`len` nodes. -/
def Before (guid : Nat) (via : List Obj) (len : Nat) (c : Cell) : Prop :=
  ∃ s, c.node = ⟨guid, via, s⟩ ∧ len < s.length

/-- Activating the chain on `x` would change nothing in `w`: each node that
`activate` reaches already has `x` (or the object found along the path) as its
`object`, is registered there, and an `@each` node has a clone on every
member. -/
def Settled (w : World) : List PropertyChain → Nat → List Obj → Value → Prop
  | [], _, _, _ => True
  | n :: rest, guid, via, x =>
    let this : Node := ⟨guid, via, n :: rest⟩
    let o : Obj := anchorOf n x
    w.object this = .ref o ∧
      if n.isAtEach then
        this ∈ w.enumerableChains o ∧ ∀ m ∈ w.members o, m ∈ w.clones o this
      else
        this ∈ w.chains o (key n.property) ∧
          (rest ≠ [] → ∀ y, w.get o (key n.property) = .ref y → Settled w rest guid via (.ref y))

/-! ## copy (property_chain.js 188-201) -/

/-- The fields of the nodes `copy` creates, following `next` down the chain:
each new node is given the `property`, `target`, `toInvalidate`, `nextProperty`
and `isAtEach` of the node it is copied from. -/
def copyFields : List PropertyChain → List PropertyChain
  | [] => []
  | n :: rest =>
    { property := n.property, target := n.target, toInvalidate := n.toInvalidate,
      nextProperty := n.nextProperty, isAtEach := n.isAtEach } :: copyFields rest

/-- The method `copy` of node `this`. The nodes it creates form a new linked
list, named by the identity `fresh` that the runtime hands out; `object` is not
among the fields passed to `create`, so it keeps its default `null` on every new
node. The result is the new head and the world with the new nodes in it. -/
def copy (this : Node) (fresh : Nat) (w : World) : Node × World :=
  (⟨fresh, [], copyFields this.chain⟩, w.allocate fresh [])

/-! ## The pending set of SC.Observers (observer_queue.js 248-280) -/

namespace Observers

/-- The part of `SC.Observers` that batches notifications: the counter
`isObservingSuspended` and the set `_pending`, whose members are listed in the
order in which they entered it. -/
structure State where
  isObservingSuspended : Int
  pending : List Obj

/-- Modelled from the spec: `SC.CoreSet.add`, which is not among the sources.
Section 3 PendingQueue and section 9, "an ordered, deduplicating pending-set":
an object that is already a member is not added again, a new one is put after
the members present. -/
def coreSetAdd (set : List Obj) (obj : Obj) : List Obj :=
  if obj ∈ set then set else set ++ [obj]

/-- The method `objectHasPendingChanges(obj)` (observer_queue.js 254-256). -/
def objectHasPendingChanges (obj : Obj) (s : State) : State :=
  { s with pending := coreSetAdd s.pending obj }

/-- The method `suspendPropertyObserving` (observer_queue.js 260-262). -/
def suspendPropertyObserving (s : State) : State :=
  { s with isObservingSuspended := s.isObservingSuspended + 1 }

/-- The delivery loop of `resumePropertyObserving` over the members of the old
set that are still to be visited. `notify o` is what the call
`o._notifyPropertyObservers()`, whose code is not among the sources, does to
`SC.Observers`; `calls` lists the objects on which the loop has made that call,
first call first. -/
def deliver (notify : Obj → State → State) : List Obj → State → List Obj → State × List Obj
  | [], s, calls => (s, calls)
  | o :: rest, s, calls => deliver notify rest (notify o s) (calls ++ [o])

/-- The method `resumePropertyObserving` (observer_queue.js 267-280): the new
state of `SC.Observers` and the objects on which this call invoked
`_notifyPropertyObservers`, in the order of the calls. The old set, which the
method clears at the end, is not reachable from `SC.Observers` any more. -/
def resumePropertyObserving (notify : Obj → State → State) (s : State) : State × List Obj :=
  let s := { s with isObservingSuspended := s.isObservingSuspended - 1 }
  if s.isObservingSuspended ≤ 0 then
    let pending := s.pending
    let s := { s with pending := [] }
    deliver notify pending s []
  else (s, [])

end Observers

/-! ## The escaping helpers of SC.RenderContext (render_context.js 1202-1255) -/

namespace RenderContext

/-- A number as `Number.prototype.toString` describes it (ECMA-262,
Number::toString with radix 10): `NaN`, an infinity, or a finite number given
by its sign and by the integers `s` and `n` of its shortest decimal form, which
is `s × 10 ^ (n - k)` with `k` the number of digits of `s`. With `s` zero it is
the number zero. The number 12345.6789 is `finite false 123456789 5`. -/
inductive Decimal where
  | nan
  | infinity (negative : Bool)
  | finite (negative : Bool) (s : Nat) (n : Int)
  deriving DecidableEq

/-- The argument `{String|Number}` of the escaping helpers. A string is a
sequence of characters; a character outside the basic plane stands for its two
surrogate code units, which the regular expressions below treat alike (both
have a code of 256 or more and are none of the characters named). A number is
`number n` when it is an integer, with `n` the integer that its shortest
decimal form writes, and `decimal x` in general. -/
inductive Text where
  | string (s : String)
  | number (n : Int)
  | decimal (x : Decimal)

/-- The call `text.replace(regex, method)` for a global regular expression that
matches single characters, those for which `matched` holds: every matched character is
replaced by what `method` returns for it, the other characters are kept. A
`method` that returns nothing yields `undefined`, which `replace` writes as the
string "undefined". -/
def replace (matched : Char → Bool) (method : Char → Option String) (text : String) : String :=
  String.join (text.toList.map fun c =>
    if matched c then (method c).getD "undefined" else String.singleton c)

/-- The regular expression `_escapeHTMLRegex`, `/[&<>]/g`. -/
def escapeHTMLRegex (c : Char) : Bool :=
  c = '&' || c = '<' || c = '>'

/-- The function `_escapeHTMLMethod`: a `switch` with six cases and no
default. -/
def escapeHTMLMethod (c : Char) : Option String :=
  if c = '&' then some "&amp;"
  else if c = '<' then some "&lt;"
  else if c = '>' then some "&gt;"
  else if c = '"' then some "&quot;"
  else if c = '\'' then some "&#x27;"
  else if c = '/' then some "&#x2f;"
  else none

/-- The regular expression `_escapeAttributeRegex`, `/[^A-Za-z0-9]/g`. -/
def escapeAttributeRegex (c : Char) : Bool :=
  !(('A' ≤ c && c ≤ 'Z') || ('a' ≤ c && c ≤ 'z') || ('0' ≤ c && c ≤ '9'))

/-- The function `_escapeAttributeMethod`: a character with a code below 256 is
replaced by `'&#x%@;'.fmt(charCode.toString(16))`, any other is returned as it
is. -/
def escapeAttributeMethod (c : Char) : Option String :=
  let charCode := c.toNat
  if charCode < 256 then some ("&#x" ++ String.mk (Nat.toDigits 16 charCode) ++ ";")
  else some (String.singleton c)

/-- The string `Number::toString(x)` of ECMA-262, with radix 10, for a finite
number above zero whose shortest decimal form has the digits `digits` and the
exponent `n`: the digits followed by zeros when the number is an integer of at
most 21 digits, the digits with a point among them or after `0.` and zeros when
`n` is above -6, and the exponential notation in every other case. -/
def digitsToString (digits : List Char) (n : Int) : String :=
  let k : Int := digits.length
  if k ≤ n ∧ n ≤ 21 then String.mk (digits ++ List.replicate (n - k).toNat '0')
  else if 0 < n ∧ n ≤ 21 then String.mk (digits.take n.toNat ++ '.' :: digits.drop n.toNat)
  else if -6 < n ∧ n ≤ 0 then String.mk ('0' :: '.' :: (List.replicate (-n).toNat '0' ++ digits))
  else
    let e := n - 1
    let sign := if e < 0 then '-' else '+'
    if k = 1 then String.mk (digits ++ 'e' :: sign :: Nat.toDigits 10 e.natAbs)
    else
      String.mk (digits.take 1 ++ '.' :: (digits.drop 1 ++ 'e' :: sign :: Nat.toDigits 10 e.natAbs))

/-- The call `x.toString()` on a number (ECMA-262, Number::toString with radix
10): `NaN`, `Infinity`, `0` for both zeros, and a minus sign before the string
of a number below zero. -/
def Decimal.toString : Decimal → String
  | .nan => "NaN"
  | .infinity negative => if negative then "-Infinity" else "Infinity"
  | .finite negative s n =>
    if s = 0 then "0"
    else (if negative then "-" else "") ++ digitsToString (Nat.toDigits 10 s) n

/-- The call `n.toString()` on a number that is an integer: its decimal
notation when it has at most 21 digits, and the exponential notation of
Number::toString, on its digits without the zeros at their end, when it has
more. -/
def numberToString (n : Int) : String :=
  if n.natAbs < 1000000000000000000000 then toString n
  else
    let digits := Nat.toDigits 10 n.natAbs
    (if n < 0 then "-" else "")
      ++ digitsToString (digits.reverse.dropWhile (fun c => c = '0')).reverse digits.length

/-- The conversion at the head of both helpers: a falsy argument (the empty
string, the number zero, `NaN`) gives `none`, for which the helper returns the
empty string; a number is turned into its `toString()`. -/
def textOf : Text → Option String
  | .string s => if s = "" then none else some s
  | .number n => if n = 0 then none else some (numberToString n)
  | .decimal .nan => none
  | .decimal (.infinity negative) => some (Decimal.toString (.infinity negative))
  | .decimal (.finite negative s n) =>
    if s = 0 then none else some (Decimal.toString (.finite negative s n))

/-- The characters that the `toString()` of a number is written with: the
digits, the minus sign, the point, `e` and the plus sign of the exponential
notation, and the letters of `Infinity` and `NaN`. -/
def numberChars : List Char :=
  ['0', '1', '2', '3', '4', '5', '6', '7', '8', '9', '-', '.', '+', 'e',
    'I', 'n', 'f', 'i', 't', 'y', 'N', 'a']

/-- What becomes of one character of the string of a number in an attribute
value, in words: the minus sign, the point and the plus sign are written as
`&#x2d;`, `&#x2e;` and `&#x2b;`, every other character is left as it is. -/
def escapeNumberChar (c : Char) : String :=
  if c = '-' then "&#x2d;"
  else if c = '.' then "&#x2e;"
  else if c = '+' then "&#x2b;"
  else String.singleton c

/-- The function `SC.RenderContext.escapeHTML(text)`. -/
def escapeHTML (text : Text) : String :=
  match textOf text with
  | none => ""
  | some text => replace escapeHTMLRegex escapeHTMLMethod text

/-- The function `SC.RenderContext.escapeAttributeValue(value)`. -/
def escapeAttributeValue (value : Text) : String :=
  match textOf value with
  | none => ""
  | some value => replace escapeAttributeRegex escapeAttributeMethod value

/-- The specification of `escapeHTML` in its own words: `&`, `<` and `>` are
replaced by `&amp;`, `&lt;` and `&gt;`, every other character is left as it
is. -/
def escapeHTMLSpec (s : String) : String :=
  String.join (s.toList.map fun c =>
    if c = '&' then "&amp;" else if c = '<' then "&lt;" else if c = '>' then "&gt;"
    else String.singleton c)

/-- A character of `[A-Za-z0-9]`. -/
def isAsciiAlphanumeric (c : Char) : Bool :=
  ('A' ≤ c && c ≤ 'Z') || ('a' ≤ c && c ≤ 'z') || ('0' ≤ c && c ≤ '9')

/-- The specification of `escapeAttributeValue` in its own words, for one
character: the character itself if it is in `[A-Za-z0-9]`; `&#x`, the lowercase
hexadecimal character code without padding and `;` if it is another character
with a code below 256; the character itself if its code is 256 or more. -/
def escapeAttributeCharSpec (c : Char) : String :=
  if isAsciiAlphanumeric c then String.singleton c
  else if c.toNat < 256 then "&#x" ++ String.mk (Nat.toDigits 16 c.toNat) ++ ";"
  else String.singleton c

end RenderContext

/-! ## The render context (render_context.js 53-1193) -/

namespace RenderContext

instance : DecidableEq Text
  | .string a, .string b =>
    if h : a = b then isTrue (by rw [h]) else isFalse (fun e => h (by cases e; rfl))
  | .number a, .number b =>
    if h : a = b then isTrue (by rw [h]) else isFalse (fun e => h (by cases e; rfl))
  | .decimal a, .decimal b =>
    if h : a = b then isTrue (by rw [h]) else isFalse (fun e => h (by cases e; rfl))
  | .string _, .number _ => isFalse (fun e => by cases e)
  | .number _, .string _ => isFalse (fun e => by cases e)
  | .string _, .decimal _ => isFalse (fun e => by cases e)
  | .decimal _, .string _ => isFalse (fun e => by cases e)
  | .number _, .decimal _ => isFalse (fun e => by cases e)
  | .decimal _, .number _ => isFalse (fun e => by cases e)

/-- The string that JavaScript writes for a value joined to a string, as in
`key + '="' + value`: a string is itself, a number is its `toString()`. -/
def Text.toStr : Text → String
  | .string s => s
  | .number n => numberToString n
  | .decimal x => x.toString

/-- A hash of attributes or of styles: the own enumerable keys of a JavaScript
object in the order in which they were first written, each with its value. A
value is a string, a number or `null`, which is `none`. -/
abbrev Hash := List (String × Option Text)

/-- The read `hash[key]`; `none` is `undefined`, the key is not in the hash. -/
def hashGet : Hash → String → Option (Option Text)
  | [], _ => none
  | (k, v) :: rest, key => if k = key then some v else hashGet rest key

/-- The write `hash[key] = value`: the value of a key that is in the hash is
replaced where it stands, a new key is put after the keys present. -/
def hashSet : Hash → String → Option Text → Hash
  | [], key, value => [(key, value)]
  | (k, v) :: rest, key, value =>
    if k = key then (k, value) :: rest else (k, v) :: hashSet rest key value

/-- The truth value that a test such as `if (styles[styleName])` gives to what
a read of a hash returns: `undefined`, `null`, the empty string and the number
zero are falsy. -/
def truthy : Option (Option Text) → Bool
  | some (some t) => (textOf t).isSome
  | _ => false

/-- The call `escapeAttributeValue(value)` on a value of a hash: `null` is
falsy, as the empty string and zero are, and gives the empty string. -/
def escapeAttributeValueOf : Option Text → String
  | none => ""
  | some value => escapeAttributeValue value

/-- The call `s.toLowerCase()` on a string of ASCII characters: the letters
`A` to `Z` are put in lower case and every other character is kept. Outside
ASCII the method of JavaScript changes further characters, which this function
keeps; what is proved of tag names is stated for names of ASCII characters. -/
def toLowerCase (s : String) : String :=
  String.mk (s.data.map Char.toLower)

/-- The constant `SC.NON_PIXEL_PROPERTIES` (render_context.js 20). -/
def NON_PIXEL_PROPERTIES : List String := ["zIndex", "fontWeight", "opacity"]

/-- The members of the set `SELF_CLOSING` (render_context.js 55). -/
def SELF_CLOSING : List String :=
  ["area", "base", "basefront", "br", "hr", "input", "img", "link", "meta"]

/-- The state of a render context that stands on its own: the fields that the
methods below read and write. `strings` holds `null` (`none`) at the place kept
for the opening tag; `_elem` says whether the context has a backing element,
whose own state belongs to the DOM and is not part of this record; `_tagName`
and `_selfClosing` are `undefined` (`none`) on a context made from an element.
A context opened inside another one with `begin` (a `prevObject`) is left
out. -/
structure Context where
  strings : List (Option String)
  offset : Nat
  length : Nat
  needsContent : Bool
  _tagName : Option String
  _needsTag : Bool
  _selfClosing : Option Bool
  _elem : Bool
  _id : Option String
  _classNames : Option (List (Option String))
  _styles : Option Hash
  _cloneStyles : Bool
  _stylesDidChange : Bool
  _attrs : Option Hash
  deriving DecidableEq

/-- The first argument of `SC.RenderContext(tagNameOrElement)`. -/
inductive TagNameOrElement where
  | tagName (name : String)
  | element

/-- The constructor `init(tagNameOrElement)` (render_context.js 72-117) without
a previous context. No argument stands for `div`; `div`, `label` and `a` take
the fast path; every other string is put in lower case. -/
def init (tagNameOrElement : Option TagNameOrElement) : Context :=
  let this : Context :=
    { strings := [], offset := 0, length := 0, needsContent := false, _tagName := none,
      _needsTag := false, _selfClosing := none, _elem := false, _id := none,
      _classNames := none, _styles := none, _cloneStyles := false, _stylesDidChange := false,
      _attrs := none }
  let tagNameOrElement : TagNameOrElement :=
    match tagNameOrElement with
    | none => .tagName "div"
    | some (.tagName name) =>
      if name = "div" ∨ name = "label" ∨ name = "a" then .tagName name
      else .tagName (toLowerCase name)
    | some .element => .element
  match tagNameOrElement with
  | .tagName name =>
    { this with
      _tagName := some name, _needsTag := true, needsContent := true,
      length := this.length + 1, strings := this.strings ++ [none],
      _selfClosing := some (decide (name ∈ SELF_CLOSING)) }
  | .element => { this with _elem := true, _needsTag := false, length := 0, needsContent := false }

/-- The method `safeContent(escape, line...)` (render_context.js 238-276). A
first argument that is a string is the first line, and the lines are then
escaped. -/
def safeContent (escape : Bool ⊕ String) (line : List String) (ctx : Context) : Context :=
  let (escape, lines) :=
    match escape with
    | .inr first => (true, first :: line)
    | .inl escape => (escape, line)
  let strings := lines.foldl
    (fun strings line => strings ++ [some (if escape then escapeHTML (.string line) else line)])
    ctx.strings
  { ctx with strings := strings, length := ctx.length + lines.length, needsContent := true }

/-- The method `push(line...)` (render_context.js 195-204): `safeContent` with
`false` in front of the lines. -/
def push (line : List String) (ctx : Context) : Context :=
  safeContent (.inl false) line ctx

/-- The method `_dasherizeStyleName` (render_context.js 1189-1193); `dasherize`
is `SC.String.dasherize`, whose code is not among the sources. -/
def _dasherizeStyleName (dasherize : String → String) (name : String) : String :=
  let dasherized := dasherize name
  if dasherized.data.take 7 = "webkit-".data ∨ dasherized.data.take 4 = "moz-".data
      ∨ dasherized.data.take 3 = "ms-".data ∨ dasherized.data.take 2 = "o-".data
  then "-" ++ dasherized else dasherized

/-- The loop of `end` over the style hash (render_context.js 431-437): a value
that is `null` or the empty string is skipped, a number gets `px` unless the key
is in `NON_PIXEL_PROPERTIES`. -/
def styleString (dasherize : String → String) : Hash → String → String
  | [], styleStr => styleStr
  | (key, value) :: rest, styleStr =>
    match value with
    | none => styleString dasherize rest styleStr
    | some value =>
      if value = .string "" then styleString dasherize rest styleStr
      else
        let value : String :=
          match value with
          | .number n =>
            if key ∈ NON_PIXEL_PROPERTIES then numberToString n else numberToString n ++ "px"
          | .decimal x => if key ∈ NON_PIXEL_PROPERTIES then x.toString else x.toString ++ "px"
          | .string s => s
        styleString dasherize rest
          (styleStr ++ _dasherizeStyleName dasherize key ++ ": " ++ value ++ "; ")

/-- The loop of `end` over the attributes (render_context.js 443-448): an
attribute whose value is `null` is skipped. -/
def attrsString : Hash → String → String
  | [], tag => tag
  | (key, value) :: rest, tag =>
    match value with
    | none => attrsString rest tag
    | some value => attrsString rest (tag ++ key ++ "=\"" ++ value.toStr ++ "\" ")

/-- The write `strings[idx] = value` on an array, which grows with holes when
the index is beyond its end. -/
def arraySet (strings : List (Option String)) (idx : Nat) (value : Option String) :
    List (Option String) :=
  if idx < strings.length then strings.set idx value
  else strings ++ List.replicate (idx - strings.length) none ++ [value]

/-- The method `end()` (render_context.js 405-478), named `endTag` here since
`end` is a reserved word. The temporary object `_DEFAULT_ATTRS` is empty between
two calls; when the context has its own `_attrs`, the id, the class and the
style are written into it. -/
def endTag (dasherize : String → String) (ctx : Context) : Context :=
  let tag := "<" ++ ctx._tagName.getD "undefined"
  let id : Option String := match ctx._id with
    | some id => if id = "" then none else some id
    | none => none
  let (tag, ownAttrs) :=
    if ctx._attrs.isSome || ctx._classNames.isSome || ctx._styles.isSome || id.isSome then
      let attrs : Hash := ctx._attrs.getD []
      let attrs := match id with
        | some id => hashSet attrs "id" (some (.string id))
        | none => attrs
      let attrs := match ctx._classNames with
        | some className =>
          hashSet attrs "class"
            (some (.string (String.intercalate " " (className.map fun c => c.getD ""))))
        | none => attrs
      let attrs := match ctx._styles with
        | some styles => hashSet attrs "style" (some (.string (styleString dasherize styles "")))
        | none => attrs
      (attrsString attrs (tag ++ " "), ctx._attrs.map fun _ => attrs)
    else (tag, ctx._attrs)
  let selfClosing := if ctx._selfClosing = some false then false else decide (ctx.length = 1)
  let tag := tag ++ (if selfClosing then " />" else ">")
  let ctx := { ctx with strings := arraySet ctx.strings ctx.offset (some tag), _attrs := ownAttrs }
  let ctx :=
    if selfClosing then ctx
    else
      { ctx with
        strings := ctx.strings ++ [some ("</" ++ ctx._tagName.getD "undefined" ++ ">")],
        length := ctx.length + 1 }
  { ctx with _elem := false }

/-- The method `join(joinChar)` (render_context.js 285-291): the joined string
and the context after the call. `null` is joined as the empty string. -/
def join (dasherize : String → String) (joinChar : Option String) (ctx : Context) :
    String × Context :=
  let ctx := if ctx._needsTag then endTag dasherize ctx else ctx
  (String.intercalate (joinChar.getD "") (ctx.strings.map fun s => s.getD ""), ctx)

/-! ### Class names (render_context.js 566-715) -/

/-- The method `_getClassesNoElement` (render_context.js 566-573): the list
and the context, in which the list has been created if there was none. -/
def _getClassesNoElement (ctx : Context) : List (Option String) × Context :=
  match ctx._classNames with
  | some classNames => (classNames, ctx)
  | none => ([], { ctx with _classNames := some [] })

/-- The method `_setClassesNoElement` (render_context.js 582-593). -/
def _setClassesNoElement (classNames : List String) (escape : Bool) (ctx : Context) : Context :=
  classNames.foldl
    (fun ctx val =>
      let val := if escape then escapeAttributeValue (.string val) else val
      { ctx with _classNames := some (ctx._classNames.getD [] ++ [some val]) })
    { ctx with _classNames := some [] }

/-- The method `_addClassNoElement` (render_context.js 601-604). -/
def _addClassNoElement (className : String) (ctx : Context) : Context :=
  let (classes, ctx) := _getClassesNoElement ctx
  { ctx with _classNames := some (classes ++ [some className]) }

/-- The method `_removeClassNoElement` (render_context.js 612-622):
`indexOf` finds the first place of the name, and that place is set to
`null`. -/
def _removeClassNoElement (className : String) (ctx : Context) : Context :=
  let (classes, ctx) := _getClassesNoElement ctx
  let idx := classes.indexOf (some className)
  if idx < classes.length then { ctx with _classNames := some (classes.set idx none) } else ctx

/-- The method `_hasClass` (render_context.js 692-702): the answer and the
context after the call. With a backing element the answer is that of jQuery for
the element, `elemHasClass`. -/
def _hasClass (elemHasClass : String → Bool) (className : String) (ctx : Context) :
    Bool × Context :=
  if ctx._elem then (elemHasClass className, ctx)
  else
    let (classes, ctx) := _getClassesNoElement ctx
    (decide (some className ∈ classes), ctx)

/-- The first argument of `safeAddClass`: a class name or an array of class
names. -/
inductive ClassNames where
  | name (className : String)
  | names (classNames : List String)
  deriving DecidableEq

/-- The method `safeAddClass(classNames, escape)` (render_context.js 631-664).
`SC.empty`, whose code is not among the sources, holds of `null`, of
`undefined` (both `none` here) and of the empty string. With a backing element
the classes are added to the element by jQuery and the context stays as it
is. -/
def safeAddClass (elemHasClass : String → Bool) (classNames : Option ClassNames)
    (escape : Option Bool) (ctx : Context) : Context :=
  match classNames with
  | none => ctx
  | some classNames =>
    if classNames = .name "" then ctx
    else
      let escape := escape.getD true
      let classNames : List String :=
        match classNames with
        | .name className => [className]
        | .names classNames => classNames
      if ctx._elem then ctx
      else
        classNames.foldl
          (fun ctx entry =>
            let entry := if escape then escapeAttributeValue (.string entry) else entry
            let (has, ctx) := _hasClass elemHasClass entry ctx
            if has then ctx else _addClassNoElement entry ctx)
          ctx

/-- The names that a call `safeAddClass(classNames, escape)` looks for and
stores, in the order of the argument: none for an empty argument, the name
itself or the names of the array otherwise, each one escaped unless `escape` is
`false`. -/
def storedNames (classNames : Option ClassNames) (escape : Option Bool) : List String :=
  match classNames with
  | none => []
  | some (.name className) =>
    if className = "" then []
    else [if escape.getD true then escapeAttributeValue (.string className) else className]
  | some (.names classNames) =>
    classNames.map fun entry =>
      if escape.getD true then escapeAttributeValue (.string entry) else entry

/-- The class list to which the names `entries` have been added one after the
other, each one only if it is not in the list yet. -/
def addNames (entries : List String) (classes : List (Option String)) : List (Option String) :=
  entries.foldl
    (fun classes entry => if some entry ∈ classes then classes else classes ++ [some entry])
    classes

/-- The class list in which the first place that holds `className`, if there
is one, has been set to `null`. -/
def nullFirst (className : String) : List (Option String) → List (Option String)
  | [] => []
  | c :: rest => if c = some className then none :: rest else c :: nullFirst className rest

/-- The method `addClass(nameOrClasses)` (render_context.js 814-816). -/
def addClass (elemHasClass : String → Bool) (nameOrClasses : Option ClassNames)
    (ctx : Context) : Context :=
  safeAddClass elemHasClass nameOrClasses (some false) ctx

/-- The method `removeClass(className)` (render_context.js 673-683). With a
backing element the class is removed from the element by jQuery. -/
def removeClass (className : String) (ctx : Context) : Context :=
  if ctx._elem then ctx
  else
    let ctx := _removeClassNoElement className ctx
    _removeClassNoElement (escapeAttributeValue (.string className)) ctx

/-- The method `hasClass(className)` (render_context.js 711-715): the answer
and the context after the call; the second test is made only when the first one
fails. -/
def hasClass (elemHasClass : String → Bool) (className : String) (ctx : Context) :
    Bool × Context :=
  let (has, ctx) := _hasClass elemHasClass className ctx
  if has then (true, ctx)
  else _hasClass elemHasClass (escapeAttributeValue (.string className)) ctx

/-- The setter form of `safeClassNames(classNames, escape)` (render_context.js
725-746). With a backing element the classes are replaced on the element by
jQuery. -/
def safeClassNames (classNames : List String) (escape : Option Bool) (ctx : Context) : Context :=
  let escape := escape.getD true
  if ctx._elem then ctx else _setClassesNoElement classNames escape ctx

/-- The setter form of `classNames(classNames)` (render_context.js 827-829). -/
def classNames (classNames : List String) (ctx : Context) : Context :=
  safeClassNames classNames (some false) ctx

/-! ### Styles (render_context.js 867-1038) -/

/-- What a method hands back to its caller: the receiver, by `return this`, or
`undefined`, when the body ends without a `return`. -/
inductive Returned where
  | receiver
  | undefined
  deriving DecidableEq

/-- The getter form of `styles()` (render_context.js 867-909) on a context
without backing element: the hash and the context after the call. -/
def styles (ctx : Context) : Hash × Context :=
  match ctx._styles with
  | none => ([], { ctx with _styles := some [] })
  | some styles => (styles, if ctx._cloneStyles then { ctx with _cloneStyles := false } else ctx)

/-- The method `removeStyle(styleName)` (render_context.js 1023-1038): what
the call returns and the context after it. With a backing element the style is
cleared on the element by jQuery. -/
def removeStyle (styleName : String) (ctx : Context) : Returned × Context :=
  if ctx._elem then (.receiver, ctx)
  else if ctx._styles.isNone then (.receiver, ctx)
  else
    let (styles, ctx) := styles ctx
    if truthy (hashGet styles styleName) then
      (.undefined, { ctx with _styles := some (hashSet styles styleName none),
                              _stylesDidChange := true })
    else (.undefined, ctx)

/-! ### Attributes (render_context.js 1053-1139) -/

/-- The first argument of `safeAttr`: an attribute name or a hash of
attributes. -/
inductive NameOrAttrs where
  | name (name : String)
  | attrs (attrs : Hash)

/-- The first step of `safeAttr` (render_context.js 1058-1063): a name and
its value are made into a hash of one key. -/
def attrsOf (nameOrAttrs : NameOrAttrs) (value : Option Text) : Hash :=
  match nameOrAttrs with
  | .name name => [(name, value)]
  | .attrs attrs => attrs

/-- The method `safeAttr(nameOrAttrs, value, escape)` (render_context.js
1053-1096). With a backing element the attributes are set on the element by
jQuery. -/
def safeAttr (nameOrAttrs : NameOrAttrs) (value : Option Text) (escape : Option Bool)
    (ctx : Context) : Context :=
  let escape := escape.getD true
  let nameOrAttrs : Hash := attrsOf nameOrAttrs value
  if ctx._elem then ctx
  else
    let ctx := if ctx._attrs.isNone then { ctx with _attrs := some [] } else ctx
    nameOrAttrs.foldl
      (fun ctx entry =>
        let attrValue := entry.2
        let attrValue :=
          if escape then some (Text.string (escapeAttributeValueOf attrValue)) else attrValue
        { ctx with _attrs := some (hashSet (ctx._attrs.getD []) entry.1 attrValue) })
      ctx

/-- The method `attr(nameOrAttrs, value)` (render_context.js 1137-1139). -/
def attr (nameOrAttrs : NameOrAttrs) (value : Option Text) (ctx : Context) : Context :=
  safeAttr nameOrAttrs value (some false) ctx

/-- What the attribute setters promise, in the words of their contract: after
the call the hash `_attrs` exists, it holds `stored value` under every key that
was given with `value`, it holds under every other key what it held before, and
no other field of the context has changed. -/
def Stores (given : Hash) (stored : Option Text → Option Text) (ctx after : Context) : Prop :=
  after._attrs.isSome
    ∧ (∀ key value, (key, value) ∈ given →
        hashGet (after._attrs.getD []) key = some (stored value))
    ∧ (∀ key, key ∉ given.map Prod.fst →
        hashGet (after._attrs.getD []) key = hashGet (ctx._attrs.getD []) key)
    ∧ { after with _attrs := ctx._attrs } = ctx

end RenderContext

/-! ## The queue of SC.Observers (observer_queue.js 30-103) -/

namespace Observers

/-- The argument `propertyPath`: a string, or a tuple `[object, key]`. A tuple
is an array, which `!==` compares by identity; `ref` stands for that
identity. -/
inductive PropertyPath where
  | string (path : String)
  | tuple (ref : Nat) (object : Obj) (key : String)
  deriving DecidableEq

/-- An entry `[propertyPath, target, method, pathRoot]` of the queue. Targets
and methods are named by numbers; a missing root is `none`. -/
structure Item where
  propertyPath : PropertyPath
  target : Nat
  method : Nat
  pathRoot : Option Obj
  deriving DecidableEq

/-- A call that `SC.Observers` makes on an object: `object.addObserver(key,
target, method)` or `object.removeObserver(key, target, method)`. The code of
these methods is not among the sources; the calls are recorded. -/
inductive Call where
  | addObserver (object : Obj) (key : String) (target method : Nat)
  | removeObserver (object : Obj) (key : String) (target method : Nat)
  deriving DecidableEq

/-- An observer registered on an object for one of its keys. -/
structure Observer where
  object : Obj
  key : String
  target : Nat
  method : Nat
  deriving DecidableEq

/-- Modelled from the spec: `object.addObserver(key, target, method)` of the
observable mixin, which is not among the sources. Sections 1 and 6, the
primitive that "adds a listener for one property name on one object": the
observer is put with those registered; one that is registered already is not
put a second time. -/
def registerObserver (observer : Observer) (observers : List Observer) : List Observer :=
  if observer ∈ observers then observers else observers ++ [observer]

/-- Modelled from the spec: `object.removeObserver(key, target, method)` of the
observable mixin, which is not among the sources. Sections 1 and 6, the
primitive that "removes a listener for one property name on one object": the
observer is taken away if it is registered, and nothing happens if it is
not. -/
def unregisterObserver (observer : Observer) (observers : List Observer) : List Observer :=
  observers.erase observer

/-- The queue of `SC.Observers`, the calls made on objects so far, first call
first, and the observers registered on the objects. -/
structure Queue where
  queue : List Item
  calls : List Call
  observers : List Observer
  deriving DecidableEq

/-- The method `addObserver(propertyPath, target, method, pathRoot)`
(observer_queue.js 42-63): what it returns (`none` is `undefined` or `null`) and
the state after the call. `tupleForPropertyPath` is
`SC.tupleForPropertyPath`, whose code is not among the sources, with `none` for
a path that it cannot resolve; `observable o` says that `o` has the methods
`addObserver` and `removeObserver`. -/
def addObserver (tupleForPropertyPath : PropertyPath → Option Obj → Option (Obj × String))
    (observable : Obj → Bool) (propertyPath : PropertyPath) (target method : Nat)
    (pathRoot : Option Obj) (s : Queue) : Option (Obj × String) × Queue :=
  let (tuple, ret) : Option (Obj × String) × Option (Obj × String) :=
    match propertyPath with
    | .string path =>
      let tuple := tupleForPropertyPath (.string path) pathRoot
      (tuple, tuple)
    | .tuple _ object key => (some (object, key), none)
  match tuple with
  | some (object, key) =>
    if observable object then
      (ret, { s with
        calls := s.calls ++ [.addObserver object key target method],
        observers := registerObserver ⟨object, key, target, method⟩ s.observers })
    else (ret, { s with queue := s.queue ++ [⟨propertyPath, target, method, pathRoot⟩] })
  | none => (ret, { s with queue := s.queue ++ [⟨propertyPath, target, method, pathRoot⟩] })

/-- The loop of `removeObserver` (observer_queue.js 86-97) over the entries
that are still to be visited, the last entry of the queue first: an entry that
differs from the arguments in one of its four parts is pushed on the new queue,
an entry that agrees in all four sets `removed`. -/
def removeLoop (propertyPath : PropertyPath) (target method : Nat) (pathRoot : Option Obj) :
    List Item → List Item → Bool → List Item × Bool
  | [], newQueue, removed => (newQueue, removed)
  | item :: rest, newQueue, removed =>
    if item.propertyPath ≠ propertyPath ∨ item.target ≠ target ∨ item.method ≠ method
        ∨ item.pathRoot ≠ pathRoot then
      removeLoop propertyPath target method pathRoot rest (newQueue ++ [item]) removed
    else removeLoop propertyPath target method pathRoot rest newQueue true

/-- The method `removeObserver(propertyPath, target, method, pathRoot)`
(observer_queue.js 73-103): the value returned and the state after the call,
or `none` when the call throws, which it does when the path resolves to an
object without a method `removeObserver`. -/
def removeObserver (tupleForPropertyPath : PropertyPath → Option Obj → Option (Obj × String))
    (observable : Obj → Bool) (propertyPath : PropertyPath) (target method : Nat)
    (pathRoot : Option Obj) (s : Queue) : Option (Bool × Queue) :=
  let first : Option (Bool × Queue) :=
    match tupleForPropertyPath propertyPath pathRoot with
    | some (object, key) =>
      if observable object then
        some (true, { s with
          calls := s.calls ++ [.removeObserver object key target method],
          observers := unregisterObserver ⟨object, key, target, method⟩ s.observers })
      else none
    | none => some (false, s)
  match first with
  | none => none
  | some (removed, s) =>
    let (newQueue, removed) :=
      removeLoop propertyPath target method pathRoot s.queue.reverse [] removed
    some (removed, { s with queue := newQueue })

end Observers

/-! ## The scroll view (scroll.js 113-187, 371-375) -/

namespace ScrollView

/-- The alignments `SC.ALIGN_LEFT`, `SC.ALIGN_RIGHT`, `SC.ALIGN_CENTER`,
`SC.ALIGN_TOP`, `SC.ALIGN_BOTTOM` and `SC.ALIGN_MIDDLE`. -/
inductive Align where
  | left
  | right
  | center
  | top
  | bottom
  | middle
  deriving DecidableEq

/-- The value `Math.round(size / 2)` for an integer `size`: the nearest
integer, a half being rounded up. -/
def roundHalf (size : Int) : Int := (size + 1) / 2

/-- The method `maximumScrollOffset(contentSize, containerSize, align)`
(scroll.js 117-135). Sizes are whole numbers of pixels. -/
def maximumScrollOffset (contentSize containerSize : Int) (align : Align) : Int :=
  if contentSize ≥ containerSize then contentSize - containerSize
  else if align = .left ∨ align = .top then 0
  else if align = .middle ∨ align = .center then 0 - roundHalf (containerSize - contentSize)
  else 0 - (containerSize - contentSize)

/-- The content view as the scroll view reads it: the width of its frame and
its `calculatedWidth`, `none` when it has none. -/
structure ContentView where
  frameWidth : Int
  calculatedWidth : Option Int

/-- The fields of a scroll view that decide its largest horizontal offset;
`containerWidth` is the width of the frame of the container view, and
`horizontalScrollerView` says whether there is such a view. -/
structure View where
  contentView : Option ContentView
  containerWidth : Int
  _scale : Int
  hasHorizontalScroller : Bool
  horizontalScrollerView : Bool
  isHorizontalScrollerVisible : Bool
  horizontalAlign : Align

/-- The property `canScrollHorizontal` (scroll.js 371-375). -/
def canScrollHorizontal (this : View) : Bool :=
  this.hasHorizontalScroller && this.horizontalScrollerView && this.isHorizontalScrollerVisible

/-- The first lines of `maximumHorizontalScrollOffset` (scroll.js 170-179):
the width of the frame of the content view, or its `calculatedWidth` when that
is truthy, or zero when there is no content view, multiplied by the scale. -/
def contentWidth (this : View) : Int :=
  let view := this.contentView
  let contentWidth : Int := match view with
    | some view => view.frameWidth
    | none => 0
  let calculatedWidth : Option Int := match view with
    | some view => view.calculatedWidth
    | none => some 0
  let contentWidth := match calculatedWidth with
    | some calculated => if calculated = 0 then contentWidth else calculated
    | none => contentWidth
  contentWidth * this._scale

/-- The property `maximumHorizontalScrollOffset` (scroll.js 169-187). -/
def maximumHorizontalScrollOffset (this : View) : Int :=
  let contentWidth := contentWidth this
  let containerWidth := this.containerWidth
  let contentWidth :=
    if !canScrollHorizontal this then min contentWidth containerWidth else contentWidth
  maximumScrollOffset contentWidth containerWidth this.horizontalAlign

end ScrollView

/-! ## addStyle (render_context.js 22-25, 920-1012) -/

namespace RenderContext

/-- The statement `delete hash[key]`: the key is taken out of the hash, the
other keys keep their order. -/
def hashDelete : Hash → String → Hash
  | [], _ => []
  | (k, v) :: rest, key =>
    if k = key then hashDelete rest key else (k, v) :: hashDelete rest key

/-- The constant `SC.COMBO_STYLES` (render_context.js 22-25): the styles that
expand into several properties, each with the properties it expands into. -/
def COMBO_STYLES : List (String × List String) :=
  [("WebkitTransition",
    ["WebkitTransitionProperty", "WebkitTransitionDuration", "WebkitTransitionDelay",
      "WebkitTransitionTimingFunction"])]

/-- The method `_deleteComboStyles(styles, key)` (render_context.js 920-935):
the hash after the call and the value returned. A property of the combination
is deleted when its value is truthy. -/
def _deleteComboStyles (styles : Hash) (key : String) : Hash × Bool :=
  match COMBO_STYLES.lookup key with
  | some comboStyles =>
    comboStyles.foldl
      (fun (state : Hash × Bool) tmp =>
        if truthy (hashGet state.1 tmp) then (hashDelete state.1 tmp, true) else state)
      (styles, false)
  | none => (styles, false)

/-- The first argument of `addStyle`: a style name or a hash of styles. -/
inductive NameOrStyles where
  | name (name : String)
  | styles (styles : Hash)

/-- What `addStyle` returns: the receiver, or, in the reader form, the value
`styles[nameOrStyles]`, where `none` is `undefined`. -/
inductive ReceiverOrStyle where
  | receiver
  | style (value : Option (Option Text))
  deriving DecidableEq

/-- The method `addStyle(nameOrStyles, value)` (render_context.js 955-1012):
what the call returns and the context after it. A `value` that is `none` is
`undefined`, one that is `some none` is `null`. With a backing element the
styles are set on the element by jQuery. -/
def addStyle (nameOrStyles : NameOrStyles) (value : Option (Option Text)) (ctx : Context) :
    ReceiverOrStyle × Context :=
  if ctx._elem then (.receiver, ctx)
  else
    let (styles, ctx) := styles ctx
    match nameOrStyles with
    | .name nameOrStyles =>
      match value with
      | none => (.style (hashGet styles nameOrStyles), ctx)
      | some value =>
        let (styles, didChange) := _deleteComboStyles styles nameOrStyles
        let (styles, didChange) :=
          if hashGet styles nameOrStyles ≠ some value then (hashSet styles nameOrStyles value, true)
          else (styles, didChange)
        (.receiver, { ctx with _styles := some styles,
                               _stylesDidChange := if didChange then true else ctx._stylesDidChange })
    | .styles nameOrStyles =>
      let (styles, didChange) := nameOrStyles.foldl
        (fun (state : Hash × Bool) entry =>
          let (styles, didChange) := state
          let key := entry.1
          let (styles, didChange) :=
            if didChange then (styles, didChange) else _deleteComboStyles styles key
          let value := entry.2
          if hashGet styles key ≠ some value then (hashSet styles key value, true)
          else (styles, didChange))
        (styles, false)
      (.receiver, { ctx with _styles := some styles,
                             _stylesDidChange := if didChange then true else ctx._stylesDidChange })

/-- The single form `addStyle(key, value)` called once for each key of a hash,
in the order of the keys. -/
def addStyleEach (nameOrStyles : Hash) (ctx : Context) : Context :=
  nameOrStyles.foldl (fun ctx entry => (addStyle (.name entry.1) (some entry.2) ctx).2) ctx

end RenderContext

/-! ## flush of SC.Observers (observer_queue.js 124-224) -/

namespace Observers

/-- The call `s.indexOf(c)` for one character `c`, on the characters of `s`:
the place of the first `c`, or -1 when there is none. -/
def indexOf : List Char → Char → Int
  | [], _ => -1
  | c :: rest, searchValue =>
    if c = searchValue then 0
    else if indexOf rest searchValue < 0 then -1 else indexOf rest searchValue + 1

/-- The call `s.slice(beginIndex, endIndex)` of a string or an array, on its
members; `endIndex` is `none` when it is left out. An index below zero counts
from the end, and the result is empty when the end is not after the begin. -/
def sliceList {α : Type} (xs : List α) (beginIndex : Int) (endIndex : Option Int) : List α :=
  let len : Int := xs.length
  let index (i : Int) : Nat := if i < 0 then (len + i).toNat else i.toNat
  let last : Nat := match endIndex with
    | none => xs.length
    | some endIndex => index endIndex
  (xs.take last).drop (index beginIndex)

/-- The call `s.slice(beginIndex, endIndex)` on a string. -/
def slice (s : String) (beginIndex : Int) (endIndex : Option Int) : String :=
  String.mk (sliceList s.data beginIndex endIndex)

/-- The path of the temporary observer for an entry that does not resolve
(observer_queue.js 157-187): `none` is `null`, no path could be made. A path
given as a tuple is an array of two members, the object and the key: its first
member is never the string `'.'` or `'*'`, `indexOf` finds the key or nothing,
and a slice of it joined to a string is its members joined by commas, where
`objectString` gives the string of an object. -/
def chainedPath (objectString : Obj → String) (propertyPath : PropertyPath)
    (pathRoot : Option Obj) : Option String :=
  match propertyPath with
  | .string path =>
    let firstChar := path.data.head?
    if firstChar = some '.' then some ("*" ++ slice path 1 none)
    else if firstChar ≠ some '*' then
      if pathRoot.isSome then
        let starIdx := indexOf path.data '*'
        if starIdx ≥ 0 then
          some ("*" ++ slice path 0 (some starIdx) ++ "." ++ slice path (starIdx + 1) none)
        else some ("*" ++ path)
      else
        let dotIdx := indexOf path.data '.'
        let starIdx := indexOf path.data '*'
        if dotIdx ≥ 0 ∧ starIdx < 0 then
          some (slice path 0 (some dotIdx) ++ "*" ++ slice path (dotIdx + 1) none)
        else if dotIdx ≥ 0 ∧ starIdx > dotIdx then
          some (slice path 0 (some dotIdx) ++ "*"
            ++ slice path (dotIdx + 1) (some (starIdx - dotIdx - 1)) ++ "."
            ++ slice path (starIdx + 1) none)
        else none
    else none
  | .tuple _ object key =>
    let members : List String := [objectString object, key]
    let slice (beginIndex : Int) (endIndex : Option Int) : String :=
      ",".intercalate (sliceList members beginIndex endIndex)
    let indexOf (searchValue : String) : Int := if key = searchValue then 1 else -1
    if pathRoot.isSome then
      let starIdx := indexOf "*"
      if starIdx ≥ 0 then some ("*" ++ slice 0 (some starIdx) ++ "." ++ slice (starIdx + 1) none)
      else some ("*" ++ slice 0 none)
    else
      let dotIdx := indexOf "."
      let starIdx := indexOf "*"
      if dotIdx ≥ 0 ∧ starIdx < 0 then
        some (slice 0 (some dotIdx) ++ "*" ++ slice (dotIdx + 1) none)
      else if dotIdx ≥ 0 ∧ starIdx > dotIdx then
        some (slice 0 (some dotIdx) ++ "*" ++ slice (dotIdx + 1) (some (starIdx - dotIdx - 1))
          ++ "." ++ slice (starIdx + 1) none)
      else none

/-- The value `item[0].length`: the length of a string, two for a tuple. -/
def pathLength : PropertyPath → Nat
  | .string path => path.length
  | .tuple _ _ _ => 2

/-- A call that `flush` makes on an object: `tuple[0].addObserver(tuple[1],
item[1], item[2])` for an entry that resolves, or `tuple[0].addObserver(tuple[1],
item[1], tempObserver)` on the object and key that the path of the temporary
observer resolves to, where the function `tempObserver` holds on to the
entry. -/
inductive Connection where
  | observer (object : Obj) (key : String) (target method : Nat)
  | temporary (object : Obj) (key : String) (target : Nat) (item : Item)
  deriving DecidableEq

/-- The test `tuple = SC.tupleForPropertyPath(path, root)` followed by
`tuple && tuple[0].addObserver` (observer_queue.js 148-150 and 189-190): the
tuple when the path resolves to an object that can be observed. -/
def resolve (tupleForPropertyPath : PropertyPath → Option Obj → Option (Obj × String))
    (observable : Obj → Bool) (path : PropertyPath) (root : Option Obj) : Option (Obj × String) :=
  match tupleForPropertyPath path root with
  | some (object, key) => if observable object then some (object, key) else none
  | none => none

/-- The body of the loop of `flush` (observer_queue.js 144-222) for one entry:
the new queue and the calls made so far, after the entry. -/
def flushItem (tupleForPropertyPath : PropertyPath → Option Obj → Option (Obj × String))
    (observable : Obj → Bool) (objectString : Obj → String)
    (state : List Item × List Connection) (item : Item) : List Item × List Connection :=
  let (newQueue, calls) := state
  match resolve tupleForPropertyPath observable item.propertyPath item.pathRoot with
  | some (object, key) => (newQueue, calls ++ [.observer object key item.target item.method])
  | none =>
    if pathLength item.propertyPath ≠ 0 then
      match chainedPath objectString item.propertyPath item.pathRoot with
      | some chainedPath =>
        if chainedPath ≠ "" then
          match resolve tupleForPropertyPath observable (.string chainedPath) item.pathRoot with
          | some (object, key) => (newQueue, calls ++ [.temporary object key item.target item])
          | none => (newQueue ++ [item], calls)
        else (newQueue ++ [item], calls)
      | none => (newQueue ++ [item], calls)
    else (newQueue, calls)

/-- The first part of the method `flush(object)` (observer_queue.js 127-224),
which goes through the queue: the queue after the call and the calls made on
objects, first call first. The second part, on range observers, does not touch
the queue. -/
def flush (tupleForPropertyPath : PropertyPath → Option Obj → Option (Obj × String))
    (observable : Obj → Bool) (objectString : Obj → String) (queue : List Item) :
    List Item × List Connection :=
  let oldQueue := queue
  let queueLen := oldQueue.length
  if queueLen > 0 then
    oldQueue.foldl (flushItem tupleForPropertyPath observable objectString) ([], [])
  else (queue, [])

/-- An example of `SC.tupleForPropertyPath`, for a state of the objects in
which the path `a.b` resolves to the object 1 and the path `c*d` to the
object 2, and no other path resolves. -/
def sampleTuple (path : PropertyPath) (root : Option Obj) : Option (Obj × String) :=
  if path = .string "a.b" then some (1, "b")
  else if path = .string "c*d" then some (2, "d")
  else none

/-- An example of a queue: four entries without root, with the paths `a.b`,
`c.d`, `e.f` and the empty path. -/
def sampleQueue : List Item :=
  [⟨.string "a.b", 10, 11, none⟩, ⟨.string "c.d", 20, 21, none⟩,
    ⟨.string "e.f", 30, 31, none⟩, ⟨.string "", 40, 41, none⟩]

end Observers

/-! ## Scrolling by lines (scroll.js 86-111, 141-158, 198-273, 425-429, 512-661) -/

namespace ScrollView

/-- The method `minimumScrollOffset(contentSize, containerSize, align)`
(scroll.js 141-158). -/
def minimumScrollOffset (contentSize containerSize : Int) (align : Align) : Int :=
  if contentSize > containerSize then 0
  else if align = .left ∨ align = .top then 0
  else if align = .middle ∨ align = .center then 0 - roundHalf (containerSize - contentSize)
  else 0 - (containerSize - contentSize)

/-- The property `minimumHorizontalScrollOffset` (scroll.js 228-245); its
first lines compute the content width as `maximumHorizontalScrollOffset`
does. -/
def minimumHorizontalScrollOffset (this : View) : Int :=
  let contentWidth := contentWidth this
  let containerWidth := this.containerWidth
  let contentWidth :=
    if !canScrollHorizontal this then min contentWidth containerWidth else contentWidth
  minimumScrollOffset contentWidth containerWidth this.horizontalAlign

/-- The scroll view with the fields that the scrolling methods read and write:
`view` holds those of the horizontal direction, and the content view, whose
frame has the height `frameHeight`; the two offsets start at zero
(scroll.js 1477-1480). -/
structure Scrolling where
  view : View
  frameHeight : Int
  calculatedHeight : Option Int
  containerHeight : Int
  hasVerticalScroller : Bool
  verticalScrollerView : Bool
  isVerticalScrollerVisible : Bool
  verticalAlign : Align
  horizontalLineScroll : Int
  verticalLineScroll : Int
  _scroll_horizontalScrollOffset : Int
  _scroll_verticalScrollOffset : Int

/-- The property `canScrollVertical` (scroll.js 425-429). -/
def canScrollVertical (this : Scrolling) : Bool :=
  this.hasVerticalScroller && this.verticalScrollerView && this.isVerticalScrollerVisible

/-- The first lines of `maximumVerticalScrollOffset` and of
`minimumVerticalScrollOffset` (scroll.js 199-208, 257-266): the height of the
frame of the content view, or its `calculatedHeight` when that is truthy, or
zero when there is no content view, multiplied by the scale. -/
def contentHeight (this : Scrolling) : Int :=
  let view := this.view.contentView
  let contentHeight : Int := if view.isSome then this.frameHeight else 0
  let calculatedHeight : Option Int := if view.isSome then this.calculatedHeight else some 0
  let contentHeight := match calculatedHeight with
    | some calculated => if calculated = 0 then contentHeight else calculated
    | none => contentHeight
  contentHeight * this.view._scale

/-- The property `maximumVerticalScrollOffset` (scroll.js 198-216). -/
def maximumVerticalScrollOffset (this : Scrolling) : Int :=
  let contentHeight := contentHeight this
  let containerHeight := this.containerHeight
  let contentHeight :=
    if !canScrollVertical this then min contentHeight containerHeight else contentHeight
  maximumScrollOffset contentHeight containerHeight this.verticalAlign

/-- The property `minimumVerticalScrollOffset` (scroll.js 256-274). -/
def minimumVerticalScrollOffset (this : Scrolling) : Int :=
  let contentHeight := contentHeight this
  let containerHeight := this.containerHeight
  let contentHeight :=
    if !canScrollVertical this then min contentHeight containerHeight else contentHeight
  minimumScrollOffset contentHeight containerHeight this.verticalAlign

/-- The property `horizontalScrollOffset` (scroll.js 86-94), the function
`function(key, value)` itself: with a value it is the setter, with `none`, which
is `undefined`, the getter. It gives the value returned and the view after the
call. -/
def horizontalScrollOffset (value : Option Int) (this : Scrolling) : Int × Scrolling :=
  let this := match value with
    | some value =>
      let minOffset := minimumHorizontalScrollOffset this.view
      let maxOffset := maximumHorizontalScrollOffset this.view
      { this with _scroll_horizontalScrollOffset := max minOffset (min maxOffset value) }
    | none => this
  (this._scroll_horizontalScrollOffset, this)

/-- The property `verticalScrollOffset` (scroll.js 103-111). -/
def verticalScrollOffset (value : Option Int) (this : Scrolling) : Int × Scrolling :=
  let this := match value with
    | some value =>
      let minOffset := minimumVerticalScrollOffset this
      let maxOffset := maximumVerticalScrollOffset this
      { this with _scroll_verticalScrollOffset := max minOffset (min maxOffset value) }
    | none => this
  (this._scroll_verticalScrollOffset, this)

/-- The method `scrollTo(x, y)` (scroll.js 512-526) with two numbers, each of
which may be `null` or `undefined` (`none`). The code of `get` and `set` is not
among the sources: `this.set(key, value)` runs the property function with the
value, and `this.get(key)` runs it without. -/
def scrollTo (x y : Option Int) (this : Scrolling) : Scrolling :=
  let this := match x with
    | some x => (horizontalScrollOffset (some x) this).2
    | none => this
  let this := match y with
    | some y => (verticalScrollOffset (some y) this).2
    | none => this
  this

/-- The method `scrollBy(x, y)` (scroll.js 540-550) with two numbers: an
amount that is `null`, `undefined` or zero is passed on as `null`. -/
def scrollBy (x y : Option Int) (this : Scrolling) : Scrolling :=
  let x : Option Int := match x with
    | some x => if x ≠ 0 then some ((horizontalScrollOffset none this).1 + x) else none
    | none => none
  let y : Option Int := match y with
    | some y => if y ≠ 0 then some ((verticalScrollOffset none this).1 + y) else none
    | none => none
  scrollTo x y this

/-- The method `scrollDownLine(lines)` (scroll.js 622-625); `none` is
`undefined`, no number of lines given. -/
def scrollDownLine (lines : Option Int) (this : Scrolling) : Scrolling :=
  let lines := lines.getD 1
  scrollBy none (some (this.verticalLineScroll * lines)) this

/-- The method `scrollUpLine(lines)` (scroll.js 634-637). -/
def scrollUpLine (lines : Option Int) (this : Scrolling) : Scrolling :=
  let lines := lines.getD 1
  scrollBy none (some (0 - this.verticalLineScroll * lines)) this

/-- The method `scrollRightLine(lines)` (scroll.js 646-649). -/
def scrollRightLine (lines : Option Int) (this : Scrolling) : Scrolling :=
  let lines := lines.getD 1
  scrollTo (some (this.horizontalLineScroll * lines)) none this

/-- The method `scrollLeftLine(lines)` (scroll.js 658-661). -/
def scrollLeftLine (lines : Option Int) (this : Scrolling) : Scrolling :=
  let lines := lines.getD 1
  scrollTo (some (0 - this.horizontalLineScroll * lines)) none this

/-- A scroll view of 100 by 100 on a content view of 500 by 500, with both
scrollers shown, lines of 20 and both offsets at zero, as a view is when it is
made with the defaults of the class (scroll.js 284, 296, 1477-1480). -/
def contentOf500 : Scrolling :=
  { view :=
      { contentView := some ⟨500, none⟩, containerWidth := 100, _scale := 1,
        hasHorizontalScroller := true, horizontalScrollerView := true,
        isHorizontalScrollerVisible := true, horizontalAlign := .left },
    frameHeight := 500, calculatedHeight := none, containerHeight := 100,
    hasVerticalScroller := true, verticalScrollerView := true, isVerticalScrollerVisible := true,
    verticalAlign := .top, horizontalLineScroll := 20, verticalLineScroll := 20,
    _scroll_horizontalScrollOffset := 0, _scroll_verticalScrollOffset := 0 }

end ScrollView

/-! ## createChain: the loop and its result -/

theorem createChainLoop_eq (parts : List String) (t : Obj) (k : String) :
    ∀ (n i : Nat) (acc : List PropertyChain), parts.length - i ≤ n →
      createChainLoop parts t k i acc = acc ++ nodesFrom t k (parts.drop i) := by
  intro n
  induction n with
  | zero =>
    intro i acc h
    rw [createChainLoop]
    have : ¬ i < parts.length := by omega
    simp [this, List.drop_eq_nil_of_le (Nat.le_of_not_lt this), nodesFrom]
  | succ n ih =>
    intro i acc h
    rw [createChainLoop]
    by_cases hi : i < parts.length
    · simp only [hi, if_true]
      obtain ⟨p, rest, hd⟩ : ∃ p rest, parts.drop i = p :: rest := by
        cases hd : parts.drop i with
        | nil => simp at hd; omega
        | cons p rest => exact ⟨p, rest, rfl⟩
      have hget : ∀ j, parts[i + j]? = (p :: rest)[j]? := by
        intro j; rw [← hd, List.getElem?_drop]
      have h0 : parts[i]? = some p := by simpa using hget 0
      have h1 : parts[i + 1]? = rest[0]? := by simpa using hget 1
      have h2 : parts[i + 2]? = rest[1]? := by simpa using hget 2
      have h3 : parts[i + 3]? = rest[2]? := by simpa using hget 3
      have hrest : ∀ j, parts.drop (i + (j + 1)) = rest.drop j := by
        intro j
        rw [← List.drop_drop, hd]; rfl
      by_cases hp : p = "@each"
      · subst hp
        simp only [h0, decide_True, if_true]
        rw [ih (i + 1 + 1) _ (by omega), hd, hrest 1]
        cases rest with
        | nil => simp [nodesFrom, h1, h2]
        | cons q rest2 =>
          simp only [nodesFrom, if_true, List.drop_succ_cons, List.drop_zero, List.append_assoc,
            List.singleton_append, lookahead]
          simp [h1, h2, h3, show i + 1 + 1 = i + 2 from rfl, show i + 1 + 2 = i + 3 from rfl]
      · have hne : ¬ (some p = some "@each") := by simpa using hp
        simp only [h0, hne, decide_False, Bool.false_eq_true, if_false]
        rw [ih (i + 1) _ (by omega), hd, hrest 0]
        conv_rhs => rw [nodesFrom.eq_def]
        simp [hp, lookahead, h1, h2]
    · simp [hi, List.drop_eq_nil_of_le (Nat.le_of_not_lt hi), nodesFrom]

theorem createChain_eq (path : String) (t : Obj) (k : String) :
    createChain path t k = nodesFrom t k (split path) := by
  unfold createChain
  rw [createChainLoop_eq _ t k _ 0 [] (Nat.le_refl _)]
  simp


theorem intercalate_go_data (sep : String) : ∀ (as : List String) (acc : String),
    (String.intercalate.go acc sep as).data
      = acc.data ++ (as.map (fun a => sep.data ++ a.data)).flatten := by
  intro as
  induction as with
  | nil => intro acc; simp [String.intercalate.go]
  | cons a as ih =>
    intro acc
    simp [String.intercalate.go, ih, List.append_assoc]

theorem intercalate_data (sep : String) (segs : List String) :
    (String.intercalate sep segs).data = sep.data.intercalate (segs.map String.data) := by
  cases segs with
  | nil => simp [String.intercalate, List.intercalate]
  | cons a as =>
    simp only [String.intercalate, intercalate_go_data, List.intercalate, List.map_cons]
    induction as generalizing a with
    | nil => simp
    | cons b bs ih =>
      simp [List.intersperse, ih b]

theorem split_intercalate (segs : List String) (hne : segs ≠ [])
    (hdot : ∀ s ∈ segs, '.' ∉ s.toList) : split (String.intercalate "." segs) = segs := by
  unfold split
  rw [String.toList, intercalate_data]
  have : ("." : String).data = ['.'] := rfl
  rw [this, List.splitOn_intercalate]
  · simp [List.map_map, Function.comp_def]
  · intro l hl
    simp only [List.mem_map] at hl
    obtain ⟨s, hs, rfl⟩ := hl
    exact hdot s hs
  · simpa using hne

theorem EachFollowed.tail {p : String} {rest : List String} (h : EachFollowed (p :: rest)) :
    EachFollowed rest := by
  intro i hi
  have := h (i + 1) (by simpa using hi)
  simpa using this

theorem nodesFrom_cons_plain (t : Obj) (k : String) (p : String) (rest : List String)
    (hp : p ≠ "@each") :
    nodesFrom t k (p :: rest) = ⟨some p, t, k, lookahead rest, false⟩ :: nodesFrom t k rest := by
  rw [nodesFrom.eq_def]; simp [hp]

theorem nodesFrom_cons_each (t : Obj) (k : String) (q : String) (rest : List String) :
    nodesFrom t k ("@each" :: q :: rest)
      = ⟨some q, t, k, lookahead rest, true⟩ :: nodesFrom t k rest := by
  rw [nodesFrom.eq_def]; simp

theorem nodesFrom_ne_nil (t : Obj) (k : String) (segs : List String) (h : segs ≠ []) :
    nodesFrom t k segs ≠ [] := by
  cases segs with
  | nil => exact absurd rfl h
  | cons p rest =>
    rw [nodesFrom.eq_def]
    by_cases hp : p = "@each"
    · cases rest <;> simp [hp]
    · simp [hp]

theorem nodesFrom_plain (t : Obj) (k : String) :
    ∀ segs : List String, (∀ s ∈ segs, s ≠ "@each") →
      nodesFrom t k segs
        = (List.range segs.length).map (fun i => ⟨segs[i]?, t, k, segs[i + 1]?, false⟩) := by
  intro segs
  induction segs with
  | nil => intro _; simp [nodesFrom]
  | cons p rest ih =>
    intro h
    have hp : p ≠ "@each" := h p (by simp)
    have hrest : ∀ s ∈ rest, s ≠ "@each" := fun s hs => h s (by simp [hs])
    rw [nodesFrom_cons_plain t k p rest hp, ih hrest, List.length_cons, List.range_succ_eq_map]
    have hl : lookahead rest = rest[0]? := by
      unfold lookahead
      cases rest with
      | nil => simp
      | cons q r =>
        have : q ≠ "@each" := hrest q (by simp)
        simp [this]
    simp [hl, Function.comp_def]

theorem lookahead_eq_head (t : Obj) (k : String) (rest : List String) (h : EachFollowed rest) :
    lookahead rest = ((nodesFrom t k rest).map (·.property)).head?.join := by
  cases rest with
  | nil => simp [lookahead, nodesFrom]
  | cons p r =>
    by_cases hp : p = "@each"
    · subst hp
      obtain ⟨q, hq, hne⟩ := h 0 (by simp)
      cases r with
      | nil => simp at hq
      | cons q2 r2 =>
        simp at hq; subst hq
        rw [nodesFrom_cons_each]; simp [lookahead]
    · rw [nodesFrom_cons_plain t k p r hp]; simp [lookahead, hp]

theorem nodesFrom_spec (t : Obj) (k : String) :
    ∀ (n : Nat) (segs : List String), segs.length ≤ n → EachFollowed segs →
      (∀ prev : Option String, prev ≠ some "@each" →
        (nodesFrom t k segs).map (·.property) = (segs.filter (· ≠ "@each")).map some
        ∧ (nodesFrom t k segs).map (·.isAtEach)
            = ((List.zip (prev :: segs.map some) segs).filter (fun x => x.2 ≠ "@each")).map
                (fun x => decide (x.1 = some "@each")))
      ∧ (segs ≠ [] → (nodesFrom t k segs).map (·.nextProperty)
            = ((nodesFrom t k segs).map (·.property)).tail ++ [none])
      ∧ (∀ a ∈ nodesFrom t k segs, a.target = t ∧ a.toInvalidate = k) := by
  intro n
  induction n with
  | zero =>
    intro segs hlen _
    have : segs = [] := List.length_eq_zero.mp (Nat.le_zero.mp hlen)
    subst this
    simp [nodesFrom]
  | succ n ih =>
    intro segs hlen hwf
    cases segs with
    | nil => simp [nodesFrom]
    | cons p rest =>
      by_cases hp : p = "@each"
      · subst hp
        obtain ⟨q, hq, hne⟩ := hwf 0 (by simp)
        cases rest with
        | nil => simp at hq
        | cons q2 r2 =>
          simp at hq; subst hq
          have hwf2 : EachFollowed r2 := hwf.tail.tail
          obtain ⟨ih1, ih2, ih3⟩ := ih r2 (by simp at hlen; omega) hwf2
          rw [nodesFrom_cons_each]
          refine ⟨?_, ?_, ?_⟩
          · intro prev hprev
            obtain ⟨e1, e2⟩ := ih1 (some q2) (by simpa using hne)
            simp [hne, e1, e2]
          · intro _
            have hl := lookahead_eq_head t k r2 hwf2
            by_cases hr : r2 = []
            · subst hr; simp [nodesFrom, lookahead]
            · have := ih2 hr
              simp only [List.map_cons, List.tail_cons]
              rw [this, hl]
              cases hm : (nodesFrom t k r2).map (·.property) with
              | nil => exact absurd (List.map_eq_nil_iff.mp hm) (nodesFrom_ne_nil t k r2 hr)
              | cons x xs => simp
          · intro a ha
            simp at ha
            rcases ha with rfl | ha
            · simp
            · exact ih3 a ha
      · have hwf2 : EachFollowed rest := hwf.tail
        obtain ⟨ih1, ih2, ih3⟩ := ih rest (by simp at hlen; omega) hwf2
        rw [nodesFrom_cons_plain t k p rest hp]
        refine ⟨?_, ?_, ?_⟩
        · intro prev hprev
          obtain ⟨e1, e2⟩ := ih1 (some p) (by simpa using hp)
          simp [hp, e1, e2, hprev]
        · intro _
          have hl := lookahead_eq_head t k rest hwf2
          by_cases hr : rest = []
          · subst hr; simp [nodesFrom, lookahead]
          · have := ih2 hr
            simp only [List.map_cons, List.tail_cons]
            rw [this, hl]
            cases hm : (nodesFrom t k rest).map (·.property) with
            | nil => exact absurd (List.map_eq_nil_iff.mp hm) (nodesFrom_ne_nil t k rest hr)
            | cons x xs => simp
        · intro a ha
          simp at ha
          rcases ha with rfl | ha
          · simp
          · exact ih3 a ha

theorem createChain_intercalate (segs : List String) (t : Obj) (k : String) (hne : segs ≠ [])
    (hdot : ∀ s ∈ segs, '.' ∉ s.toList) :
    createChain (String.intercalate "." segs) t k = nodesFrom t k segs := by
  rw [createChain_eq, split_intercalate segs hne hdot]

theorem split_ne_nil (path : String) : split path ≠ [] := by
  unfold split
  intro h
  have h2 := List.map_eq_nil_iff.mp h
  unfold List.splitOn at h2
  exact List.splitOnP_ne_nil _ _ h2

/-- C3. For every path of n >= 1 dot-separated segments none of which is
`@each`, `createChain(path, target, toInvalidate)` is a linked list of exactly n
nodes whose i-th node has `property` = segment i, `nextProperty` = segment i+1
(undefined for the last node), `isAtEach` = false, and the given `target` and
`toInvalidate`; the list ends after the n-th node. -/
theorem createChain_plain (segs : List String) (t : Obj) (k : String) (hne : segs ≠ [])
    (hdot : ∀ s ∈ segs, '.' ∉ s.toList) (hplain : ∀ s ∈ segs, s ≠ "@each") :
    createChain (String.intercalate "." segs) t k
      = (List.range segs.length).map (fun i => ⟨segs[i]?, t, k, segs[i + 1]?, false⟩) := by
  rw [createChain_intercalate segs t k hne hdot, nodesFrom_plain t k segs hplain]

/-- Witness of C3: the class documentation example `foo.bar.baz`. -/
theorem createChain_plain_witness :
    createChain (String.intercalate "." ["foo", "bar", "baz"]) 0 "p"
      = (List.range 3).map
          (fun i => ⟨["foo", "bar", "baz"][i]?, 0, "p", ["foo", "bar", "baz"][i + 1]?, false⟩) :=
  createChain_plain ["foo", "bar", "baz"] 0 "p" (by decide) (by decide) (by decide)

/-- C4. For every path in which each `@each` segment is immediately followed by
a segment other than `@each`, the chain has one node per non-`@each` segment, in
path order, so no node has property `@each`; the `isAtEach` flags are, in
order, whether each non-`@each` segment was immediately preceded by `@each`;
each node's `nextProperty` is the property of its next node, undefined for the
last; and every node carries the given `target` and `toInvalidate`. -/
theorem createChain_atEach (segs : List String) (t : Obj) (k : String) (hne : segs ≠ [])
    (hdot : ∀ s ∈ segs, '.' ∉ s.toList) (hwf : EachFollowed segs) :
    (createChain (String.intercalate "." segs) t k).map (·.property)
        = (segs.filter (· ≠ "@each")).map some
      ∧ (∀ a ∈ createChain (String.intercalate "." segs) t k, a.property ≠ some "@each")
      ∧ (createChain (String.intercalate "." segs) t k).map (·.isAtEach)
          = ((List.zip (none :: segs.map some) segs).filter (fun x => x.2 ≠ "@each")).map
              (fun x => decide (x.1 = some "@each"))
      ∧ (createChain (String.intercalate "." segs) t k).map (·.nextProperty)
          = ((createChain (String.intercalate "." segs) t k).map (·.property)).tail ++ [none]
      ∧ (∀ a ∈ createChain (String.intercalate "." segs) t k, a.target = t ∧ a.toInvalidate = k) := by
  rw [createChain_intercalate segs t k hne hdot]
  obtain ⟨h1, h2, h3⟩ := nodesFrom_spec t k segs.length segs (Nat.le_refl _) hwf
  obtain ⟨hp, hf⟩ := h1 none (by simp)
  refine ⟨hp, ?_, hf, h2 hne, h3⟩
  intro a ha heq
  have hmem : some "@each" ∈ (nodesFrom t k segs).map (·.property) :=
    List.mem_map.mpr ⟨a, ha, heq⟩
  rw [hp] at hmem
  simp at hmem

/-- Witness of C4: a path with two `@each` markers, as the doubly nested path
of the `@each` test module. -/
theorem createChain_atEach_witness :
    (createChain (String.intercalate "." ["a", "@each", "b", "@each", "c"]) 0 "p").map (·.property)
        = ((["a", "@each", "b", "@each", "c"] : List String).filter (· ≠ "@each")).map some
      ∧ (createChain (String.intercalate "." ["a", "@each", "b", "@each", "c"]) 0 "p").map (·.isAtEach)
          = ((List.zip (none :: (["a", "@each", "b", "@each", "c"] : List String).map some) ["a", "@each", "b", "@each", "c"]).filter
              (fun x => x.2 ≠ "@each")).map (fun x => decide (x.1 = some "@each"))
      ∧ (createChain (String.intercalate "." ["a", "@each", "b", "@each", "c"]) 0 "p").map (·.nextProperty)
          = ((createChain (String.intercalate "." ["a", "@each", "b", "@each", "c"]) 0 "p").map (·.property)).tail
              ++ [none] :=
  have h := createChain_atEach ["a", "@each", "b", "@each", "c"] 0 "p" (by decide) (by decide)
    (by
      intro i hi
      match i, hi with
      | 1, _ => exact ⟨"b", rfl, by decide⟩
      | 3, _ => exact ⟨"c", rfl, by decide⟩
      | 0, h => exact absurd h (by decide)
      | 2, h => exact absurd h (by decide)
      | 4, h => exact absurd h (by decide)
      | n + 5, h => simp at h)
  ⟨h.1, h.2.2.1, h.2.2.2.1⟩

/-- C5, as the code has it: `createChain` raises nothing. For every path it
returns a chain with a root node, all of whose nodes carry the given `target`
and `toInvalidate`, also when `@each` is the first segment, the last one or
doubled. -/
theorem createChain_total (path : String) (t : Obj) (k : String) :
    createChain path t k ≠ []
      ∧ ∀ a ∈ createChain path t k, a.target = t ∧ a.toInvalidate = k := by
  rw [createChain_eq]
  refine ⟨nodesFrom_ne_nil t k _ (split_ne_nil path), ?_⟩
  generalize split path = segs
  suffices h : ∀ n (segs : List String), segs.length ≤ n →
      ∀ a ∈ nodesFrom t k segs, a.target = t ∧ a.toInvalidate = k from
    h segs.length segs (Nat.le_refl _)
  intro n
  induction n with
  | zero =>
    intro segs hlen
    have : segs = [] := List.length_eq_zero.mp (Nat.le_zero.mp hlen)
    subst this
    simp [nodesFrom]
  | succ n ih =>
    intro segs hlen a ha
    cases segs with
    | nil => simp [nodesFrom] at ha
    | cons p rest =>
      by_cases hp : p = "@each"
      · subst hp
        cases rest with
        | nil =>
          rw [nodesFrom.eq_def] at ha
          simp at ha
          subst ha
          simp
        | cons q r =>
          rw [nodesFrom_cons_each] at ha
          simp at ha
          rcases ha with rfl | ha
          · simp
          · exact ih r (by simp at hlen; omega) a ha
      · rw [nodesFrom_cons_plain t k p rest hp] at ha
        simp at ha
        rcases ha with rfl | ha
        · simp
        · exact ih rest (by simp at hlen; omega) a ha

/-- C5 fails on the code: with `@each` first, last or doubled, `createChain`
returns a chain. A leading marker flags the root, a trailing one yields a last
node without property, a doubled one a node whose property is `@each`. -/
theorem createChain_malformed_returns :
    createChain "@each.name" 0 "p" = [⟨some "name", 0, "p", none, true⟩]
      ∧ createChain "items.@each" 0 "p"
          = [⟨some "items", 0, "p", none, false⟩, ⟨none, 0, "p", none, true⟩]
      ∧ createChain "items.@each.@each.name" 0 "p"
          = [⟨some "items", 0, "p", some "@each", false⟩, ⟨some "@each", 0, "p", some "name", true⟩,
              ⟨some "name", 0, "p", none, false⟩] := by
  refine ⟨?_, ?_, ?_⟩ <;> rw [createChain_eq] <;> decide

/-! ## Footprints of the operations -/

theorem Steps.refl (F : Cell → Prop) (w : World) : Steps F w w := Relation.ReflTransGen.refl

theorem Steps.trans {F : Cell → Prop} {w1 w2 w3 : World} (h1 : Steps F w1 w2)
    (h2 : Steps F w2 w3) : Steps F w1 w3 := Relation.ReflTransGen.trans h1 h2

theorem Steps.single {F : Cell → Prop} {w1 w2 : World} (h : Prim F w1 w2) : Steps F w1 w2 :=
  Relation.ReflTransGen.single h

theorem Prim.widen {F G : Cell → Prop} (h : ∀ c, F c → G c) {w1 w2 : World}
    (p : Prim F w1 w2) : Prim G w1 w2 := by
  cases p with
  | setObject a v ha => exact Prim.setObject _ a v (h _ ha)
  | allocate guid via ha => exact Prim.allocate _ guid via (fun b h1 h2 => h _ (ha b h1 h2))
  | register o p a ha => exact Prim.register _ o p a (h _ ha)
  | remove o p a ha => exact Prim.remove _ o p a (h _ ha)
  | addEnumerable c a ha => exact Prim.addEnumerable _ c a (h _ ha)
  | dropEnumerable c a ha => exact Prim.dropEnumerable _ c a (h _ ha)
  | recordClone c a m ha => exact Prim.recordClone _ c a m (h _ ha)
  | clearClones c a ha => exact Prim.clearClones _ c a (h _ ha)

theorem Steps.enlarge {F G : Cell → Prop} (h : ∀ c, F c → G c) {w1 w2 : World}
    (s : Steps F w1 w2) : Steps G w1 w2 := by
  induction s with
  | refl => exact Steps.refl _ _
  | tail _ p ih => exact Relation.ReflTransGen.tail ih (p.widen h)

theorem Steps.foldl {F : Cell → Prop} {α : Type} (f : World → α → World)
    (h : ∀ (x : α) (w : World), Steps F w (f w x)) :
    ∀ (l : List α) (w : World), Steps F w (l.foldl f w) := by
  intro l
  induction l with
  | nil => intro w; exact Steps.refl _ _
  | cons x xs ih => intro w; exact (h x w).trans (ih (f w x))

/-- The elementary updates never write the object graph. -/
theorem Steps.get_eq {F : Cell → Prop} {w1 w2 : World} (s : Steps F w1 w2) : w2.get = w1.get := by
  induction s with
  | refl => rfl
  | tail _ p ih => rw [← ih]; cases p <;> rfl

theorem Steps.members_eq {F : Cell → Prop} {w1 w2 : World} (s : Steps F w1 w2) :
    w2.members = w1.members := by
  induction s with
  | refl => rfl
  | tail _ p ih => rw [← ih]; cases p <;> rfl

/-- The elementary updates never invalidate anything. -/
theorem Steps.invalidated_eq {F : Cell → Prop} {w1 w2 : World} (s : Steps F w1 w2) :
    w2.invalidated = w1.invalidated := by
  induction s with
  | refl => rfl
  | tail _ p ih => rw [← ih]; cases p <;> rfl

theorem Steps.object_eq {F : Cell → Prop} {w1 w2 : World} (s : Steps F w1 w2) (b : Node)
    (hb : ¬ F (.object b)) : w2.object b = w1.object b := by
  induction s with
  | refl => rfl
  | tail _ p ih =>
    rw [← ih]
    cases p with
    | setObject a v ha =>
      have : b ≠ a := fun e => hb (e ▸ ha)
      simp [World.setObject, this]
    | allocate guid via ha =>
      have : ¬ (b.guid = guid ∧ via <:+ b.via) := fun e => hb (ha b e.1 e.2)
      simp only [World.allocate, this, if_false]
    | _ => rfl

theorem Steps.mem_chains_of {F : Cell → Prop} {w1 w2 : World} (s : Steps F w1 w2) (b : Node)
    (hb : ¬ F (.register b)) (o : Obj) (k : String) (h : b ∈ w2.chains o k) :
    b ∈ w1.chains o k := by
  induction s with
  | refl => exact h
  | tail _ p ih =>
    apply ih
    cases p with
    | register o2 p2 a ha =>
      have hne : b ≠ a := fun e => hb (e ▸ ha)
      simp only [registerDependentKeyWithChain] at h
      split at h
      · exact (List.mem_insert_iff.mp h).resolve_left hne
      · exact h
    | remove o2 p2 a ha =>
      simp only [removeDependentKeyWithChain] at h
      split at h
      · exact List.mem_of_mem_erase h
      · exact h
    | _ => exact h

theorem Steps.mem_chains_keep {F : Cell → Prop} {w1 w2 : World} (s : Steps F w1 w2) (b : Node)
    (hb : ¬ F (.remove b)) (o : Obj) (k : String) (h : b ∈ w1.chains o k) :
    b ∈ w2.chains o k := by
  induction s with
  | refl => exact h
  | tail _ p ih =>
    cases p with
    | register o2 p2 a ha =>
      simp only [registerDependentKeyWithChain]
      split
      · exact List.mem_insert_iff.mpr (Or.inr ih)
      · exact ih
    | remove o2 p2 a ha =>
      have hne : b ≠ a := fun e => hb (e ▸ ha)
      simp only [removeDependentKeyWithChain]
      split
      · exact (List.mem_erase_of_ne hne).mpr ih
      · exact ih
    | _ => exact ih

theorem Steps.mem_enumerable_of {F : Cell → Prop} {w1 w2 : World} (s : Steps F w1 w2)
    (b : Node) (hb : ¬ F (.addEnumerable b)) (c : Obj) (h : b ∈ w2.enumerableChains c) :
    b ∈ w1.enumerableChains c := by
  induction s with
  | refl => exact h
  | tail _ p ih =>
    apply ih
    cases p with
    | addEnumerable c2 a ha =>
      have hne : b ≠ a := fun e => hb (e ▸ ha)
      simp only [World.addEnumerable] at h
      split at h
      · exact (List.mem_insert_iff.mp h).resolve_left hne
      · exact h
    | dropEnumerable c2 a ha =>
      simp only [World.dropEnumerable] at h
      split at h
      · exact List.mem_of_mem_erase h
      · exact h
    | _ => exact h

theorem Steps.mem_enumerable_keep {F : Cell → Prop} {w1 w2 : World} (s : Steps F w1 w2)
    (b : Node) (hb : ¬ F (.dropEnumerable b)) (c : Obj) (h : b ∈ w1.enumerableChains c) :
    b ∈ w2.enumerableChains c := by
  induction s with
  | refl => exact h
  | tail _ p ih =>
    cases p with
    | addEnumerable c2 a ha =>
      simp only [World.addEnumerable]
      split
      · exact List.mem_insert_iff.mpr (Or.inr ih)
      · exact ih
    | dropEnumerable c2 a ha =>
      have hne : b ≠ a := fun e => hb (e ▸ ha)
      simp only [World.dropEnumerable]
      split
      · exact (List.mem_erase_of_ne hne).mpr ih
      · exact ih
    | _ => exact ih

theorem Steps.mem_clones_keep {F : Cell → Prop} {w1 w2 : World} (s : Steps F w1 w2)
    (b : Node) (hb : ¬ F (.clearClones b)) (c : Obj) (m : Obj) (h : m ∈ w1.clones c b) :
    m ∈ w2.clones c b := by
  induction s with
  | refl => exact h
  | tail _ p ih =>
    cases p with
    | recordClone c2 a m2 ha =>
      simp only [World.recordClone]
      split
      · exact List.mem_cons_of_mem _ ih
      · exact ih
    | clearClones c2 a ha =>
      have hne : b ≠ a := fun e => hb (e ▸ ha)
      simp only [World.clearClones, hne, and_false, if_false]
      exact ih
    | _ => exact ih

/-- The registry entries stay sets. -/
theorem Steps.nodup {F : Cell → Prop} {w1 w2 : World} (s : Steps F w1 w2)
    (h : ∀ o k, (w1.chains o k).Nodup) : ∀ o k, (w2.chains o k).Nodup := by
  induction s with
  | refl => exact h
  | tail _ p ih =>
    intro o k
    cases p with
    | register o2 p2 a ha =>
      simp only [registerDependentKeyWithChain]
      split
      · exact (ih o k).insert
      · exact ih o k
    | remove o2 p2 a ha =>
      simp only [removeDependentKeyWithChain]
      split
      · exact (ih o k).erase a
      · exact ih o k
    | _ => exact ih o k

theorem Below.self (guid : Nat) (via : List Obj) (chain : List PropertyChain) :
    Below guid via chain.length ⟨guid, via, chain⟩ :=
  ⟨rfl, List.suffix_refl _, fun _ => Nat.le_refl _⟩

theorem Below.longer {guid : Nat} {via : List Obj} {len len2 : Nat} {a : Node} (h : len ≤ len2)
    (hb : Below guid via len a) : Below guid via len2 a :=
  ⟨hb.1, hb.2.1, fun e => Nat.le_trans (hb.2.2 e) h⟩

theorem Below.of_deeper {guid : Nat} {via : List Obj} {m : Obj} {a : Node} (len : Nat)
    (h1 : a.guid = guid) (h2 : (m :: via) <:+ a.via) : Below guid via len a := by
  refine ⟨h1, (List.suffix_cons m via).trans h2, fun e => ?_⟩
  have := h2.length_le
  rw [e] at this
  simp at this

theorem Below.of_clone {guid : Nat} {via : List Obj} {m : Obj} {len : Nat} {a : Node}
    (len2 : Nat) (hb : Below guid (m :: via) len a) : Below guid via len2 a :=
  Below.of_deeper len2 hb.1 hb.2.1

theorem Below.not_longer {guid guid2 : Nat} {via : List Obj} {len : Nat}
    {chain : List PropertyChain} (h : len < chain.length) :
    ¬ Below guid via len ⟨guid2, via, chain⟩ :=
  fun hb => absurd (hb.2.2 rfl) (by simpa using h)

theorem Below.not_shallower {guid guid2 : Nat} {via : List Obj} {m : Obj} {len : Nat}
    {chain : List PropertyChain} : ¬ Below guid (m :: via) len ⟨guid2, via, chain⟩ := by
  intro hb
  have := hb.2.1.length_le
  simp at this

theorem deactivate_cons (n : PropertyChain) (rest : List PropertyChain) (guid : Nat)
    (via : List Obj) (w : World) :
    deactivate (n :: rest) guid via w
      = if rest ≠ [] ∧ n.isAtEach = false then
          deactivate rest guid via (deactivateHead n rest guid via w)
        else deactivateHead n rest guid via w := rfl

theorem activate_cons (n : PropertyChain) (rest : List PropertyChain) (guid : Nat)
    (via : List Obj) (x : Value) (w : World) :
    activate (n :: rest) guid via x w
      = if rest ≠ [] ∧ n.isAtEach = false then
          match (activateHead n rest guid via x w).get (anchorOf n x) (key n.property) with
          | .ref o => activate rest guid via (.ref o) (activateHead n rest guid via x w)
          | .absent => activateHead n rest guid via x w
        else activateHead n rest guid via x w := by
  cases x with
  | absent => simp [activate, activateHead, activateSwitch, anchorOf]
  | ref o => simp [activate, activateHead, activateSwitch, anchorOf]

theorem detachClone_steps {F : Cell → Prop} (deactivateNext : List Obj → World → World)
    (n : PropertyChain) (rest : List PropertyChain) (guid : Nat) (via : List Obj) (m : Obj)
    (hnext : ∀ w, Steps F w (deactivateNext (m :: via) w))
    (hclone : F (.remove ⟨guid, m :: via, { n with isAtEach := false } :: rest⟩)) (w : World) :
    Steps F w (detachClone deactivateNext n rest guid via m w) := by
  unfold detachClone
  simp only
  have h1 : Steps F w (match w.object ⟨guid, m :: via, { n with isAtEach := false } :: rest⟩ with
      | .ref object => removeDependentKeyWithChain object n.property
          ⟨guid, m :: via, { n with isAtEach := false } :: rest⟩ w
      | .absent => w) := by
    split
    · exact Steps.single (Prim.remove _ _ _ _ hclone)
    · exact Steps.refl _ _
  split
  · exact h1.trans (hnext _)
  · exact h1

theorem removeEnumerable_steps {F : Cell → Prop} (deactivateNext : List Obj → World → World)
    (c : Obj) (n : PropertyChain) (rest : List PropertyChain) (guid : Nat) (via : List Obj)
    (hnext : ∀ m w, Steps F w (deactivateNext (m :: via) w))
    (hclone : ∀ m, F (.remove ⟨guid, m :: via, { n with isAtEach := false } :: rest⟩))
    (hdrop : F (.dropEnumerable ⟨guid, via, n :: rest⟩))
    (hclear : F (.clearClones ⟨guid, via, n :: rest⟩)) (w : World) :
    Steps F w (removeEnumerable deactivateNext c n rest guid via w) := by
  unfold removeEnumerable
  simp only
  exact (Steps.single (Prim.dropEnumerable _ c _ hdrop)).trans
    ((Steps.foldl _ (fun m w2 => detachClone_steps deactivateNext n rest guid via m
      (hnext m) (hclone m) w2) _ _).trans (Steps.single (Prim.clearClones _ c _ hclear)))

/-- What `deactivate` writes: it only removes, and only at the node, its
successors and their clones. -/
theorem deactivate_steps : ∀ (chain : List PropertyChain) (guid : Nat) (via : List Obj)
    (w : World),
    Steps (fun c => c.isRemoval ∧ Below guid via chain.length c.node) w
      (deactivate chain guid via w) := by
  intro chain
  induction chain with
  | nil => intro guid via w; exact Steps.refl _ _
  | cons n rest ih =>
    intro guid via w
    have hself : Below guid via (n :: rest).length ⟨guid, via, n :: rest⟩ := Below.self _ _ _
    have hrest : ∀ w2, Steps (fun c => c.isRemoval ∧ Below guid via (n :: rest).length c.node) w2
        (deactivate rest guid via w2) := fun w2 =>
      (ih guid via w2).enlarge (fun c hc => ⟨hc.1, hc.2.longer (by simp)⟩)
    have hdeep : ∀ m w2, Steps (fun c => c.isRemoval ∧ Below guid via (n :: rest).length c.node) w2
        (deactivate rest guid (m :: via) w2) := fun m w2 =>
      (ih guid (m :: via) w2).enlarge (fun c hc => ⟨hc.1, hc.2.of_clone _⟩)
    rw [deactivate_cons]
    have h1 : Steps (fun c => c.isRemoval ∧ Below guid via (n :: rest).length c.node) w
        (deactivateHead n rest guid via w) := by
      unfold deactivateHead
      split
      · split
        · exact removeEnumerable_steps _ _ n rest guid via hdeep
            (fun m => ⟨trivial, Below.of_deeper _ rfl (List.suffix_refl _)⟩)
            ⟨trivial, hself⟩ ⟨trivial, hself⟩ w
        · exact Steps.single (Prim.remove _ _ _ _ ⟨trivial, hself⟩)
      · exact Steps.refl _ _
    split
    · exact h1.trans (hrest _)
    · exact h1

theorem attachClone_steps {F : Cell → Prop} (activateNext : List Obj → Value → World → World)
    (c : Obj) (n : PropertyChain) (rest : List PropertyChain) (guid : Nat) (via : List Obj)
    (m : Obj) (hnext : ∀ v w, Steps F w (activateNext (m :: via) v w))
    (halloc : ∀ b : Node, b.guid = guid → (m :: via) <:+ b.via → F (.object b))
    (hreg : F (.register ⟨guid, m :: via, { n with isAtEach := false } :: rest⟩))
    (hrec : F (.recordClone ⟨guid, via, n :: rest⟩)) (w : World) :
    Steps F w (attachClone activateNext c n rest guid via m w) := by
  unfold attachClone
  simp only
  split
  · exact Steps.refl _ _
  · have h1 : Steps F w (registerDependentKeyWithChain m n.property
        ⟨guid, m :: via, { n with isAtEach := false } :: rest⟩
        ((((w.allocate guid (m :: via)).recordClone c ⟨guid, via, n :: rest⟩ m).setObject
          ⟨guid, m :: via, { n with isAtEach := false } :: rest⟩ (.ref m)))) :=
      (((Steps.single (Prim.allocate _ guid (m :: via) halloc)).trans
        (Steps.single (Prim.recordClone _ c _ m hrec))).trans
        (Steps.single (Prim.setObject _ _ _ (halloc _ rfl (List.suffix_refl _))))).trans
        (Steps.single (Prim.register _ _ _ _ hreg))
    split
    · split
      · exact h1.trans (hnext _ _)
      · exact h1
    · exact h1

theorem registerEnumerable_steps {F : Cell → Prop}
    (activateNext : List Obj → Value → World → World) (c : Obj) (n : PropertyChain)
    (rest : List PropertyChain) (guid : Nat) (via : List Obj)
    (hnext : ∀ m v w, Steps F w (activateNext (m :: via) v w))
    (halloc : ∀ (m : Obj) (b : Node), b.guid = guid → (m :: via) <:+ b.via → F (.object b))
    (hreg : ∀ m, F (.register ⟨guid, m :: via, { n with isAtEach := false } :: rest⟩))
    (hrec : F (.recordClone ⟨guid, via, n :: rest⟩))
    (hadd : F (.addEnumerable ⟨guid, via, n :: rest⟩)) (w : World) :
    Steps F w (registerEnumerable activateNext c n rest guid via w) := by
  unfold registerEnumerable
  simp only
  exact (Steps.single (Prim.addEnumerable _ c _ hadd)).trans
    (Steps.foldl _ (fun m w2 => attachClone_steps activateNext c n rest guid via m
      (hnext m) (halloc m) (hreg m) hrec w2) _ _)

/-! ## What activate writes, and what it reaches -/

theorem activateSwitch_steps (n : PropertyChain) (rest : List PropertyChain) (guid : Nat)
    (via : List Obj) (x : Value) (w : World) :
    Steps (fun c => Below guid via (n :: rest).length c.node) w
      (activateSwitch n rest guid via x w) := by
  unfold activateSwitch
  have hset : ∀ w2 : World, Steps (fun c => Below guid via (n :: rest).length c.node) w2
      (w2.setObject ⟨guid, via, n :: rest⟩ (.ref (anchorOf n x))) := fun w2 =>
    Steps.single (Prim.setObject _ _ _ (Below.self _ _ _))
  split
  · exact ((deactivate_steps (n :: rest) guid via w).enlarge (fun c hc => hc.2)).trans (hset _)
  · exact hset _

theorem attachClone_cloneCells (c : Obj) (n : PropertyChain) (rest : List PropertyChain)
    (guid : Nat) (via : List Obj) (m : Obj)
    (hact : ∀ (via2 : List Obj) (v : Value) (w : World),
      Steps (fun c => Below guid via2 rest.length c.node) w (activate rest guid via2 v w))
    (w : World) :
    Steps (CloneCells guid via n rest) w
      (attachClone (activate rest guid) c n rest guid via m w) := by
  apply attachClone_steps
  · intro v w2
    refine (hact (m :: via) v w2).enlarge ?_
    intro cell hc
    exact Or.inr ⟨⟨m, hc.2.1⟩, hc.1⟩
  · intro b hg hv
    exact Or.inr ⟨⟨m, hv⟩, hg⟩
  · exact Or.inr ⟨⟨m, List.suffix_refl _⟩, rfl⟩
  · exact Or.inl ⟨_, rfl, rfl⟩

theorem CloneCells.below {guid : Nat} {via : List Obj} {n : PropertyChain}
    {rest : List PropertyChain} {c : Cell} (h : CloneCells guid via n rest c) :
    Below guid via (n :: rest).length c.node := by
  rcases h with ⟨a, rfl, rfl⟩ | ⟨⟨m, hm⟩, hg⟩
  · exact Below.self _ _ _
  · exact Below.of_deeper _ hg hm

/-- What `activate` writes: only cells of the node, its successors and their
clones. -/
theorem activate_steps : ∀ (chain : List PropertyChain) (guid : Nat) (via : List Obj)
    (x : Value) (w : World),
    Steps (fun c => Below guid via chain.length c.node) w (activate chain guid via x w) := by
  intro chain
  induction chain with
  | nil => intro guid via x w; exact Steps.refl _ _
  | cons n rest ih =>
    intro guid via x w
    have hself : Below guid via (n :: rest).length ⟨guid, via, n :: rest⟩ := Below.self _ _ _
    have hhead : Steps (fun c => Below guid via (n :: rest).length c.node) w
        (activateHead n rest guid via x w) := by
      unfold activateHead
      refine (activateSwitch_steps n rest guid via x w).trans ?_
      split
      · unfold registerEnumerable
        exact (Steps.single (Prim.addEnumerable _ _ _ hself)).trans
          (Steps.foldl _ (fun m w2 =>
            (attachClone_cloneCells _ n rest guid via m (ih guid) w2).enlarge
              (fun c hc => hc.below)) _ _)
      · exact Steps.single (Prim.register _ _ _ _ hself)
    rw [activate_cons]
    split
    · split
      · exact hhead.trans ((ih guid via _ _).enlarge (fun c hc => hc.longer (by simp)))
      · exact hhead
    · exact hhead

theorem activate_get (chain : List PropertyChain) (guid : Nat) (via : List Obj) (x : Value)
    (w : World) : (activate chain guid via x w).get = w.get :=
  (activate_steps chain guid via x w).get_eq

theorem activate_invalidated (chain : List PropertyChain) (guid : Nat) (via : List Obj)
    (x : Value) (w : World) : (activate chain guid via x w).invalidated = w.invalidated :=
  (activate_steps chain guid via x w).invalidated_eq

theorem activateSwitch_object (n : PropertyChain) (rest : List PropertyChain) (guid : Nat)
    (via : List Obj) (x : Value) (w : World) :
    (activateSwitch n rest guid via x w).object ⟨guid, via, n :: rest⟩
      = .ref (anchorOf n x) := by
  simp [activateSwitch, World.setObject]

theorem foldl_attachClone_records (c : Obj) (n : PropertyChain) (rest : List PropertyChain)
    (guid : Nat) (via : List Obj) :
    ∀ (l : List Obj) (w : World),
      (∀ m, m ∈ w.clones c ⟨guid, via, n :: rest⟩ ∨ m ∈ l →
        m ∈ (l.foldl (fun w m => attachClone (activate rest guid) c n rest guid via m w) w).clones
          c ⟨guid, via, n :: rest⟩) := by
  have hkeep : ∀ (m m0 : Obj) (w : World), m0 ∈ w.clones c ⟨guid, via, n :: rest⟩ →
      m0 ∈ (attachClone (activate rest guid) c n rest guid via m w).clones c
        ⟨guid, via, n :: rest⟩ := by
    intro m m0 w h
    refine (attachClone_cloneCells c n rest guid via m (activate_steps rest guid) w).mem_clones_keep
      _ ?_ c m0 h
    rintro (⟨a, hc, _⟩ | ⟨⟨m2, hm⟩, _⟩)
    · cases hc
    · have := hm.length_le
      simp [Cell.node] at this
  have hadd : ∀ (m : Obj) (w : World),
      m ∈ (attachClone (activate rest guid) c n rest guid via m w).clones c
        ⟨guid, via, n :: rest⟩ := by
    intro m w
    by_cases hm : m ∈ w.clones c ⟨guid, via, n :: rest⟩
    · exact hkeep m m w hm
    · have hnext : ∀ v w2, Steps (fun c => Below guid (m :: via) rest.length c.node) w2
          (activate rest guid (m :: via) v w2) := fun v w2 => activate_steps rest guid _ v w2
      have hnot : ¬ (fun c : Cell => Below guid (m :: via) rest.length c.node)
          (.clearClones ⟨guid, via, n :: rest⟩) := Below.not_shallower
      unfold attachClone
      simp only [hm, if_false]
      have hbase : m ∈ (registerDependentKeyWithChain m n.property
          ⟨guid, m :: via, { n with isAtEach := false } :: rest⟩
          ((((w.allocate guid (m :: via)).recordClone c ⟨guid, via, n :: rest⟩ m).setObject
            ⟨guid, m :: via, { n with isAtEach := false } :: rest⟩ (.ref m)))).clones c
          ⟨guid, via, n :: rest⟩ := by
        simp [registerDependentKeyWithChain, World.setObject, World.recordClone]
      split
      · split
        · exact (hnext _ _).mem_clones_keep _ hnot c m hbase
        · exact hbase
      · exact hbase
  intro l
  induction l with
  | nil =>
    intro w m h
    rcases h with h | h
    · exact h
    · simp at h
  | cons m0 ms ih =>
    intro w m h
    rw [List.foldl_cons]
    apply ih
    rcases h with h | h
    · exact Or.inl (hkeep m0 m w h)
    · rcases List.mem_cons.mp h with rfl | h
      · exact Or.inl (hadd m w)
      · exact Or.inr h

theorem registerEnumerable_cloneCells (c : Obj) (n : PropertyChain) (rest : List PropertyChain)
    (guid : Nat) (via : List Obj) (w : World) :
    Steps (CloneCells guid via n rest) (w.addEnumerable c ⟨guid, via, n :: rest⟩)
      (registerEnumerable (activate rest guid) c n rest guid via w) := by
  unfold registerEnumerable
  exact Steps.foldl _ (fun m w2 =>
    attachClone_cloneCells c n rest guid via m (activate_steps rest guid) w2)
    ((w.addEnumerable c ⟨guid, via, n :: rest⟩).members c) _

theorem CloneCells.not_self {guid : Nat} {via : List Obj} {n : PropertyChain}
    {rest : List PropertyChain} {c : Cell} (hnode : c.node = ⟨guid, via, n :: rest⟩)
    (hrec : ∀ a, c ≠ .recordClone a) : ¬ CloneCells guid via n rest c := by
  rintro (⟨a, hc, _⟩ | ⟨⟨m2, hm⟩, _⟩)
  · exact hrec a hc
  · have := hm.length_le
    rw [hnode] at this
    simp at this

/-- After `activate`, the chain is settled on the anchor. -/
theorem activate_settled : ∀ (chain : List PropertyChain) (guid : Nat) (via : List Obj)
    (x : Value) (w : World), Settled (activate chain guid via x w) chain guid via x := by
  intro chain
  induction chain with
  | nil => intro guid via x w; trivial
  | cons n rest ih =>
    intro guid via x w
    -- the state after the registration of the node itself
    have hobj : (activateHead n rest guid via x w).object ⟨guid, via, n :: rest⟩
        = .ref (anchorOf n x) := by
      unfold activateHead
      split
      · rw [(registerEnumerable_cloneCells _ n rest guid via _).object_eq _
          (CloneCells.not_self rfl (fun a h => by cases h))]
        exact activateSwitch_object n rest guid via x w
      · exact activateSwitch_object n rest guid via x w
    have hdown : ∀ (v : Value) (w2 : World),
        Steps (fun c => Below guid via rest.length c.node) w2 (activate rest guid via v w2) :=
      fun v w2 => activate_steps rest guid via v w2
    have houtside : ∀ c : Cell, c.node = ⟨guid, via, n :: rest⟩ →
        ¬ Below guid via rest.length c.node := by
      intro c hc
      rw [hc]
      exact Below.not_longer (by simp)
    unfold Settled
    simp only
    rw [activate_cons]
    by_cases hat : n.isAtEach = true
    · -- an @each node: the chain stops here
      have hcond : ¬ (rest ≠ [] ∧ n.isAtEach = false) := by simp [hat]
      rw [if_neg hcond]
      simp only [hat, if_true]
      have hs := registerEnumerable_cloneCells (anchorOf n x) n rest guid via
        (activateSwitch n rest guid via x w)
      have hhead : activateHead n rest guid via x w
          = registerEnumerable (activate rest guid) (anchorOf n x) n rest guid via
              (activateSwitch n rest guid via x w) := by
        unfold activateHead
        simp [hat]
      refine ⟨hobj, ?_, ?_⟩
      · rw [hhead]
        refine hs.mem_enumerable_keep _ (CloneCells.not_self rfl (fun a h => by cases h)) _ ?_
        simp [World.addEnumerable]
      · intro m hm
        rw [hhead] at hm ⊢
        rw [hs.members_eq] at hm
        unfold registerEnumerable
        exact foldl_attachClone_records (anchorOf n x) n rest guid via _ _ m (Or.inr hm)
    · have hat2 : n.isAtEach = false := by simpa using hat
      have hreg : ⟨guid, via, n :: rest⟩ ∈
          (activateHead n rest guid via x w).chains (anchorOf n x) (key n.property) := by
        unfold activateHead
        simp [hat2, registerDependentKeyWithChain]
      simp only [hat2, Bool.false_eq_true, if_false, and_true]
      by_cases hrest : rest = []
      · simp only [hrest, ne_eq, not_true_eq_false, if_false, false_implies, and_true]
        subst hrest
        exact ⟨hobj, hreg⟩
      · simp only [hrest, ne_eq, not_false_eq_true, if_true, true_implies]
        cases hget : (activateHead n rest guid via x w).get (anchorOf n x) (key n.property) with
        | absent =>
          simp only
          refine ⟨hobj, hreg, ?_⟩
          intro y hy
          rw [hget] at hy
          cases hy
        | ref y0 =>
          simp only
          have hs := hdown (.ref y0) (activateHead n rest guid via x w)
          refine ⟨?_, ?_, ?_⟩
          · rw [hs.object_eq _ (houtside (.object _) rfl)]
            exact hobj
          · exact hs.mem_chains_keep _ (houtside (.remove _) rfl) _ _ hreg
          · intro y hy
            rw [hs.get_eq, hget] at hy
            cases hy
            exact ih guid via (.ref y0) _
/-! ## A settled chain is a fixed point of activate -/

theorem World.setObject_same (w : World) (a : Node) (v : Value) (h : w.object a = v) :
    w.setObject a v = w := by
  cases w
  simp only [World.setObject, World.mk.injEq, true_and, and_true]
  funext b
  by_cases hb : b = a
  · subst hb; simp [← h]
  · simp [hb]

theorem registerDependentKeyWithChain_of_mem (o : Obj) (p : Option String) (a : Node)
    (w : World) (h : a ∈ w.chains o (key p)) : registerDependentKeyWithChain o p a w = w := by
  cases w
  simp only [registerDependentKeyWithChain, World.mk.injEq, true_and, and_true]
  funext o2 k2
  by_cases hk : o2 = o ∧ k2 = key p
  · obtain ⟨rfl, rfl⟩ := hk
    simp [List.insert_of_mem h]
  · simp [hk]

theorem World.addEnumerable_of_mem (w : World) (c : Obj) (a : Node)
    (h : a ∈ w.enumerableChains c) : w.addEnumerable c a = w := by
  cases w
  simp only [World.addEnumerable, World.mk.injEq, true_and, and_true]
  funext c2
  by_cases hc : c2 = c
  · subst hc
    simp [List.insert_of_mem h]
  · simp [hc]

theorem foldl_fixed {α : Type} (f : World → α → World) (w : World) :
    ∀ l : List α, (∀ x ∈ l, f w x = w) → l.foldl f w = w := by
  intro l
  induction l with
  | nil => intro _; rfl
  | cons x xs ih =>
    intro h
    rw [List.foldl_cons, h x (by simp)]
    exact ih (fun y hy => h y (by simp [hy]))

theorem activate_of_settled : ∀ (chain : List PropertyChain) (guid : Nat) (via : List Obj)
    (x : Value) (w : World), Settled w chain guid via x → activate chain guid via x w = w := by
  intro chain
  induction chain with
  | nil => intro guid via x w _; rfl
  | cons n rest ih =>
    intro guid via x w hs
    unfold Settled at hs
    simp only at hs
    obtain ⟨hobj, hreg⟩ := hs
    have hswitch : activateSwitch n rest guid via x w = w := by
      unfold activateSwitch
      rw [hobj]
      simp only [ne_eq, not_true_eq_false, and_false, if_false]
      exact World.setObject_same w _ _ hobj
    rw [activate_cons]
    by_cases hat : n.isAtEach = true
    · simp only [hat, if_true] at hreg
      have hhead : activateHead n rest guid via x w = w := by
        unfold activateHead
        simp only [hat, if_true, hswitch]
        unfold registerEnumerable
        simp only
        rw [World.addEnumerable_of_mem w _ _ hreg.1]
        apply foldl_fixed
        intro m hm
        unfold attachClone
        simp [hreg.2 m hm]
      have hcond : ¬ (rest ≠ [] ∧ n.isAtEach = false) := by simp [hat]
      rw [if_neg hcond, hhead]
    · have hat2 : n.isAtEach = false := by simpa using hat
      simp only [hat2, Bool.false_eq_true, if_false] at hreg
      have hhead : activateHead n rest guid via x w = w := by
        unfold activateHead
        simp only [hat2, Bool.false_eq_true, if_false, hswitch]
        exact registerDependentKeyWithChain_of_mem _ _ _ w hreg.1
      rw [hhead]
      split
      · rename_i hc
        split
        · rename_i o hget
          exact ih guid via (.ref o) w (hreg.2 hc.1 o hget)
        · rfl
      · rfl

/-- C6. Activation is idempotent: a second `activate(anchor)` right after the
first leaves the whole world, and so the chain registry of every object, as the
first call left it; and when the registry entries were sets before the first
call, they are sets after it, so that no node is registered twice under an
(object, property) pair. -/
theorem activate_idempotent (chain : List PropertyChain) (guid : Nat) (via : List Obj)
    (anchor : Value) (w : World) :
    activate chain guid via anchor (activate chain guid via anchor w)
        = activate chain guid via anchor w
      ∧ ((∀ o k, (w.chains o k).Nodup) →
          ∀ o k a, List.count a ((activate chain guid via anchor w).chains o k) ≤ 1) := by
  refine ⟨activate_of_settled chain guid via anchor _
    (activate_settled chain guid via anchor w), ?_⟩
  intro h o k a
  exact List.nodup_iff_count_le_one.mp ((activate_steps chain guid via anchor w).nodup h o k) a
/-! ## notifyPropertyDidChange -/

/-- Witness of C6, on the `@each` chain of the test module with a collection of
three members: the second activation changes nothing, and the clone of the
first member is registered at most once on it. -/
theorem activate_idempotent_witness :
    activate (createChain "anArray.@each.name" 0 "atEachProperty") 7 [] .absent
        (activate (createChain "anArray.@each.name" 0 "atEachProperty") 7 [] .absent
          ((World.empty.set 0 "anArray" (.ref 10)).setMembers 10 [11, 12, 13]))
      = activate (createChain "anArray.@each.name" 0 "atEachProperty") 7 [] .absent
          ((World.empty.set 0 "anArray" (.ref 10)).setMembers 10 [11, 12, 13])
    ∧ List.count ⟨7, [11], [⟨some "name", 0, "atEachProperty", none, false⟩]⟩
        ((activate (createChain "anArray.@each.name" 0 "atEachProperty") 7 [] .absent
          ((World.empty.set 0 "anArray" (.ref 10)).setMembers 10 [11, 12, 13])).chains 11 "name") ≤ 1 :=
  ⟨(activate_idempotent _ 7 [] .absent _).1,
    (activate_idempotent _ 7 [] .absent _).2 (fun _ _ => List.nodup_nil) 11 "name" _⟩

theorem notify_invalidated (n : PropertyChain) (rest : List PropertyChain) (guid : Nat)
    (via : List Obj) (w : World) :
    (notifyPropertyDidChange ⟨guid, via, n :: rest⟩ w).invalidated
      = w.invalidated ++ [(n.target, n.toInvalidate)] := by
  unfold notifyPropertyDidChange
  simp only
  split
  · split
    · rw [activate_invalidated]; rfl
    · rfl
  · rfl

/-- C2. Every call of `notifyPropertyDidChange` on a chain node calls
`target.propertyDidChange(toInvalidate)` exactly once, with the node's own
target and key: the log grows by that one entry, whatever the position of the
node, its `isAtEach` flag and the value of its property. -/
theorem notifyPropertyDidChange_invalidates_once (n : PropertyChain)
    (rest : List PropertyChain) (guid : Nat) (via : List Obj) (w : World) :
    (notifyPropertyDidChange ⟨guid, via, n :: rest⟩ w).invalidated
      = w.invalidated ++ [(n.target, n.toInvalidate)] :=
  notify_invalidated n rest guid via w

theorem deactivate_object (chain : List PropertyChain) (guid : Nat) (via : List Obj) (w : World)
    (b : Node) : (deactivate chain guid via w).object b = w.object b :=
  (deactivate_steps chain guid via w).object_eq b (fun h => h.1)

theorem deactivate_get (chain : List PropertyChain) (guid : Nat) (via : List Obj) (w : World) :
    (deactivate chain guid via w).get = w.get :=
  (deactivate_steps chain guid via w).get_eq

theorem deactivate_invalidated (chain : List PropertyChain) (guid : Nat) (via : List Obj)
    (w : World) : (deactivate chain guid via w).invalidated = w.invalidated :=
  (deactivate_steps chain guid via w).invalidated_eq

/-- What `notifyPropertyDidChange` does on a node that has a next node, is not
flagged `@each`, and whose object holds an object under the node's property. -/
theorem notifyPropertyDidChange_reactivates (n q : PropertyChain) (rest : List PropertyChain)
    (guid : Nat) (via : List Obj) (w : World) (o y : Obj) (hplain : n.isAtEach = false)
    (hobj : w.object ⟨guid, via, n :: q :: rest⟩ = .ref o)
    (hget : w.get o (key n.property) = .ref y) :
    notifyPropertyDidChange ⟨guid, via, n :: q :: rest⟩ w
      = activate (q :: rest) guid via (.ref y) (propertyDidChange n.target n.toInvalidate w) := by
  unfold notifyPropertyDidChange
  simp [hplain, propertyDidChange, hobj, hget]

/-- C10, as the code has it: a notification that reaches a deactivated node is
not detected. `deactivate` leaves the `object` field of the node set, so the
call invalidates the target's property once and, when the node has a next node,
is not flagged `@each` and the property of the object it was attached to holds
an object `y`, activates the next node on `y`: the next node has `y` as its
object and is registered there. -/
theorem notifyPropertyDidChange_after_deactivate (n q : PropertyChain)
    (rest : List PropertyChain) (guid : Nat) (via : List Obj) (w : World) (o y : Obj)
    (hplain : n.isAtEach = false)
    (hobj : w.object ⟨guid, via, n :: q :: rest⟩ = .ref o)
    (hget : w.get o (key n.property) = .ref y) :
    (notifyPropertyDidChange ⟨guid, via, n :: q :: rest⟩
        (deactivate (n :: q :: rest) guid via w)).invalidated
        = w.invalidated ++ [(n.target, n.toInvalidate)]
      ∧ (notifyPropertyDidChange ⟨guid, via, n :: q :: rest⟩
          (deactivate (n :: q :: rest) guid via w)).object ⟨guid, via, q :: rest⟩ = .ref y
      ∧ (if q.isAtEach then
          ⟨guid, via, q :: rest⟩ ∈ (notifyPropertyDidChange ⟨guid, via, n :: q :: rest⟩
            (deactivate (n :: q :: rest) guid via w)).enumerableChains y
        else
          ⟨guid, via, q :: rest⟩ ∈ (notifyPropertyDidChange ⟨guid, via, n :: q :: rest⟩
            (deactivate (n :: q :: rest) guid via w)).chains y (key q.property)) := by
  have hobj2 : (deactivate (n :: q :: rest) guid via w).object ⟨guid, via, n :: q :: rest⟩
      = .ref o := by rw [deactivate_object]; exact hobj
  have hget2 : (deactivate (n :: q :: rest) guid via w).get o (key n.property) = .ref y := by
    rw [deactivate_get]; exact hget
  refine ⟨?_, ?_⟩
  · rw [notify_invalidated, deactivate_invalidated]
  · rw [notifyPropertyDidChange_reactivates n q rest guid via _ o y hplain hobj2 hget2]
    have hs := activate_settled (q :: rest) guid via (.ref y)
      (propertyDidChange n.target n.toInvalidate (deactivate (n :: q :: rest) guid via w))
    unfold Settled at hs
    simp only [anchorOf] at hs
    refine ⟨hs.1, ?_⟩
    have h2 := hs.2
    split
    · rename_i hq
      rw [if_pos hq] at h2
      exact h2.1
    · rename_i hq
      rw [if_neg hq] at h2
      exact h2.1

/-- Witness of C10 as amended, on the chain `contact.firstName` of object 0
whose contact is object 1. -/
theorem notifyPropertyDidChange_after_deactivate_witness :
    (notifyPropertyDidChange
        ⟨7, [], [⟨some "contact", 0, "fullName", some "firstName", false⟩,
          ⟨some "firstName", 0, "fullName", none, false⟩]⟩
        (deactivate [⟨some "contact", 0, "fullName", some "firstName", false⟩,
            ⟨some "firstName", 0, "fullName", none, false⟩] 7 []
          ((World.empty.set 0 "contact" (.ref 1)).setObject
            ⟨7, [], [⟨some "contact", 0, "fullName", some "firstName", false⟩,
              ⟨some "firstName", 0, "fullName", none, false⟩]⟩ (.ref 0)))).invalidated
        = ((World.empty.set 0 "contact" (.ref 1)).setObject
            ⟨7, [], [⟨some "contact", 0, "fullName", some "firstName", false⟩,
              ⟨some "firstName", 0, "fullName", none, false⟩]⟩ (.ref 0)).invalidated
          ++ [((⟨some "contact", 0, "fullName", some "firstName", false⟩ : PropertyChain).target,
              (⟨some "contact", 0, "fullName", some "firstName", false⟩ :
                PropertyChain).toInvalidate)]
      ∧ (notifyPropertyDidChange
          ⟨7, [], [⟨some "contact", 0, "fullName", some "firstName", false⟩,
            ⟨some "firstName", 0, "fullName", none, false⟩]⟩
          (deactivate [⟨some "contact", 0, "fullName", some "firstName", false⟩,
              ⟨some "firstName", 0, "fullName", none, false⟩] 7 []
            ((World.empty.set 0 "contact" (.ref 1)).setObject
              ⟨7, [], [⟨some "contact", 0, "fullName", some "firstName", false⟩,
                ⟨some "firstName", 0, "fullName", none, false⟩]⟩ (.ref 0)))).object
          ⟨7, [], [⟨some "firstName", 0, "fullName", none, false⟩]⟩ = .ref 1
      ∧ (if (⟨some "firstName", 0, "fullName", none, false⟩ : PropertyChain).isAtEach then
          ⟨7, [], [⟨some "firstName", 0, "fullName", none, false⟩]⟩ ∈ (notifyPropertyDidChange
            ⟨7, [], [⟨some "contact", 0, "fullName", some "firstName", false⟩,
              ⟨some "firstName", 0, "fullName", none, false⟩]⟩
            (deactivate [⟨some "contact", 0, "fullName", some "firstName", false⟩,
                ⟨some "firstName", 0, "fullName", none, false⟩] 7 []
              ((World.empty.set 0 "contact" (.ref 1)).setObject
                ⟨7, [], [⟨some "contact", 0, "fullName", some "firstName", false⟩,
                  ⟨some "firstName", 0, "fullName", none, false⟩]⟩ (.ref 0)))).enumerableChains 1
        else
          ⟨7, [], [⟨some "firstName", 0, "fullName", none, false⟩]⟩ ∈ (notifyPropertyDidChange
            ⟨7, [], [⟨some "contact", 0, "fullName", some "firstName", false⟩,
              ⟨some "firstName", 0, "fullName", none, false⟩]⟩
            (deactivate [⟨some "contact", 0, "fullName", some "firstName", false⟩,
                ⟨some "firstName", 0, "fullName", none, false⟩] 7 []
              ((World.empty.set 0 "contact" (.ref 1)).setObject
                ⟨7, [], [⟨some "contact", 0, "fullName", some "firstName", false⟩,
                  ⟨some "firstName", 0, "fullName", none, false⟩]⟩ (.ref 0)))).chains 1
              (key (⟨some "firstName", 0, "fullName", none, false⟩ : PropertyChain).property)) :=
  notifyPropertyDidChange_after_deactivate _ _ [] 7 [] _ 0 1 rfl (by decide) (by decide)

/-- C10 fails on the code. The chain `contact.firstName` of object 0 is
activated while the contact is object 1, then deactivated, which empties the
registry; a notification of the stale root node then invalidates `fullName` and
registers the `firstName` node on object 1 again. -/
theorem stale_notification_not_detected :
    (deactivate (createChain "contact.firstName" 0 "fullName") 7 []
        (activate (createChain "contact.firstName" 0 "fullName") 7 [] .absent
          (World.empty.set 0 "contact" (.ref 1)))).chains 1 "firstName" = []
      ∧ (notifyPropertyDidChange ⟨7, [], createChain "contact.firstName" 0 "fullName"⟩
          (deactivate (createChain "contact.firstName" 0 "fullName") 7 []
            (activate (createChain "contact.firstName" 0 "fullName") 7 [] .absent
              (World.empty.set 0 "contact" (.ref 1))))).invalidated = [(0, "fullName")]
      ∧ (notifyPropertyDidChange ⟨7, [], createChain "contact.firstName" 0 "fullName"⟩
          (deactivate (createChain "contact.firstName" 0 "fullName") 7 []
            (activate (createChain "contact.firstName" 0 "fullName") 7 [] .absent
              (World.empty.set 0 "contact" (.ref 1))))).chains 1 "firstName"
          = [⟨7, [], [⟨some "firstName", 0, "fullName", none, false⟩]⟩] := by
  simp only [createChain_eq]
  decide

/-- C7 on the code, at the input where it fails. The chain `contact.firstName`
of object 0 is activated while the contact is object 1; the contact is then set
to null and the `contact` node is notified. The `firstName` node is still
registered on object 1, and a later change of the first name of object 1 still
invalidates `fullName`. -/
theorem stale_downstream_after_null :
    (notifyPropertyDidChange ⟨7, [], createChain "contact.firstName" 0 "fullName"⟩
        ((activate (createChain "contact.firstName" 0 "fullName") 7 [] .absent
          (World.empty.set 0 "contact" (.ref 1))).set 0 "contact" .absent)).chains 1 "firstName"
        = [⟨7, [], [⟨some "firstName", 0, "fullName", none, false⟩]⟩]
      ∧ (notifyPropertyChains 1 "firstName"
          (notifyPropertyDidChange ⟨7, [], createChain "contact.firstName" 0 "fullName"⟩
            ((activate (createChain "contact.firstName" 0 "fullName") 7 [] .absent
              (World.empty.set 0 "contact" (.ref 1))).set 0 "contact" .absent))).invalidated
          = [(0, "fullName"), (0, "fullName")] := by
  simp only [createChain_eq]
  decide
/-! ## A change higher up in the chain -/

theorem createChain_contact_firstName (O : Obj) (P : String) :
    createChain "contact.firstName" O P
      = [⟨some "contact", O, P, some "firstName", false⟩, ⟨some "firstName", O, P, none, false⟩] := by
  rw [createChain_eq]
  have : split "contact.firstName" = ["contact", "firstName"] := by decide
  rw [this]
  simp [nodesFrom, lookahead]

/-- C1. The chain `createChain('contact.firstName', O, P)`, newly created, is
activated on `O` while `O.contact` is `A`. Once `O.contact` is a different
object `B` and the `contact` node has been notified, the `firstName` node is
registered on `B` and no longer on `A`; with no other chain watching
`firstName` on `A` or `B`, a change of `A.firstName` then invalidates nothing
and a change of `B.firstName` invalidates `P` of `O` exactly once. -/
theorem contact_switch (O A B : Obj) (P : String) (guid : Nat) (w : World) (hAB : A ≠ B)
    (hget : w.get O "contact" = .ref A)
    (hroot : w.object ⟨guid, [], createChain "contact.firstName" O P⟩ = .absent)
    (hnext : w.object ⟨guid, [], (createChain "contact.firstName" O P).tail⟩ = .absent)
    (hA : w.chains A "firstName" = []) (hB : w.chains B "firstName" = []) :
    ⟨guid, [], (createChain "contact.firstName" O P).tail⟩ ∈
        (notifyPropertyDidChange ⟨guid, [], createChain "contact.firstName" O P⟩
          ((activate (createChain "contact.firstName" O P) guid [] .absent w).set O "contact"
            (.ref B))).chains B "firstName"
      ∧ ⟨guid, [], (createChain "contact.firstName" O P).tail⟩ ∉
        (notifyPropertyDidChange ⟨guid, [], createChain "contact.firstName" O P⟩
          ((activate (createChain "contact.firstName" O P) guid [] .absent w).set O "contact"
            (.ref B))).chains A "firstName"
      ∧ (notifyPropertyChains A "firstName"
          (notifyPropertyDidChange ⟨guid, [], createChain "contact.firstName" O P⟩
            ((activate (createChain "contact.firstName" O P) guid [] .absent w).set O "contact"
              (.ref B)))).invalidated
          = (notifyPropertyDidChange ⟨guid, [], createChain "contact.firstName" O P⟩
            ((activate (createChain "contact.firstName" O P) guid [] .absent w).set O "contact"
              (.ref B))).invalidated
      ∧ (notifyPropertyChains B "firstName"
          (notifyPropertyDidChange ⟨guid, [], createChain "contact.firstName" O P⟩
            ((activate (createChain "contact.firstName" O P) guid [] .absent w).set O "contact"
              (.ref B)))).invalidated
          = (notifyPropertyDidChange ⟨guid, [], createChain "contact.firstName" O P⟩
            ((activate (createChain "contact.firstName" O P) guid [] .absent w).set O "contact"
              (.ref B))).invalidated ++ [(O, P)] := by
  rw [createChain_contact_firstName] at *
  simp only [List.tail_cons] at *
  have hkey : ("firstName" = "contact") = False := by decide
  have hkey2 : ("contact" = "firstName") = False := by decide
  have hAB2 : ¬ B = A := fun e => hAB e.symm
  have hchA : (notifyPropertyDidChange
      ⟨guid, [], [⟨some "contact", O, P, some "firstName", false⟩,
        ⟨some "firstName", O, P, none, false⟩]⟩
      ((activate [⟨some "contact", O, P, some "firstName", false⟩,
        ⟨some "firstName", O, P, none, false⟩] guid [] .absent w).set O "contact"
        (.ref B))).chains A "firstName" = [] := by
    simp [notifyPropertyDidChange, activate, deactivate, World.set, World.setObject,
      registerDependentKeyWithChain, removeDependentKeyWithChain, propertyDidChange, key,
      hget, hroot, hnext, hA, hB, hAB, hAB2, hkey, hkey2]
  have hchB : (notifyPropertyDidChange
      ⟨guid, [], [⟨some "contact", O, P, some "firstName", false⟩,
        ⟨some "firstName", O, P, none, false⟩]⟩
      ((activate [⟨some "contact", O, P, some "firstName", false⟩,
        ⟨some "firstName", O, P, none, false⟩] guid [] .absent w).set O "contact"
        (.ref B))).chains B "firstName"
      = [⟨guid, [], [⟨some "firstName", O, P, none, false⟩]⟩] := by
    simp [notifyPropertyDidChange, activate, deactivate, World.set, World.setObject,
      registerDependentKeyWithChain, removeDependentKeyWithChain, propertyDidChange, key,
      hget, hroot, hnext, hA, hB, hAB, hAB2, hkey, hkey2]
  refine ⟨?_, ?_, ?_, ?_⟩
  · rw [hchB]; simp
  · rw [hchA]; simp
  · unfold notifyPropertyChains
    rw [hchA]; rfl
  · unfold notifyPropertyChains
    rw [hchB]
    simp only [List.foldl_cons, List.foldl_nil]
    rw [notify_invalidated]

/-- Witness of C1: the objects of the test, `johnDoe` is 1 and `janeDoe` is 2. -/
theorem contact_switch_witness :
    ⟨7, [], (createChain "contact.firstName" 0 "fullName").tail⟩ ∈
        (notifyPropertyDidChange ⟨7, [], createChain "contact.firstName" 0 "fullName"⟩
          ((activate (createChain "contact.firstName" 0 "fullName") 7 [] .absent
            (World.empty.set 0 "contact" (.ref 1))).set 0 "contact"
            (.ref 2))).chains 2 "firstName"
      ∧ ⟨7, [], (createChain "contact.firstName" 0 "fullName").tail⟩ ∉
        (notifyPropertyDidChange ⟨7, [], createChain "contact.firstName" 0 "fullName"⟩
          ((activate (createChain "contact.firstName" 0 "fullName") 7 [] .absent
            (World.empty.set 0 "contact" (.ref 1))).set 0 "contact"
            (.ref 2))).chains 1 "firstName"
      ∧ (notifyPropertyChains 1 "firstName"
          (notifyPropertyDidChange ⟨7, [], createChain "contact.firstName" 0 "fullName"⟩
            ((activate (createChain "contact.firstName" 0 "fullName") 7 [] .absent
            (World.empty.set 0 "contact" (.ref 1))).set 0 "contact"
              (.ref 2)))).invalidated
          = (notifyPropertyDidChange ⟨7, [], createChain "contact.firstName" 0 "fullName"⟩
            ((activate (createChain "contact.firstName" 0 "fullName") 7 [] .absent
            (World.empty.set 0 "contact" (.ref 1))).set 0 "contact"
              (.ref 2))).invalidated
      ∧ (notifyPropertyChains 2 "firstName"
          (notifyPropertyDidChange ⟨7, [], createChain "contact.firstName" 0 "fullName"⟩
            ((activate (createChain "contact.firstName" 0 "fullName") 7 [] .absent
            (World.empty.set 0 "contact" (.ref 1))).set 0 "contact"
              (.ref 2)))).invalidated
          = (notifyPropertyDidChange ⟨7, [], createChain "contact.firstName" 0 "fullName"⟩
            ((activate (createChain "contact.firstName" 0 "fullName") 7 [] .absent
            (World.empty.set 0 "contact" (.ref 1))).set 0 "contact"
              (.ref 2))).invalidated ++ [(0, "fullName")] :=
  contact_switch 0 1 2 "fullName" 7 (World.empty.set 0 "contact" (.ref 1)) (by decide) rfl rfl rfl
    rfl rfl
/-! ## Teardown of a plain chain -/

theorem deactivate_cons_plain (n : PropertyChain) (rest : List PropertyChain) (guid : Nat)
    (via : List Obj) (w : World) (hn : n.isAtEach = false) :
    deactivate (n :: rest) guid via w
      = deactivate rest guid via (deactivateHead n rest guid via w) := by
  rw [deactivate_cons]
  cases rest with
  | nil => simp [deactivate]
  | cons q r => simp [hn]

theorem deactivate_of_absent : ∀ (chain : List PropertyChain) (guid : Nat) (via : List Obj)
    (w : World), (∀ s, s <:+ chain → w.object ⟨guid, via, s⟩ = .absent) →
      deactivate chain guid via w = w := by
  intro chain
  induction chain with
  | nil => intro guid via w _; rfl
  | cons n rest ih =>
    intro guid via w h
    have hhead : deactivateHead n rest guid via w = w := by
      unfold deactivateHead
      rw [h (n :: rest) (List.suffix_refl _)]
    rw [deactivate_cons, hhead]
    split
    · exact ih guid via w (fun s hs => h s (hs.trans (List.suffix_cons n rest)))
    · rfl

theorem removeDependentKeyWithChain_comm (o o2 : Obj) (p p2 : Option String) (a b : Node)
    (w : World) :
    removeDependentKeyWithChain o p a (removeDependentKeyWithChain o2 p2 b w)
      = removeDependentKeyWithChain o2 p2 b (removeDependentKeyWithChain o p a w) := by
  cases w
  simp only [removeDependentKeyWithChain, World.mk.injEq, true_and, and_true]
  funext o3 k3
  by_cases h1 : o3 = o ∧ k3 = key p <;> by_cases h2 : o3 = o2 ∧ k3 = key p2
  · rw [if_pos h1, if_pos h2, if_pos h1, if_pos h2]
    exact List.erase_comm b a _
  · rw [if_pos h1, if_neg h2, if_neg h2, if_pos h1]
  · rw [if_neg h1, if_pos h2, if_pos h2, if_neg h1]
  · rw [if_neg h1, if_neg h2, if_neg h2, if_neg h1]

theorem deactivate_remove_comm : ∀ (chain : List PropertyChain) (guid : Nat) (via : List Obj)
    (o : Obj) (p : Option String) (a : Node) (w : World), (∀ n ∈ chain, n.isAtEach = false) →
      deactivate chain guid via (removeDependentKeyWithChain o p a w)
        = removeDependentKeyWithChain o p a (deactivate chain guid via w) := by
  intro chain
  induction chain with
  | nil => intro guid via o p a w _; rfl
  | cons n rest ih =>
    intro guid via o p a w h
    have hn : n.isAtEach = false := h n (by simp)
    have hrest : ∀ m ∈ rest, m.isAtEach = false := fun m hm => h m (by simp [hm])
    rw [deactivate_cons_plain _ _ _ _ _ hn, deactivate_cons_plain _ _ _ _ _ hn]
    have hhead : deactivateHead n rest guid via (removeDependentKeyWithChain o p a w)
        = removeDependentKeyWithChain o p a (deactivateHead n rest guid via w) := by
      unfold deactivateHead
      have hobj : (removeDependentKeyWithChain o p a w).object ⟨guid, via, n :: rest⟩
          = w.object ⟨guid, via, n :: rest⟩ := rfl
      rw [hobj]
      cases w.object ⟨guid, via, n :: rest⟩ with
      | absent => rfl
      | ref o2 =>
        simp only [hn, Bool.false_eq_true, if_false]
        exact removeDependentKeyWithChain_comm _ _ _ _ _ _ w
    rw [hhead]
    exact ih guid via o p a _ hrest

theorem activateSwitch_of_absent (n : PropertyChain) (rest : List PropertyChain) (guid : Nat)
    (via : List Obj) (x : Value) (w : World)
    (h : w.object ⟨guid, via, n :: rest⟩ = .absent) :
    activateSwitch n rest guid via x w
      = w.setObject ⟨guid, via, n :: rest⟩ (.ref (anchorOf n x)) := by
  unfold activateSwitch
  simp [h]

theorem suffix_ne_cons {guid : Nat} {via : List Obj} (n : PropertyChain)
    (rest s : List PropertyChain) (hs : s <:+ rest) :
    (⟨guid, via, s⟩ : Node) ≠ ⟨guid, via, n :: rest⟩ := by
  intro e
  have e2 : s = n :: rest := by injection e
  have := hs.length_le
  rw [e2] at this
  simp at this

theorem deactivate_activate_chains : ∀ (chain : List PropertyChain) (guid : Nat)
    (via : List Obj) (anchor : Value) (w : World), (∀ n ∈ chain, n.isAtEach = false) →
      (∀ s, s <:+ chain → w.object ⟨guid, via, s⟩ = .absent) →
      (∀ s, s <:+ chain → ∀ o k, ⟨guid, via, s⟩ ∉ w.chains o k) →
      (deactivate chain guid via (activate chain guid via anchor w)).chains = w.chains := by
  intro chain
  induction chain with
  | nil => intro guid via anchor w _ _ _; rfl
  | cons n rest ih =>
    intro guid via anchor w hplain hobj hreg
    have hn : n.isAtEach = false := hplain n (by simp)
    have hrest : ∀ m ∈ rest, m.isAtEach = false := fun m hm => hplain m (by simp [hm])
    have hsuf : ∀ s, s <:+ rest → s <:+ n :: rest := fun s hs =>
      hs.trans (List.suffix_cons n rest)
    -- the world after the node itself is hooked up
    have hhead : activateHead n rest guid via anchor w
        = registerDependentKeyWithChain (anchorOf n anchor) n.property ⟨guid, via, n :: rest⟩
            (w.setObject ⟨guid, via, n :: rest⟩ (.ref (anchorOf n anchor))) := by
      unfold activateHead
      rw [activateSwitch_of_absent _ _ _ _ _ _ (hobj _ (List.suffix_refl _))]
      simp [hn]
    have hheadObj : ∀ s, s <:+ rest →
        (activateHead n rest guid via anchor w).object ⟨guid, via, s⟩ = .absent := by
      intro s hs
      rw [hhead]
      simp only [registerDependentKeyWithChain, World.setObject,
        suffix_ne_cons n rest s hs, if_false]
      exact hobj s (hsuf s hs)
    have hheadReg : ∀ s, s <:+ rest → ∀ o k,
        ⟨guid, via, s⟩ ∉ (activateHead n rest guid via anchor w).chains o k := by
      intro s hs o k
      rw [hhead]
      simp only [registerDependentKeyWithChain, World.setObject]
      split
      · intro hmem
        rcases List.mem_insert_iff.mp hmem with e | hmem
        · exact suffix_ne_cons n rest s hs e
        · exact hreg s (hsuf s hs) o k hmem
      · exact hreg s (hsuf s hs) o k
    -- the world after the whole activation
    obtain ⟨D, hD, hDobj, hDch⟩ : ∃ D, activate (n :: rest) guid via anchor w = D
        ∧ D.object ⟨guid, via, n :: rest⟩ = .ref (anchorOf n anchor)
        ∧ (deactivate rest guid via D).chains
            = (activateHead n rest guid via anchor w).chains := by
      refine ⟨_, rfl, ?_, ?_⟩
      · have := activate_settled (n :: rest) guid via anchor w
        unfold Settled at this
        exact this.1
      · rw [activate_cons]
        split
        · split
          · exact ih guid via _ _ hrest hheadObj hheadReg
          · rw [deactivate_of_absent rest guid via _ hheadObj]
        · rw [deactivate_of_absent rest guid via _ hheadObj]
    rw [hD, deactivate_cons_plain _ _ _ _ _ hn]
    have hdh : deactivateHead n rest guid via D
        = removeDependentKeyWithChain (anchorOf n anchor) n.property ⟨guid, via, n :: rest⟩ D := by
      unfold deactivateHead
      rw [hDobj]
      simp [hn]
    rw [hdh, deactivate_remove_comm rest guid via _ _ _ D hrest]
    funext o k
    simp only [removeDependentKeyWithChain]
    rw [hDch, hhead]
    simp only [registerDependentKeyWithChain, World.setObject]
    split
    · rename_i hk
      obtain ⟨rfl, rfl⟩ := hk
      have hnot := hreg (n :: rest) (List.suffix_refl _) (anchorOf n anchor) (key n.property)
      rw [List.insert_of_not_mem hnot, List.erase_cons_head]
    · rfl

/-- C8. A newly created chain of plain segments (no node hooked to an object or
registered anywhere) is activated and then deactivated at its root: the chain
registry of every object is as it was before the activation, so each watched
(object, key) pair has lost the node it had received, and a later change of a
pair that had no node before notifies and invalidates nothing. The object path
may be fully present or not. -/
theorem deactivate_restores_registry (chain : List PropertyChain) (guid : Nat) (via : List Obj)
    (anchor : Value) (w : World) (hplain : ∀ n ∈ chain, n.isAtEach = false)
    (hobj : ∀ s, s <:+ chain → w.object ⟨guid, via, s⟩ = .absent)
    (hreg : ∀ s, s <:+ chain → ∀ o k, ⟨guid, via, s⟩ ∉ w.chains o k) :
    (∀ o k, (deactivate chain guid via (activate chain guid via anchor w)).chains o k
        = w.chains o k)
      ∧ (∀ o k, w.chains o k = [] →
          (notifyPropertyChains o k
            (deactivate chain guid via (activate chain guid via anchor w))).invalidated
            = (deactivate chain guid via (activate chain guid via anchor w)).invalidated) := by
  have h := deactivate_activate_chains chain guid via anchor w hplain hobj hreg
  refine ⟨fun o k => by rw [h], ?_⟩
  intro o k hk
  unfold notifyPropertyChains
  rw [h, hk]
  rfl

/-- Witness of C8: the chain `a.b` of object 0 whose `a` is object 1. -/
theorem deactivate_restores_registry_witness :
    (deactivate [⟨some "a", 0, "p", some "b", false⟩, ⟨some "b", 0, "p", none, false⟩] 7 []
        (activate [⟨some "a", 0, "p", some "b", false⟩, ⟨some "b", 0, "p", none, false⟩] 7 [] .absent
          (World.empty.set 0 "a" (.ref 1)))).chains 1 "b"
        = (World.empty.set 0 "a" (.ref 1)).chains 1 "b"
      ∧ (notifyPropertyChains 1 "b"
          (deactivate [⟨some "a", 0, "p", some "b", false⟩, ⟨some "b", 0, "p", none, false⟩] 7 []
            (activate [⟨some "a", 0, "p", some "b", false⟩, ⟨some "b", 0, "p", none, false⟩] 7 []
              .absent (World.empty.set 0 "a" (.ref 1))))).invalidated
          = (deactivate [⟨some "a", 0, "p", some "b", false⟩, ⟨some "b", 0, "p", none, false⟩] 7 []
            (activate [⟨some "a", 0, "p", some "b", false⟩, ⟨some "b", 0, "p", none, false⟩] 7 []
              .absent (World.empty.set 0 "a" (.ref 1)))).invalidated :=
  have h := deactivate_restores_registry
    [⟨some "a", 0, "p", some "b", false⟩, ⟨some "b", 0, "p", none, false⟩] 7 []
    .absent (World.empty.set 0 "a" (.ref 1)) (by decide) (fun _ _ => rfl)
    (fun _ _ _ _ hmem => by cases hmem)
  ⟨h.1 1 "b", h.2 1 "b" rfl⟩
/-! ## A chain with an absent intermediate value -/

theorem follow_congr (w w2 : World) (h : w2.get = w.get) :
    ∀ (ns : List PropertyChain) (o : Obj), follow w2 ns o = follow w ns o := by
  intro ns
  induction ns with
  | nil => intro o; rfl
  | cons n ns ih =>
    intro o
    simp only [follow, h]
    cases w.get o (key n.property) with
    | absent => rfl
    | ref y => exact ih y

theorem activate_dormant_core : ∀ (front : List PropertyChain) (n : PropertyChain)
    (back : List PropertyChain) (guid : Nat) (via : List Obj) (x0 xj : Obj) (w : World),
    (∀ m ∈ front, m.isAtEach = false) → n.isAtEach = false →
    (∀ s, s <:+ front ++ n :: back → w.object ⟨guid, via, s⟩ = .absent) →
    follow w front x0 = .ref xj → w.get xj (key n.property) = .absent →
    (∀ f1 m f2, front = f1 ++ m :: f2 → ∀ o, follow w f1 x0 = .ref o →
        ⟨guid, via, m :: f2 ++ n :: back⟩ ∈
          (activate (front ++ n :: back) guid via (.ref x0) w).chains o (key m.property))
      ∧ ⟨guid, via, n :: back⟩ ∈
          (activate (front ++ n :: back) guid via (.ref x0) w).chains xj (key n.property)
      ∧ (activate (front ++ n :: back) guid via (.ref x0) w).object ⟨guid, via, n :: back⟩
          = .ref xj
      ∧ Steps (Before guid via back.length) w
          (activate (front ++ n :: back) guid via (.ref x0) w) := by
  intro front
  induction front with
  | nil =>
    intro n back guid via x0 xj w _ hn hobj hpath habs
    simp only [follow, Value.ref.injEq] at hpath
    subst hpath
    simp only [List.nil_append] at hobj ⊢
    have hhead : activateHead n back guid via (.ref x0) w
        = registerDependentKeyWithChain x0 n.property ⟨guid, via, n :: back⟩
            (w.setObject ⟨guid, via, n :: back⟩ (.ref x0)) := by
      unfold activateHead
      rw [activateSwitch_of_absent _ _ _ _ _ _ (hobj _ (List.suffix_refl _))]
      simp [hn, anchorOf]
    have hact : activate (n :: back) guid via (.ref x0) w
        = registerDependentKeyWithChain x0 n.property ⟨guid, via, n :: back⟩
            (w.setObject ⟨guid, via, n :: back⟩ (.ref x0)) := by
      rw [activate_cons, hhead]
      have hg : (registerDependentKeyWithChain x0 n.property ⟨guid, via, n :: back⟩
          (w.setObject ⟨guid, via, n :: back⟩ (.ref x0))).get (anchorOf n (.ref x0))
            (key n.property) = .absent := habs
      rw [hg]
      split <;> rfl
    rw [hact]
    refine ⟨?_, ?_, ?_, ?_⟩
    · intro f1 m f2 h
      exact absurd h (by simp)
    · simp [registerDependentKeyWithChain]
    · simp [registerDependentKeyWithChain, World.setObject]
    · exact (Steps.single (Prim.setObject _ _ _ ⟨_, rfl, by simp⟩)).trans
        (Steps.single (Prim.register _ _ _ _ ⟨_, rfl, by simp⟩))
  | cons m0 front ih =>
    intro n back guid via x0 xj w hplain hn hobj hpath habs
    have hm0 : m0.isAtEach = false := hplain m0 (by simp)
    have hfront : ∀ m ∈ front, m.isAtEach = false := fun m hm => hplain m (by simp [hm])
    simp only [List.cons_append] at hobj ⊢
    -- the value of the first property is present
    obtain ⟨y, hy, hpath2⟩ : ∃ y, w.get x0 (key m0.property) = .ref y
        ∧ follow w front y = .ref xj := by
      simp only [follow] at hpath
      cases hg : w.get x0 (key m0.property) with
      | absent => rw [hg] at hpath; cases hpath
      | ref y => rw [hg] at hpath; exact ⟨y, rfl, hpath⟩
    have hhead : activateHead m0 (front ++ n :: back) guid via (.ref x0) w
        = registerDependentKeyWithChain x0 m0.property ⟨guid, via, m0 :: (front ++ n :: back)⟩
            (w.setObject ⟨guid, via, m0 :: (front ++ n :: back)⟩ (.ref x0)) := by
      unfold activateHead
      rw [activateSwitch_of_absent _ _ _ _ _ _ (hobj _ (List.suffix_refl _))]
      simp [hm0, anchorOf]
    have hget : (activateHead m0 (front ++ n :: back) guid via (.ref x0) w).get = w.get := by
      rw [hhead]; rfl
    have hact : activate (m0 :: (front ++ n :: back)) guid via (.ref x0) w
        = activate (front ++ n :: back) guid via (.ref y)
            (activateHead m0 (front ++ n :: back) guid via (.ref x0) w) := by
      rw [activate_cons]
      have hne : front ++ n :: back ≠ [] := by simp
      rw [if_pos ⟨hne, hm0⟩, hget]
      simp only [anchorOf, hy]
    have hobj2 : ∀ s, s <:+ front ++ n :: back →
        (activateHead m0 (front ++ n :: back) guid via (.ref x0) w).object ⟨guid, via, s⟩
          = .absent := by
      intro s hs
      rw [hhead]
      simp only [registerDependentKeyWithChain, World.setObject,
        suffix_ne_cons m0 _ s hs, if_false]
      exact hobj s (hs.trans (List.suffix_cons _ _))
    obtain ⟨i1, i2, i3, i4⟩ := ih n back guid via y xj
      (activateHead m0 (front ++ n :: back) guid via (.ref x0) w) hfront hn hobj2
      (by rw [follow_congr w _ hget]; exact hpath2) (by rw [hget]; exact habs)
    rw [hact]
    have hstepsHead : Steps (Before guid via back.length) w
        (activateHead m0 (front ++ n :: back) guid via (.ref x0) w) := by
      rw [hhead]
      exact (Steps.single (Prim.setObject _ _ _ ⟨_, rfl, by simp; omega⟩)).trans
        (Steps.single (Prim.register _ _ _ _ ⟨_, rfl, by simp; omega⟩))
    refine ⟨?_, i2, i3, hstepsHead.trans i4⟩
    intro f1 m f2 hsplit o ho
    cases f1 with
    | nil =>
      simp only [List.nil_append, List.cons.injEq] at hsplit
      obtain ⟨rfl, rfl⟩ := hsplit
      simp only [follow, Value.ref.injEq] at ho
      subst ho
      have hreg : ⟨guid, via, m0 :: (front ++ n :: back)⟩ ∈
          (activateHead m0 (front ++ n :: back) guid via (.ref x0) w).chains x0
            (key m0.property) := by
        rw [hhead]; simp [registerDependentKeyWithChain]
      refine (activate_steps (front ++ n :: back) guid via (.ref y) _).mem_chains_keep _ ?_ _ _
        (by simpa using hreg)
      exact Below.not_longer (by simp)
    | cons m1 f1 =>
      simp only [List.cons_append, List.cons.injEq] at hsplit
      obtain ⟨rfl, rfl⟩ := hsplit
      simp only [follow, hy] at ho
      exact i1 f1 m f2 rfl o (by rw [follow_congr w _ hget]; exact ho)

/-- C9. A newly created chain whose leading nodes are plain is activated on
`x0`; the properties of the nodes `front` lead from `x0` to the object `xj`,
and the property of the next node `n` is absent on `xj`. Activation then
returns with every node of `front` registered on the object reached along the
path and `n` registered on `xj`; the nodes after `n` are left as they were, in
no registry they were not in already and with no object. When the property
later holds an object `y` and `n` is notified, the node after `n` is activated
on `y`: it has `y` as its object and is registered there. -/
theorem activate_dormant (front : List PropertyChain) (n : PropertyChain)
    (back : List PropertyChain) (guid : Nat) (via : List Obj) (x0 xj : Obj) (w : World)
    (hfront : ∀ m ∈ front, m.isAtEach = false) (hn : n.isAtEach = false)
    (hnew : ∀ s, s <:+ front ++ n :: back → w.object ⟨guid, via, s⟩ = .absent)
    (hpath : follow w front x0 = .ref xj) (habsent : w.get xj (key n.property) = .absent) :
    (∀ f1 m f2, front = f1 ++ m :: f2 → ∀ o, follow w f1 x0 = .ref o →
        ⟨guid, via, m :: f2 ++ n :: back⟩ ∈
          (activate (front ++ n :: back) guid via (.ref x0) w).chains o (key m.property))
      ∧ ⟨guid, via, n :: back⟩ ∈
          (activate (front ++ n :: back) guid via (.ref x0) w).chains xj (key n.property)
      ∧ (∀ s, s <:+ back →
          (∀ o k, ⟨guid, via, s⟩ ∈ (activate (front ++ n :: back) guid via (.ref x0) w).chains o k
            ↔ ⟨guid, via, s⟩ ∈ w.chains o k)
          ∧ (∀ c, ⟨guid, via, s⟩ ∈
              (activate (front ++ n :: back) guid via (.ref x0) w).enumerableChains c
            ↔ ⟨guid, via, s⟩ ∈ w.enumerableChains c)
          ∧ (activate (front ++ n :: back) guid via (.ref x0) w).object ⟨guid, via, s⟩
              = .absent)
      ∧ (∀ q back2 y, back = q :: back2 →
          (notifyPropertyDidChange ⟨guid, via, n :: back⟩
            ((activate (front ++ n :: back) guid via (.ref x0) w).set xj (key n.property)
              (.ref y))).object ⟨guid, via, back⟩ = .ref y
          ∧ (if q.isAtEach then
              ⟨guid, via, back⟩ ∈ (notifyPropertyDidChange ⟨guid, via, n :: back⟩
                ((activate (front ++ n :: back) guid via (.ref x0) w).set xj (key n.property)
                  (.ref y))).enumerableChains y
            else
              ⟨guid, via, back⟩ ∈ (notifyPropertyDidChange ⟨guid, via, n :: back⟩
                ((activate (front ++ n :: back) guid via (.ref x0) w).set xj (key n.property)
                  (.ref y))).chains y (key q.property))) := by
  obtain ⟨h1, h2, h3, h4⟩ :=
    activate_dormant_core front n back guid via x0 xj w hfront hn hnew hpath habsent
  refine ⟨h1, h2, ?_, ?_⟩
  · intro s hs
    have hout : ∀ c : Cell, c.node = ⟨guid, via, s⟩ → ¬ Before guid via back.length c := by
      rintro c hc ⟨s2, he, hlen⟩
      rw [hc] at he
      have e2 : s = s2 := by injection he
      subst e2
      have := hs.length_le
      omega
    refine ⟨fun o k => ⟨h4.mem_chains_of _ (hout _ rfl) o k, h4.mem_chains_keep _ (hout _ rfl) o k⟩,
      fun c => ⟨h4.mem_enumerable_of _ (hout _ rfl) c, h4.mem_enumerable_keep _ (hout _ rfl) c⟩,
      ?_⟩
    rw [h4.object_eq _ (hout _ rfl)]
    exact hnew s (hs.trans ((List.suffix_cons n back).trans (List.suffix_append front _)))
  · intro q back2 y hback
    subst hback
    have hget : ((activate (front ++ n :: q :: back2) guid via (.ref x0) w).set xj
        (key n.property) (.ref y)).get xj (key n.property) = .ref y := by
      simp [World.set]
    rw [notifyPropertyDidChange_reactivates n q back2 guid via
      ((activate (front ++ n :: q :: back2) guid via (.ref x0) w).set xj (key n.property)
        (.ref y)) xj y hn h3 hget]
    have hs := activate_settled (q :: back2) guid via (.ref y)
      (propertyDidChange n.target n.toInvalidate
        ((activate (front ++ n :: q :: back2) guid via (.ref x0) w).set xj (key n.property)
          (.ref y)))
    unfold Settled at hs
    simp only [anchorOf] at hs
    refine ⟨hs.1, ?_⟩
    have h2 := hs.2
    split
    · rename_i hq
      rw [if_pos hq] at h2
      exact h2.1
    · rename_i hq
      rw [if_neg hq] at h2
      exact h2.1

/-- Witness of C9: the chain `a.b.c` of object 0 whose `a` is object 1, while
`b` of object 1 is absent and later becomes object 2. -/
theorem activate_dormant_witness :
    (⟨7, [], [⟨some "b", 0, "p", some "c", false⟩, ⟨some "c", 0, "p", none, false⟩]⟩ : Node) ∈
        (activate [⟨some "a", 0, "p", some "b", false⟩,
            ⟨some "b", 0, "p", some "c", false⟩, ⟨some "c", 0, "p", none, false⟩] 7 [] (.ref 0)
          (World.empty.set 0 "a" (.ref 1))).chains 1 "b"
      ∧ (activate [⟨some "a", 0, "p", some "b", false⟩,
            ⟨some "b", 0, "p", some "c", false⟩, ⟨some "c", 0, "p", none, false⟩] 7 [] (.ref 0)
          (World.empty.set 0 "a" (.ref 1))).object
          ⟨7, [], [⟨some "c", 0, "p", none, false⟩]⟩ = .absent
      ∧ (notifyPropertyDidChange ⟨7, [], [⟨some "b", 0, "p", some "c", false⟩, ⟨some "c", 0, "p", none, false⟩]⟩
          ((activate [⟨some "a", 0, "p", some "b", false⟩,
            ⟨some "b", 0, "p", some "c", false⟩, ⟨some "c", 0, "p", none, false⟩] 7 [] (.ref 0)
          (World.empty.set 0 "a" (.ref 1))).set 1 "b" (.ref 2))).object
          ⟨7, [], [⟨some "c", 0, "p", none, false⟩]⟩ = .ref 2 :=
  have h := activate_dormant [⟨some "a", 0, "p", some "b", false⟩] ⟨some "b", 0, "p", some "c", false⟩
    [⟨some "c", 0, "p", none, false⟩] 7 [] 0 1 (World.empty.set 0 "a" (.ref 1)) (by decide) rfl
    (fun _ _ => rfl) (by decide) (by decide)
  ⟨h.2.1, (h.2.2.1 _ (List.suffix_refl _)).2.2, (h.2.2.2 _ [] 2 rfl).1⟩

/-! ## copy -/

theorem copyFields_eq : ∀ chain : List PropertyChain, copyFields chain = chain := by
  intro chain
  induction chain with
  | nil => rfl
  | cons n rest ih => simp [copyFields, ih]

/-- C16. For every chain node `c` and every world, `c.copy()` is the head of a
new linked list (its identity is the fresh one) with the same number of nodes,
each with the `property`, `target`, `toInvalidate`, `nextProperty` and
`isAtEach` of the corresponding node of `c`; every node of the copy has `object`
unset, whatever the nodes of `c` are attached to; and `c` is unchanged: its
nodes keep their object and the registries are as before. -/
theorem copy_fields_and_object (this : Node) (fresh : Nat) (w : World) :
    (copy this fresh w).1.guid = fresh
      ∧ (copy this fresh w).1.chain.length = this.chain.length
      ∧ (copy this fresh w).1.chain = this.chain
      ∧ (∀ s, (copy this fresh w).2.object ⟨fresh, [], s⟩ = .absent)
      ∧ (fresh ≠ this.guid →
          ∀ via s, (copy this fresh w).2.object ⟨this.guid, via, s⟩
            = w.object ⟨this.guid, via, s⟩)
      ∧ (copy this fresh w).2.chains = w.chains
      ∧ (copy this fresh w).2.enumerableChains = w.enumerableChains := by
  refine ⟨rfl, ?_, ?_, ?_, ?_, rfl, rfl⟩
  · simp [copy, copyFields_eq]
  · simp [copy, copyFields_eq]
  · intro s
    simp [copy, World.allocate]
  · intro h via s
    have : ¬ this.guid = fresh := fun e => h e.symm
    simp [copy, World.allocate, this]

/-- Witness of C16: the copy of the activated root of `contact.firstName`. -/
theorem copy_fields_and_object_witness :
    (copy ⟨7, [], createChain "contact.firstName" 0 "fullName"⟩ 8
        (activate (createChain "contact.firstName" 0 "fullName") 7 [] .absent
          (World.empty.set 0 "contact" (.ref 1)))).1.chain
        = createChain "contact.firstName" 0 "fullName"
      ∧ (copy ⟨7, [], createChain "contact.firstName" 0 "fullName"⟩ 8
          (activate (createChain "contact.firstName" 0 "fullName") 7 [] .absent
            (World.empty.set 0 "contact" (.ref 1)))).2.object
          ⟨7, [], createChain "contact.firstName" 0 "fullName"⟩
        = (activate (createChain "contact.firstName" 0 "fullName") 7 [] .absent
            (World.empty.set 0 "contact" (.ref 1))).object
          ⟨7, [], createChain "contact.firstName" 0 "fullName"⟩ :=
  have h := copy_fields_and_object ⟨7, [], createChain "contact.firstName" 0 "fullName"⟩ 8
    (activate (createChain "contact.firstName" 0 "fullName") 7 [] .absent
      (World.empty.set 0 "contact" (.ref 1)))
  ⟨h.2.2.1, h.2.2.2.2.1 (by decide) [] _⟩

/-! ## The pending set -/

namespace Observers

theorem deliver_calls (notify : Obj → State → State) :
    ∀ (l : List Obj) (s : State) (calls : List Obj),
      (deliver notify l s calls).2 = calls ++ l := by
  intro l
  induction l with
  | nil => intro s calls; simp [deliver]
  | cons o rest ih => intro s calls; simp [deliver, ih]

theorem suspend_iterate (s : State) : ∀ n : Nat,
    (suspendPropertyObserving^[n] s) = { s with isObservingSuspended := s.isObservingSuspended + n }
  | 0 => by simp
  | n + 1 => by
    rw [Function.iterate_succ_apply', suspend_iterate s n]
    simp [suspendPropertyObserving, Int.add_assoc]

theorem resume_while_suspended (notify : Obj → State → State) (s : State)
    (h : 2 ≤ s.isObservingSuspended) :
    resumePropertyObserving notify s
      = ({ s with isObservingSuspended := s.isObservingSuspended - 1 }, []) := by
  unfold resumePropertyObserving
  have : ¬ (s.isObservingSuspended - 1 ≤ 0) := by omega
  simp [this]

theorem resume_closing (notify : Obj → State → State) (s : State)
    (h : s.isObservingSuspended ≤ 1) :
    (resumePropertyObserving notify s).2 = s.pending := by
  unfold resumePropertyObserving
  have : s.isObservingSuspended - 1 ≤ 0 := by omega
  simp [this, deliver_calls]

theorem resume_iterate (notify : Obj → State → State) (s : State) :
    ∀ k : Nat, (k : Int) + 1 ≤ s.isObservingSuspended →
      ((fun t => (resumePropertyObserving notify t).1)^[k] s)
        = { s with isObservingSuspended := s.isObservingSuspended - k }
  | 0, _ => by simp
  | k + 1, h => by
    rw [Function.iterate_succ_apply', resume_iterate notify s k (by push_cast at h; omega)]
    rw [resume_while_suspended notify _ (by push_cast at h; show (2 : Int) ≤ _ - _; omega)]
    simp only [State.mk.injEq, and_true]
    push_cast
    omega

/-- C13. Batches nest by reference count. From `isObservingSuspended = 0`, after
n >= 1 calls of `suspendPropertyObserving`, each of the first n-1 calls of
`resumePropertyObserving` calls `_notifyPropertyObservers` on no object and
leaves `_pending` as it is, and the n-th call calls it on every pending
object. -/
theorem resume_nested (notify : Obj → State → State) (s : State) (n : Nat) (hn : 1 ≤ n)
    (h0 : s.isObservingSuspended = 0) :
    (∀ k, k + 1 < n →
        (resumePropertyObserving notify
          ((fun t => (resumePropertyObserving notify t).1)^[k]
            (suspendPropertyObserving^[n] s))).2 = []
        ∧ (resumePropertyObserving notify
          ((fun t => (resumePropertyObserving notify t).1)^[k]
            (suspendPropertyObserving^[n] s))).1.pending = s.pending)
      ∧ (resumePropertyObserving notify
          ((fun t => (resumePropertyObserving notify t).1)^[n - 1]
            (suspendPropertyObserving^[n] s))).2 = s.pending := by
  rw [suspend_iterate, h0]
  refine ⟨?_, ?_⟩
  · intro k hk
    rw [resume_iterate notify _ k (by show (k : Int) + 1 ≤ 0 + (n : Int); omega)]
    rw [resume_while_suspended notify _ (by show (2 : Int) ≤ 0 + (n : Int) - (k : Int); omega)]
    exact ⟨rfl, rfl⟩
  · rw [resume_iterate notify _ (n - 1) (by show ((n - 1 : Nat) : Int) + 1 ≤ 0 + (n : Int); omega)]
    rw [resume_closing notify _ (by show 0 + (n : Int) - ((n - 1 : Nat) : Int) ≤ 1; omega)]

/-- Witness of C13: three nested batches with two pending objects. -/
theorem resume_nested_witness :
    ((resumePropertyObserving (fun _ t => t)
          ((fun t => (resumePropertyObserving (fun _ t => t) t).1)^[1]
            (suspendPropertyObserving^[3] ⟨0, [4, 5]⟩))).2 = []
        ∧ (resumePropertyObserving (fun _ t => t)
          ((fun t => (resumePropertyObserving (fun _ t => t) t).1)^[1]
            (suspendPropertyObserving^[3] ⟨0, [4, 5]⟩))).1.pending = [4, 5])
      ∧ (resumePropertyObserving (fun _ t => t)
          ((fun t => (resumePropertyObserving (fun _ t => t) t).1)^[3 - 1]
            (suspendPropertyObserving^[3] ⟨0, [4, 5]⟩))).2 = [4, 5] :=
  have h := resume_nested (fun _ t => t) ⟨0, [4, 5]⟩ 3 (by decide) rfl
  ⟨h.1 1 (by decide), h.2⟩

theorem foldl_add_pending (xs : List Obj) (s : State) :
    (xs.foldl (fun t o => objectHasPendingChanges o t) s)
      = { s with pending := xs.foldl coreSetAdd s.pending } := by
  induction xs generalizing s with
  | nil => rfl
  | cons x xs ih => rw [List.foldl_cons, ih]; rfl

theorem coreSetAdd_of_mem {l : List Obj} {o : Obj} (h : o ∈ l) : coreSetAdd l o = l := by
  simp [coreSetAdd, h]

theorem coreSetAdd_of_not_mem {l : List Obj} {o : Obj} (h : o ∉ l) :
    coreSetAdd l o = l ++ [o] := by
  simp [coreSetAdd, h]

theorem mem_foldl_coreSetAdd (xs : List Obj) : ∀ (l : List Obj) (o : Obj),
    o ∈ xs.foldl coreSetAdd l ↔ o ∈ l ∨ o ∈ xs := by
  induction xs with
  | nil => intro l o; simp
  | cons x xs ih =>
    intro l o
    rw [List.foldl_cons, ih]
    by_cases hx : x ∈ l
    · rw [coreSetAdd_of_mem hx]
      simp only [List.mem_cons]
      constructor
      · rintro (h | h)
        · exact Or.inl h
        · exact Or.inr (Or.inr h)
      · rintro (h | rfl | h)
        · exact Or.inl h
        · exact Or.inl hx
        · exact Or.inr h
    · rw [coreSetAdd_of_not_mem hx]
      simp only [List.mem_append, List.mem_singleton, List.mem_cons]
      tauto

theorem nodup_foldl_coreSetAdd (xs : List Obj) : ∀ l : List Obj, l.Nodup →
    (xs.foldl coreSetAdd l).Nodup := by
  induction xs with
  | nil => intro l h; exact h
  | cons x xs ih =>
    intro l h
    rw [List.foldl_cons]
    apply ih
    by_cases hx : x ∈ l
    · rw [coreSetAdd_of_mem hx]; exact h
    · rw [coreSetAdd_of_not_mem hx]
      exact List.Nodup.append h (List.nodup_singleton x) (by simpa using hx)

theorem indexOf_foldl_coreSetAdd : ∀ (xs : List Obj) (a b : Obj), a ∈ xs → b ∈ xs →
    ((xs.foldl coreSetAdd []).indexOf a < (xs.foldl coreSetAdd []).indexOf b
      ↔ xs.indexOf a < xs.indexOf b) := by
  intro xs
  induction xs using List.reverseRecOn with
  | nil => intro a b ha; simp at ha
  | append_singleton ys x ih =>
    intro a b ha hb
    rw [List.foldl_append, List.foldl_cons, List.foldl_nil]
    have hmem : ∀ o, o ∈ ys.foldl coreSetAdd [] ↔ o ∈ ys := by
      intro o; simp [mem_foldl_coreSetAdd]
    by_cases hx : x ∈ ys
    · have hc : coreSetAdd (ys.foldl coreSetAdd []) x = ys.foldl coreSetAdd [] :=
        coreSetAdd_of_mem ((hmem x).mpr hx)
      have ha2 : a ∈ ys := by
        rcases List.mem_append.mp ha with h | h
        · exact h
        · simp at h; subst h; exact hx
      have hb2 : b ∈ ys := by
        rcases List.mem_append.mp hb with h | h
        · exact h
        · simp at h; subst h; exact hx
      rw [hc, List.indexOf_append_of_mem ha2, List.indexOf_append_of_mem hb2]
      exact ih a b ha2 hb2
    · have hc : coreSetAdd (ys.foldl coreSetAdd []) x = ys.foldl coreSetAdd [] ++ [x] :=
        coreSetAdd_of_not_mem (fun h => hx ((hmem x).mp h))
      rw [hc]
      have hxin : ∀ o, o ∈ ys ++ [x] → o ∈ ys ∨ (o = x ∧ o ∉ ys) := by
        intro o ho
        rcases List.mem_append.mp ho with h | h
        · exact Or.inl h
        · simp at h; subst h; exact Or.inr ⟨rfl, hx⟩
      have hin : ∀ o, o ∈ ys →
          (ys.foldl coreSetAdd [] ++ [x]).indexOf o = (ys.foldl coreSetAdd []).indexOf o
          ∧ (ys ++ [x]).indexOf o = ys.indexOf o
          ∧ (ys.foldl coreSetAdd []).indexOf o < (ys.foldl coreSetAdd []).length
          ∧ ys.indexOf o < ys.length := by
        intro o ho
        exact ⟨List.indexOf_append_of_mem ((hmem o).mpr ho), List.indexOf_append_of_mem ho,
          List.indexOf_lt_length.mpr ((hmem o).mpr ho), List.indexOf_lt_length.mpr ho⟩
      have hout : (ys.foldl coreSetAdd [] ++ [x]).indexOf x = (ys.foldl coreSetAdd []).length
          ∧ (ys ++ [x]).indexOf x = ys.length := by
        constructor
        · rw [List.indexOf_append_of_not_mem (fun h => hx ((hmem x).mp h))]; simp
        · rw [List.indexOf_append_of_not_mem hx]; simp
      rcases hxin a ha with ha2 | ⟨rfl, _⟩ <;> rcases hxin b hb with hb2 | ⟨rfl, _⟩
      · rw [(hin a ha2).1, (hin b hb2).1, (hin a ha2).2.1, (hin b hb2).2.1]
        exact ih a b ha2 hb2
      · rw [(hin a ha2).1, (hin a ha2).2.1, hout.1, hout.2]
        exact ⟨fun _ => (hin a ha2).2.2.2, fun _ => (hin a ha2).2.2.1⟩
      · rw [(hin b hb2).1, (hin b hb2).2.1, hout.1, hout.2]
        have h1 := (hin b hb2).2.2.1
        have h2 := (hin b hb2).2.2.2
        constructor <;> intro h <;> omega
      · simp

/-- C14. A batch is opened on an idle `SC.Observers` (counter 0, nothing
pending), the objects `xs` are passed to `objectHasPendingChanges` one after the
other, and the batch is closed. The closing `resumePropertyObserving` calls
`_notifyPropertyObservers` exactly once on each distinct object of `xs`, however
often it was passed, on no other object, and in the order in which the objects
were first passed. -/
theorem resume_delivers_once_in_order (notify : Obj → State → State) (s : State)
    (xs : List Obj) (h0 : s.isObservingSuspended = 0) (hp : s.pending = []) :
    (∀ o, o ∈ (resumePropertyObserving notify
        (xs.foldl (fun t o => objectHasPendingChanges o t) (suspendPropertyObserving s))).2
        ↔ o ∈ xs)
      ∧ (∀ o ∈ xs, List.count o (resumePropertyObserving notify
          (xs.foldl (fun t o => objectHasPendingChanges o t) (suspendPropertyObserving s))).2
          = 1)
      ∧ (∀ a b, a ∈ xs → b ∈ xs →
          ((resumePropertyObserving notify
              (xs.foldl (fun t o => objectHasPendingChanges o t)
                (suspendPropertyObserving s))).2.indexOf a
            < (resumePropertyObserving notify
              (xs.foldl (fun t o => objectHasPendingChanges o t)
                (suspendPropertyObserving s))).2.indexOf b
          ↔ xs.indexOf a < xs.indexOf b)) := by
  have hcalls : (resumePropertyObserving notify
      (xs.foldl (fun t o => objectHasPendingChanges o t) (suspendPropertyObserving s))).2
      = xs.foldl coreSetAdd [] := by
    rw [foldl_add_pending, resume_closing]
    · simp [suspendPropertyObserving, hp]
    · simp [suspendPropertyObserving, h0]
  rw [hcalls]
  refine ⟨?_, ?_, indexOf_foldl_coreSetAdd xs⟩
  · intro o; simp [mem_foldl_coreSetAdd]
  · intro o ho
    exact List.count_eq_one_of_mem (nodup_foldl_coreSetAdd xs [] List.nodup_nil)
      ((mem_foldl_coreSetAdd xs [] o).mpr (Or.inr ho))

/-- Witness of C14: object 2 is passed twice, after object 1 and before
object 3. -/
theorem resume_delivers_once_in_order_witness :
    (resumePropertyObserving (fun _ t => t)
        ([1, 2, 2, 3].foldl (fun t o => objectHasPendingChanges o t)
          (suspendPropertyObserving ⟨0, []⟩))).2.count 2 = 1
      ∧ ((resumePropertyObserving (fun _ t => t)
          ([1, 2, 2, 3].foldl (fun t o => objectHasPendingChanges o t)
            (suspendPropertyObserving ⟨0, []⟩))).2.indexOf 2
          < (resumePropertyObserving (fun _ t => t)
            ([1, 2, 2, 3].foldl (fun t o => objectHasPendingChanges o t)
              (suspendPropertyObserving ⟨0, []⟩))).2.indexOf 3
        ↔ [1, 2, 2, 3].indexOf 2 < [1, 2, 2, 3].indexOf 3) :=
  have h := resume_delivers_once_in_order (fun _ t => t) ⟨0, []⟩ [1, 2, 2, 3] rfl rfl
  ⟨h.2.1 2 (by decide), h.2.2 2 3 (by decide) (by decide)⟩

end Observers
namespace Observers

theorem deliver_adds_state (adds : Obj → List Obj) :
    ∀ (l : List Obj) (s : State) (calls : List Obj),
      (deliver (fun a t => (adds a).foldl (fun t o => objectHasPendingChanges o t) t) l s
          calls).1
        = { s with pending := (l.flatMap adds).foldl coreSetAdd s.pending } := by
  intro l
  induction l with
  | nil => intro s calls; rfl
  | cons a rest ih =>
    intro s calls
    simp only [deliver, List.flatMap_cons, List.foldl_append]
    rw [ih, foldl_add_pending]

/-- C15. The pending set is replaced by an empty set before delivery starts.
When each delivery callback passes objects to `objectHasPendingChanges` (the
callback of `a` passes `adds a`), the closing `resumePropertyObserving` still
calls `_notifyPropertyObservers` on the objects of the old set only; the objects
passed during delivery, and no others, are in `_pending` when the call returns;
and the next batch that is closed delivers them. -/
theorem pending_during_delivery (adds : Obj → List Obj) (later : Obj → State → State)
    (s : State) (h : s.isObservingSuspended = 1) :
    (resumePropertyObserving
        (fun a t => (adds a).foldl (fun t o => objectHasPendingChanges o t) t) s).2 = s.pending
      ∧ (∀ o, o ∈ (resumePropertyObserving
            (fun a t => (adds a).foldl (fun t o => objectHasPendingChanges o t) t) s).1.pending
          ↔ ∃ a ∈ s.pending, o ∈ adds a)
      ∧ (resumePropertyObserving later (suspendPropertyObserving
          (resumePropertyObserving
            (fun a t => (adds a).foldl (fun t o => objectHasPendingChanges o t) t) s).1)).2
          = (resumePropertyObserving
            (fun a t => (adds a).foldl (fun t o => objectHasPendingChanges o t) t) s).1.pending := by
  have hstate : (resumePropertyObserving
      (fun a t => (adds a).foldl (fun t o => objectHasPendingChanges o t) t) s).1
      = { isObservingSuspended := 0, pending := (s.pending.flatMap adds).foldl coreSetAdd [] } := by
    unfold resumePropertyObserving
    simp only [h]
    rw [if_pos (by decide)]
    rw [deliver_adds_state]
    rfl
  refine ⟨resume_closing _ s (by omega), ?_, ?_⟩
  · intro o
    rw [hstate]
    simp [mem_foldl_coreSetAdd, List.mem_flatMap]
  · rw [hstate]
    exact resume_closing later _ (by simp [suspendPropertyObserving])

/-- Witness of C15: while object 1 is delivered, object 2 is passed to
`objectHasPendingChanges`. -/
theorem pending_during_delivery_witness :
    (resumePropertyObserving
        (fun a t => ((fun _ => [2]) a).foldl (fun t o => objectHasPendingChanges o t) t)
        ⟨1, [1]⟩).2 = [1]
      ∧ (2 ∈ (resumePropertyObserving
            (fun a t => ((fun _ => [2]) a).foldl (fun t o => objectHasPendingChanges o t) t)
            ⟨1, [1]⟩).1.pending
          ↔ ∃ a ∈ [1], 2 ∈ (fun _ => [2]) a) :=
  have h := pending_during_delivery (fun _ => [2]) (fun _ t => t) ⟨1, [1]⟩ rfl
  ⟨h.1, h.2.1 2⟩

end Observers

/-! ## The escaping helpers -/

namespace RenderContext

theorem join_foldl_data : ∀ (l : List String) (acc : String),
    (l.foldl (fun r s => r ++ s) acc).data = acc.data ++ (l.map String.data).flatten := by
  intro l
  induction l with
  | nil => intro acc; simp
  | cons s rest ih => intro acc; simp [ih]

theorem join_data (l : List String) : (String.join l).data = (l.map String.data).flatten := by
  unfold String.join
  rw [join_foldl_data]
  simp

theorem join_singletons (s : String) : String.join (s.toList.map String.singleton) = s := by
  apply String.ext
  rw [join_data]
  show ((s.data.map String.singleton).map String.data).flatten = s.data
  generalize s.data = l
  induction l with
  | nil => rfl
  | cons c rest ih =>
    simp only [List.map_cons, List.flatten_cons, ih]
    rfl

theorem escapeHTML_char (c : Char) :
    (if escapeHTMLRegex c then (escapeHTMLMethod c).getD "undefined" else String.singleton c)
      = (if c = '&' then "&amp;" else if c = '<' then "&lt;" else if c = '>' then "&gt;"
          else String.singleton c) := by
  unfold escapeHTMLRegex escapeHTMLMethod
  by_cases h1 : c = '&'
  · simp [h1]
  · by_cases h2 : c = '<'
    · simp [h2]
    · by_cases h3 : c = '>'
      · simp [h3]
      · simp [h1, h2, h3]

theorem escapeHTML_string (s : String) : escapeHTML (.string s) = escapeHTMLSpec s := by
  unfold escapeHTML textOf escapeHTMLSpec
  by_cases hs : s = ""
  · subst hs; rfl
  · simp only [hs, if_false, replace]
    congr 1
    apply List.map_congr_left
    intro c _
    exact escapeHTML_char c

/-- C17. For every string `s`, `escapeHTML(s)` is `s` with every `&` replaced by
`&amp;`, every `<` by `&lt;` and every `>` by `&gt;`, and with every other
character, `/` and the quotes included, left as it is, in order; `<b>foo</b>`
gives `&lt;b&gt;foo&lt;/b&gt;`. -/
theorem escapeHTML_replaces_three (s : String) :
    escapeHTML (.string s) = escapeHTMLSpec s
      ∧ escapeHTML (.string "<b>foo</b>") = "&lt;b&gt;foo&lt;/b&gt;" :=
  ⟨escapeHTML_string s, by decide⟩

/-- C18 on the code, at the inputs where it fails: the regular expression
`/[&<>]/g` selects neither quotes nor slashes, so the cases of the method for
them are never reached. `</p>` becomes `&lt;/p&gt;`, and the quotes of
`alert('hi') "x"` stay as they are. -/
theorem escapeHTML_keeps_quotes_and_slashes :
    escapeHTML (.string "</p>") = "&lt;/p&gt;"
      ∧ escapeHTML (.string "alert('hi') \"x\"") = "alert('hi') \"x\""
      ∧ escapeHTMLMethod '/' = some "&#x2f;"
      ∧ escapeHTMLRegex '/' = false := by
  decide

theorem escapeAttribute_char (c : Char) :
    (if escapeAttributeRegex c then (escapeAttributeMethod c).getD "undefined"
      else String.singleton c) = escapeAttributeCharSpec c := by
  unfold escapeAttributeRegex escapeAttributeMethod escapeAttributeCharSpec isAsciiAlphanumeric
  by_cases h : (('A' ≤ c && c ≤ 'Z') || ('a' ≤ c && c ≤ 'z') || ('0' ≤ c && c ≤ '9')) = true
  · simp [h]
  · simp only [h, Bool.not_eq_true, Bool.not_false, if_true]
    by_cases h2 : c.toNat < 256
    · simp [h2]
    · simp [h2]

theorem escapeAttributeValue_string (s : String) :
    escapeAttributeValue (.string s) = String.join (s.toList.map escapeAttributeCharSpec) := by
  unfold escapeAttributeValue textOf
  by_cases hs : s = ""
  · subst hs; rfl
  · simp only [hs, if_false, replace]
    congr 1
    apply List.map_congr_left
    intro c _
    exact escapeAttribute_char c

/-- C19. For every string `s`, empty or not, `escapeAttributeValue(s)` is the
concatenation, character by character, of the character itself if it is in
`[A-Za-z0-9]`, of `&#x` + the lowercase hexadecimal code + `;` if it is another
character with a code below 256, and of the character itself if its code is 256
or more. A string of ASCII letters and digits is returned unchanged. -/
theorem escapeAttributeValue_by_char (s : String) :
    escapeAttributeValue (.string s) = String.join (s.toList.map escapeAttributeCharSpec)
      ∧ ((∀ c ∈ s.toList, isAsciiAlphanumeric c = true) →
          escapeAttributeValue (.string s) = s) := by
  refine ⟨escapeAttributeValue_string s, ?_⟩
  intro h
  rw [escapeAttributeValue_string]
  have : s.toList.map escapeAttributeCharSpec = s.toList.map String.singleton := by
    apply List.map_congr_left
    intro c hc
    simp [escapeAttributeCharSpec, h c hc]
  rw [this, join_singletons]

/-- Witness of C19: a string of the attribute test. -/
theorem escapeAttributeValue_by_char_witness :
    escapeAttributeValue (.string "abcXYZ0123456789") = "abcXYZ0123456789" :=
  (escapeAttributeValue_by_char "abcXYZ0123456789").2 (by decide)

set_option maxRecDepth 1000000 in
theorem hex_digits_alphanumeric :
    ∀ n, n < 256 → ∀ d ∈ Nat.toDigits 16 n, isAsciiAlphanumeric d = true := by
  decide

theorem escapeAttributeCharSpec_chars (c : Char) :
    ∀ d ∈ (escapeAttributeCharSpec c).data,
      d.toNat < 256 → isAsciiAlphanumeric d = true ∨ d = '&' ∨ d = '#' ∨ d = ';' := by
  intro d hd hlt
  unfold escapeAttributeCharSpec at hd
  by_cases h1 : isAsciiAlphanumeric c = true
  · simp only [h1, if_true, String.singleton] at hd
    simp at hd
    subst hd
    exact Or.inl h1
  · rw [if_neg h1] at hd
    by_cases h2 : c.toNat < 256
    · rw [if_pos h2] at hd
      simp only [String.data_append, List.mem_append] at hd
      have hd2 : (d ∈ "&#x".data ∨ d ∈ Nat.toDigits 16 c.toNat) ∨ d ∈ ";".data := hd
      rcases hd2 with (hd | hd) | hd
      · have : d = '&' ∨ d = '#' ∨ d = 'x' := by simpa using hd
        rcases this with rfl | rfl | rfl
        · exact Or.inr (Or.inl rfl)
        · exact Or.inr (Or.inr (Or.inl rfl))
        · exact Or.inl (by decide)
      · exact Or.inl (hex_digits_alphanumeric c.toNat h2 d hd)
      · have : d = ';' := by simpa using hd
        exact Or.inr (Or.inr (Or.inr this))
    · rw [if_neg h2] at hd
      simp [String.singleton] at hd
      subst hd
      exact absurd hlt h2

theorem escapeAttributeValue_chars (s : String) :
    ∀ d ∈ (escapeAttributeValue (.string s)).toList,
      d.toNat < 256 → isAsciiAlphanumeric d = true ∨ d = '&' ∨ d = '#' ∨ d = ';' := by
  intro d hd hlt
  rw [escapeAttributeValue_string, String.toList, join_data] at hd
  simp only [List.mem_flatten, List.mem_map, exists_exists_and_eq_and] at hd
  obtain ⟨c, _, hc⟩ := hd
  exact escapeAttributeCharSpec_chars c d hc hlt

/-- C20. For every string `s`, every character of `escapeAttributeValue(s)` with
a code below 256 is an ASCII letter, a digit, or one of `&`, `#`, `;`; so the
result contains no single quote, double quote, backtick, `<`, `>` or `=`, and
no whitespace character with a code below 256: space, tab, line feed, vertical
tab, form feed, carriage return, next line (133) and no-break space (160). -/
theorem escapeAttributeValue_safe (s : String) :
    (∀ d ∈ (escapeAttributeValue (.string s)).toList,
        d.toNat < 256 → isAsciiAlphanumeric d = true ∨ d = '&' ∨ d = '#' ∨ d = ';')
      ∧ (∀ d ∈ ['\'', '"', '`', '<', '>', '=', ' ', '\t', '\n', Char.ofNat 11, Char.ofNat 12, '\r',
            Char.ofNat 133, Char.ofNat 160],
          d ∉ (escapeAttributeValue (.string s)).toList) := by
  refine ⟨escapeAttributeValue_chars s, ?_⟩
  intro d hd hmem
  have key : ∀ d ∈ ['\'', '"', '`', '<', '>', '=', ' ', '\t', '\n', Char.ofNat 11, Char.ofNat 12,
      '\r', Char.ofNat 133, Char.ofNat 160], d.toNat < 256
        ∧ ¬ (isAsciiAlphanumeric d = true ∨ d = '&' ∨ d = '#' ∨ d = ';') := by
    decide
  exact (key d hd).2 (escapeAttributeValue_chars s d hmem (key d hd).1)

end RenderContext
/-! ## A collection watched through @each -/

theorem attachClone_leaf (f : List Obj → Value → World → World) (c : Obj) (n : PropertyChain)
    (guid : Nat) (via : List Obj) (m : Obj) (w : World) :
    attachClone f c n [] guid via m w
      = if m ∈ w.clones c ⟨guid, via, [n]⟩ then w
        else registerDependentKeyWithChain m n.property ⟨guid, m :: via, [{ n with isAtEach := false }]⟩
          ((((w.allocate guid (m :: via)).recordClone c ⟨guid, via, [n]⟩ m).setObject
            ⟨guid, m :: via, [{ n with isAtEach := false }]⟩ (.ref m))) := by
  unfold attachClone
  simp

theorem detachClone_leaf (f : List Obj → World → World) (n : PropertyChain) (guid : Nat)
    (via : List Obj) (m : Obj) (w : World)
    (h : w.object ⟨guid, m :: via, [{ n with isAtEach := false }]⟩ = .ref m) :
    detachClone f n [] guid via m w
      = removeDependentKeyWithChain m n.property
          ⟨guid, m :: via, [{ n with isAtEach := false }]⟩ w := by
  unfold detachClone
  simp [h]

/-- The world after clones of a last `@each` node were attached for the members
`l`, one after the other. -/
theorem foldl_attachClone_leaf (f : List Obj → Value → World → World) (c : Obj)
    (n : PropertyChain) (guid : Nat) (via : List Obj) :
    ∀ (l : List Obj) (w : World),
      (∀ x k, (l.foldl (fun w m => attachClone f c n [] guid via m w) w).chains x k
          = if k = key n.property ∧ x ∈ l ∧ x ∉ w.clones c ⟨guid, via, [n]⟩ then
              (w.chains x k).insert ⟨guid, x :: via, [{ n with isAtEach := false }]⟩
            else w.chains x k)
        ∧ (∀ x, x ∈ (l.foldl (fun w m => attachClone f c n [] guid via m w) w).clones c
              ⟨guid, via, [n]⟩ ↔ x ∈ w.clones c ⟨guid, via, [n]⟩ ∨ x ∈ l)
        ∧ (∀ x, x ∈ w.clones c ⟨guid, via, [n]⟩ →
            (l.foldl (fun w m => attachClone f c n [] guid via m w) w).object
                ⟨guid, x :: via, [{ n with isAtEach := false }]⟩
              = w.object ⟨guid, x :: via, [{ n with isAtEach := false }]⟩)
        ∧ (∀ x, x ∈ l → x ∉ w.clones c ⟨guid, via, [n]⟩ →
            (l.foldl (fun w m => attachClone f c n [] guid via m w) w).object
                ⟨guid, x :: via, [{ n with isAtEach := false }]⟩ = .ref x)
        ∧ (l.foldl (fun w m => attachClone f c n [] guid via m w) w).invalidated
            = w.invalidated
        ∧ (l.foldl (fun w m => attachClone f c n [] guid via m w) w).enumerableChains
            = w.enumerableChains
        ∧ (l.foldl (fun w m => attachClone f c n [] guid via m w) w).get = w.get
        ∧ (l.foldl (fun w m => attachClone f c n [] guid via m w) w).members = w.members
        ∧ (∀ s, (l.foldl (fun w m => attachClone f c n [] guid via m w) w).object
            ⟨guid, via, s⟩ = w.object ⟨guid, via, s⟩) := by
  intro l
  induction l with
  | nil =>
    intro w
    simp
  | cons m rest ih =>
    intro w
    rw [List.foldl_cons]
    obtain ⟨i1, i2, i3, i4, i5, i6, i7, i8, i9⟩ := ih (attachClone f c n [] guid via m w)
    by_cases hm : m ∈ w.clones c ⟨guid, via, [n]⟩
    · -- the member already holds a clone
      have hw : attachClone f c n [] guid via m w = w := by
        rw [attachClone_leaf]; simp [hm]
      rw [hw] at i1 i2 i3 i4 i5 i6 i7 i8 i9 ⊢
      refine ⟨?_, ?_, i3, ?_, i5, i6, i7, i8, i9⟩
      · intro x k
        rw [i1]
        by_cases hx : x = m
        · subst hx; simp [hm]
        · simp [hx]
      · intro x
        rw [i2]
        constructor
        · rintro (h | h)
          · exact Or.inl h
          · exact Or.inr (List.mem_cons_of_mem _ h)
        · rintro (h | h)
          · exact Or.inl h
          · rcases List.mem_cons.mp h with rfl | h
            · exact Or.inl hm
            · exact Or.inr h
      · intro x hx hnot
        rcases List.mem_cons.mp hx with rfl | hx
        · exact absurd hm hnot
        · exact i4 x hx hnot
    · have hw : attachClone f c n [] guid via m w
          = registerDependentKeyWithChain m n.property
              ⟨guid, m :: via, [{ n with isAtEach := false }]⟩
              ((((w.allocate guid (m :: via)).recordClone c ⟨guid, via, [n]⟩ m).setObject
                ⟨guid, m :: via, [{ n with isAtEach := false }]⟩ (.ref m))) := by
        rw [attachClone_leaf]; simp [hm]
      have hclones : (attachClone f c n [] guid via m w).clones c ⟨guid, via, [n]⟩
          = m :: w.clones c ⟨guid, via, [n]⟩ := by
        rw [hw]; simp [registerDependentKeyWithChain, World.setObject, World.recordClone,
          World.allocate]
      have hchains : ∀ x k, (attachClone f c n [] guid via m w).chains x k
          = if x = m ∧ k = key n.property then
              (w.chains x k).insert ⟨guid, m :: via, [{ n with isAtEach := false }]⟩
            else w.chains x k := by
        intro x k
        rw [hw]; rfl
      have hobjOther : ∀ x, x ≠ m →
          (attachClone f c n [] guid via m w).object
              ⟨guid, x :: via, [{ n with isAtEach := false }]⟩
            = w.object ⟨guid, x :: via, [{ n with isAtEach := false }]⟩ := by
        intro x hx
        rw [hw]
        have h1 : ¬ (m :: via) <:+ (x :: via) := by
          intro hs
          have := List.IsSuffix.eq_of_length hs (by simp)
          simp at this
          exact hx this.symm
        simp [registerDependentKeyWithChain, World.setObject, World.recordClone, World.allocate,
          hx, h1]
      have hobjSelf : (attachClone f c n [] guid via m w).object
          ⟨guid, m :: via, [{ n with isAtEach := false }]⟩ = .ref m := by
        rw [hw]
        simp [registerDependentKeyWithChain, World.setObject]
      have hobjBase : ∀ s, (attachClone f c n [] guid via m w).object ⟨guid, via, s⟩
          = w.object ⟨guid, via, s⟩ := by
        intro s
        rw [hw]
        have h1 : ¬ (m :: via) <:+ via := by
          intro hs
          have := hs.length_le
          simp at this
        simp [registerDependentKeyWithChain, World.setObject, World.recordClone, World.allocate,
          h1]
      refine ⟨?_, ?_, ?_, ?_, ?_, ?_, ?_, ?_, ?_⟩
      · intro x k
        rw [i1, hclones, hchains]
        by_cases hx : x = m
        · subst hx
          by_cases hk : k = key n.property
          · simp [hk, hm]
          · simp [hk]
        · simp [hx]
      · intro x
        rw [i2, hclones]
        simp only [List.mem_cons]
        tauto
      · intro x hx
        have hxm : x ≠ m := fun e => hm (e ▸ hx)
        rw [i3 x (by rw [hclones]; exact List.mem_cons_of_mem _ hx), hobjOther x hxm]
      · intro x hx hnot
        by_cases hxm : x = m
        · subst hxm
          rw [i3 x (by rw [hclones]; exact List.mem_cons_self _ _), hobjSelf]
        · have hx2 : x ∈ rest := (List.mem_cons.mp hx).resolve_left hxm
          exact i4 x hx2 (by rw [hclones]; simp [hxm, hnot])
      · rw [i5, hw]; rfl
      · rw [i6, hw]; rfl
      · rw [i7, hw]; rfl
      · rw [i8, hw]; rfl
      · intro s
        rw [i9, hobjBase]

/-- The world after the clones of a last `@each` node were detached from the
members `l`, each clone being attached to its member. -/
theorem foldl_detachClone_leaf (f : List Obj → World → World) (n : PropertyChain) (guid : Nat)
    (via : List Obj) :
    ∀ (l : List Obj) (w : World),
      (∀ m ∈ l, w.object ⟨guid, m :: via, [{ n with isAtEach := false }]⟩ = .ref m) →
      (∀ x k, ¬ (k = key n.property ∧ x ∈ l) →
          (l.foldl (fun w m => detachClone f n [] guid via m w) w).chains x k = w.chains x k)
        ∧ (∀ x ∈ l, (w.chains x (key n.property)
              = [⟨guid, x :: via, [{ n with isAtEach := false }]⟩]
            ∨ w.chains x (key n.property) = []) →
            (l.foldl (fun w m => detachClone f n [] guid via m w) w).chains x (key n.property)
              = [])
        ∧ (l.foldl (fun w m => detachClone f n [] guid via m w) w).object = w.object
        ∧ (l.foldl (fun w m => detachClone f n [] guid via m w) w).clones = w.clones
        ∧ (l.foldl (fun w m => detachClone f n [] guid via m w) w).enumerableChains
            = w.enumerableChains
        ∧ (l.foldl (fun w m => detachClone f n [] guid via m w) w).invalidated = w.invalidated
        ∧ (l.foldl (fun w m => detachClone f n [] guid via m w) w).get = w.get
        ∧ (l.foldl (fun w m => detachClone f n [] guid via m w) w).members = w.members := by
  intro l
  induction l with
  | nil => intro w _; simp
  | cons m rest ih =>
    intro w hobj
    rw [List.foldl_cons]
    have hw : detachClone f n [] guid via m w
        = removeDependentKeyWithChain m n.property
            ⟨guid, m :: via, [{ n with isAtEach := false }]⟩ w :=
      detachClone_leaf f n guid via m w (hobj m (by simp))
    obtain ⟨i1, i2, i3, i4, i5, i6, i7, i8⟩ := ih (detachClone f n [] guid via m w)
      (by
        intro x hx
        rw [hw]
        exact hobj x (List.mem_cons_of_mem _ hx))
    have hchains : ∀ x k, (detachClone f n [] guid via m w).chains x k
        = if x = m ∧ k = key n.property then
            (w.chains x k).erase ⟨guid, m :: via, [{ n with isAtEach := false }]⟩
          else w.chains x k := by
      intro x k
      rw [hw]; rfl
    refine ⟨?_, ?_, ?_, ?_, ?_, ?_, ?_, ?_⟩
    · intro x k hnot
      rw [i1 x k (fun h => hnot ⟨h.1, List.mem_cons_of_mem _ h.2⟩), hchains]
      have : ¬ (x = m ∧ k = key n.property) := fun h => hnot ⟨h.2, by simp [h.1]⟩
      simp [this]
    · intro x hx hsmall
      have hafter : (detachClone f n [] guid via m w).chains x (key n.property)
            = [⟨guid, x :: via, [{ n with isAtEach := false }]⟩]
          ∨ (detachClone f n [] guid via m w).chains x (key n.property) = [] := by
        rw [hchains]
        by_cases hxm : x = m
        · subst hxm
          right
          rcases hsmall with h | h <;> simp [h]
        · simp [hxm, hsmall]
      by_cases hxr : x ∈ rest
      · exact i2 x hxr hafter
      · have hxm : x = m := (List.mem_cons.mp hx).resolve_right hxr
        subst hxm
        rw [i1 x _ (fun h => hxr h.2), hchains]
        rcases hsmall with h | h <;> simp [h]
    · rw [i3, hw]; rfl
    · rw [i4, hw]; rfl
    · rw [i5, hw]; rfl
    · rw [i6, hw]; rfl
    · rw [i7, hw]; rfl
    · rw [i8, hw]; rfl
theorem createChain_items_each_name (O : Obj) (P : String) :
    createChain "items.@each.name" O P
      = [⟨some "items", O, P, some "name", false⟩, ⟨some "name", O, P, none, true⟩] := by
  rw [createChain_eq]
  have : split "items.@each.name" = ["items", "@each", "name"] := by decide
  rw [this]
  simp [nodesFrom, lookahead]

/-- The activation of a newly created chain `items.@each.name`, step by step. -/
theorem activate_items_each (O c : Obj) (P : String) (guid : Nat) (w : World)
    (hitems : w.get O "items" = .ref c)
    (hroot : w.object ⟨guid, [], [⟨some "items", O, P, some "name", false⟩,
      ⟨some "name", O, P, none, true⟩]⟩ = .absent)
    (heach : w.object ⟨guid, [], [⟨some "name", O, P, none, true⟩]⟩ = .absent) :
    activate [⟨some "items", O, P, some "name", false⟩, ⟨some "name", O, P, none, true⟩] guid []
        .absent w
      = (w.members c).foldl
          (fun w m => attachClone (activate [] guid) c ⟨some "name", O, P, none, true⟩ [] guid [] m w)
          ((((registerDependentKeyWithChain O (some "items")
              ⟨guid, [], [⟨some "items", O, P, some "name", false⟩,
                ⟨some "name", O, P, none, true⟩]⟩
              (w.setObject ⟨guid, [], [⟨some "items", O, P, some "name", false⟩,
                ⟨some "name", O, P, none, true⟩]⟩ (.ref O))).setObject
              ⟨guid, [], [⟨some "name", O, P, none, true⟩]⟩ (.ref c)).addEnumerable c
              ⟨guid, [], [⟨some "name", O, P, none, true⟩]⟩)) := by
  simp [activate, registerEnumerable, World.setObject, registerDependentKeyWithChain, key, hitems,
    hroot, heach, World.addEnumerable]

/-- The world after the activation of a newly created chain `items.@each.name`
on a collection that holds no clone of its `@each` node yet. -/
theorem items_each_activated (O c : Obj) (P : String) (guid : Nat) (w : World)
    (hitems : w.get O "items" = .ref c)
    (hroot : w.object ⟨guid, [], [⟨some "items", O, P, some "name", false⟩,
      ⟨some "name", O, P, none, true⟩]⟩ = .absent)
    (heach : w.object ⟨guid, [], [⟨some "name", O, P, none, true⟩]⟩ = .absent)
    (hclones : w.clones c ⟨guid, [], [⟨some "name", O, P, none, true⟩]⟩ = []) :
    (∀ x, (activate [⟨some "items", O, P, some "name", false⟩,
          ⟨some "name", O, P, none, true⟩] guid [] .absent w).chains x "name"
        = if x ∈ w.members c then
            (w.chains x "name").insert ⟨guid, [x], [⟨some "name", O, P, none, false⟩]⟩
          else w.chains x "name")
      ∧ (∀ x, x ∈ (activate [⟨some "items", O, P, some "name", false⟩,
            ⟨some "name", O, P, none, true⟩] guid [] .absent w).clones c
              ⟨guid, [], [⟨some "name", O, P, none, true⟩]⟩ ↔ x ∈ w.members c)
      ∧ (∀ x ∈ w.members c, (activate [⟨some "items", O, P, some "name", false⟩,
            ⟨some "name", O, P, none, true⟩] guid [] .absent w).object
              ⟨guid, [x], [⟨some "name", O, P, none, false⟩]⟩ = .ref x)
      ∧ (activate [⟨some "items", O, P, some "name", false⟩,
            ⟨some "name", O, P, none, true⟩] guid [] .absent w).object
              ⟨guid, [], [⟨some "name", O, P, none, true⟩]⟩ = .ref c
      ∧ (activate [⟨some "items", O, P, some "name", false⟩,
            ⟨some "name", O, P, none, true⟩] guid [] .absent w).object
              ⟨guid, [], [⟨some "items", O, P, some "name", false⟩,
                ⟨some "name", O, P, none, true⟩]⟩ = .ref O
      ∧ (∀ c2, (activate [⟨some "items", O, P, some "name", false⟩,
            ⟨some "name", O, P, none, true⟩] guid [] .absent w).enumerableChains c2
          = if c2 = c then
              (w.enumerableChains c2).insert ⟨guid, [], [⟨some "name", O, P, none, true⟩]⟩
            else w.enumerableChains c2)
      ∧ (activate [⟨some "items", O, P, some "name", false⟩,
            ⟨some "name", O, P, none, true⟩] guid [] .absent w).invalidated = w.invalidated
      ∧ (activate [⟨some "items", O, P, some "name", false⟩,
            ⟨some "name", O, P, none, true⟩] guid [] .absent w).get = w.get
      ∧ (activate [⟨some "items", O, P, some "name", false⟩,
            ⟨some "name", O, P, none, true⟩] guid [] .absent w).members = w.members := by
  rw [activate_items_each O c P guid w hitems hroot heach]
  obtain ⟨i1, i2, i3, i4, i5, i6, i7, i8, i9⟩ :=
    foldl_attachClone_leaf (activate [] guid) c ⟨some "name", O, P, none, true⟩ guid []
      (w.members c)
      ((((registerDependentKeyWithChain O (some "items")
          ⟨guid, [], [⟨some "items", O, P, some "name", false⟩,
            ⟨some "name", O, P, none, true⟩]⟩
          (w.setObject ⟨guid, [], [⟨some "items", O, P, some "name", false⟩,
            ⟨some "name", O, P, none, true⟩]⟩ (.ref O))).setObject
          ⟨guid, [], [⟨some "name", O, P, none, true⟩]⟩ (.ref c)).addEnumerable c
          ⟨guid, [], [⟨some "name", O, P, none, true⟩]⟩))
  have hk : ("name" = "items") = False := by decide
  have hcl : ∀ x, x ∉ (((registerDependentKeyWithChain O (some "items")
      ⟨guid, [], [⟨some "items", O, P, some "name", false⟩, ⟨some "name", O, P, none, true⟩]⟩
      (w.setObject ⟨guid, [], [⟨some "items", O, P, some "name", false⟩,
        ⟨some "name", O, P, none, true⟩]⟩ (.ref O))).setObject
      ⟨guid, [], [⟨some "name", O, P, none, true⟩]⟩ (.ref c)).addEnumerable c
      ⟨guid, [], [⟨some "name", O, P, none, true⟩]⟩).clones c
        ⟨guid, [], [⟨some "name", O, P, none, true⟩]⟩ := by
    intro x
    show x ∉ w.clones c _
    rw [hclones]
    exact List.not_mem_nil x
  refine ⟨?_, ?_, ?_, ?_, ?_, ?_, ?_, ?_, ?_⟩
  · intro x
    rw [i1]
    simp only [key, Option.getD_some, true_and, hcl x, not_false_eq_true, and_true]
    simp [World.addEnumerable, World.setObject, registerDependentKeyWithChain, key, hk]
  · intro x
    rw [i2]
    simp only [hcl x, false_or]
  · intro x hx
    exact i4 x hx (hcl x)
  · rw [i9]
    simp [World.addEnumerable, World.setObject]
  · rw [i9]
    simp [World.addEnumerable, World.setObject, registerDependentKeyWithChain]
  · intro c2
    rw [i6]
    rfl
  · rw [i5]; rfl
  · rw [i7]; rfl
  · rw [i8]; rfl

theorem notify_leaf_clone (n : PropertyChain) (guid : Nat) (via : List Obj) (w : World) :
    notifyPropertyDidChange ⟨guid, via, [n]⟩ w = propertyDidChange n.target n.toInvalidate w := by
  simp [notifyPropertyDidChange]

theorem foldl_notify_members (O : Obj) (P : String) (guid : Nat) :
    ∀ (l : List Obj) (v : World),
      (∀ m ∈ l, v.chains m "name" = [⟨guid, [m], [⟨some "name", O, P, none, false⟩]⟩]) →
      (l.foldl (fun v m => notifyPropertyChains m "name" v) v).invalidated
        = v.invalidated ++ List.replicate l.length (O, P) := by
  intro l
  induction l with
  | nil => intro v _; simp
  | cons m rest ih =>
    intro v h
    rw [List.foldl_cons]
    have hstep : notifyPropertyChains m "name" v = propertyDidChange O P v := by
      unfold notifyPropertyChains
      rw [h m (by simp)]
      simp only [List.foldl_cons, List.foldl_nil]
      exact notify_leaf_clone _ guid [m] v
    rw [hstep, ih (propertyDidChange O P v) (fun x hx => h x (List.mem_cons_of_mem _ hx))]
    simp [propertyDidChange, List.replicate_succ]

/-- C11. A newly created chain `items.@each.name` of `O` is activated while
`O.items` is a collection `c` of n members, none of them watched for `name` by
another chain. A change of the name of one member then invalidates the property
`P` of `O` exactly once, and changing the name of each of the n members in turn
invalidates it exactly n times. -/
theorem each_member_change (O c : Obj) (P : String) (guid : Nat) (w : World)
    (hitems : w.get O "items" = .ref c)
    (hroot : w.object ⟨guid, [], createChain "items.@each.name" O P⟩ = .absent)
    (heach : w.object ⟨guid, [], (createChain "items.@each.name" O P).tail⟩ = .absent)
    (hclones : w.clones c ⟨guid, [], (createChain "items.@each.name" O P).tail⟩ = [])
    (hreg : ∀ m ∈ w.members c, w.chains m "name" = []) :
    (∀ m ∈ w.members c,
        (notifyPropertyChains m "name"
          (activate (createChain "items.@each.name" O P) guid [] .absent w)).invalidated
          = (activate (createChain "items.@each.name" O P) guid [] .absent w).invalidated
              ++ [(O, P)])
      ∧ ((w.members c).foldl (fun v m => notifyPropertyChains m "name" v)
          (activate (createChain "items.@each.name" O P) guid [] .absent w)).invalidated
          = (activate (createChain "items.@each.name" O P) guid [] .absent w).invalidated
              ++ List.replicate (w.members c).length (O, P) := by
  rw [createChain_items_each_name] at *
  simp only [List.tail_cons] at *
  obtain ⟨f1, -⟩ := items_each_activated O c P guid w hitems hroot heach hclones
  have hch : ∀ m ∈ w.members c,
      (activate [⟨some "items", O, P, some "name", false⟩, ⟨some "name", O, P, none, true⟩] guid
        [] .absent w).chains m "name" = [⟨guid, [m], [⟨some "name", O, P, none, false⟩]⟩] := by
    intro m hm
    rw [f1, if_pos hm, hreg m hm]
    rfl
  refine ⟨?_, foldl_notify_members O P guid _ _ hch⟩
  intro m hm
  have := foldl_notify_members O P guid [m] _ (fun x hx => by
    rw [List.mem_singleton.mp hx]; exact hch m hm)
  simpa using this

/-- Witness of C11: the collection of the test, three members. -/
theorem each_member_change_witness :
    (notifyPropertyChains 11 "name"
        (activate (createChain "items.@each.name" 0 "atEachProperty") 7 [] .absent
            ((World.empty.set 0 "items" (.ref 10)).setMembers 10 [11, 12, 13]))).invalidated
        = (activate (createChain "items.@each.name" 0 "atEachProperty") 7 [] .absent
            ((World.empty.set 0 "items" (.ref 10)).setMembers 10 [11, 12, 13])).invalidated
            ++ [(0, "atEachProperty")]
      ∧ ((((World.empty.set 0 "items" (.ref 10)).setMembers 10 [11, 12, 13]).members 10).foldl
          (fun v m => notifyPropertyChains m "name" v)
          (activate (createChain "items.@each.name" 0 "atEachProperty") 7 [] .absent
            ((World.empty.set 0 "items" (.ref 10)).setMembers 10 [11, 12, 13]))).invalidated
        = (activate (createChain "items.@each.name" 0 "atEachProperty") 7 [] .absent
            ((World.empty.set 0 "items" (.ref 10)).setMembers 10 [11, 12, 13])).invalidated
            ++ List.replicate (((World.empty.set 0 "items" (.ref 10)).setMembers 10 [11, 12, 13]).members 10).length
              (0, "atEachProperty") :=
  have h := each_member_change 0 10 "atEachProperty" 7
    ((World.empty.set 0 "items" (.ref 10)).setMembers 10 [11, 12, 13]) rfl rfl rfl rfl
    (fun _ _ => rfl)
  ⟨h.1 11 (by decide), h.2⟩
/-- The notification of the `items` node after the collection was replaced,
step by step: the `@each` node leaves the old collection, takes the new one as
its object and is registered on it. -/
theorem notify_items_replaced (O C1 C2 : Obj) (P : String) (guid : Nat) (v : World)
    (hne : C1 ≠ C2)
    (hroot : v.object ⟨guid, [], [⟨some "items", O, P, some "name", false⟩,
      ⟨some "name", O, P, none, true⟩]⟩ = .ref O)
    (heach : v.object ⟨guid, [], [⟨some "name", O, P, none, true⟩]⟩ = .ref C1)
    (hitems : v.get O "items" = .ref C2) :
    notifyPropertyDidChange ⟨guid, [], [⟨some "items", O, P, some "name", false⟩,
        ⟨some "name", O, P, none, true⟩]⟩ v
      = registerEnumerable (activate [] guid) C2 ⟨some "name", O, P, none, true⟩ [] guid []
          ((removeEnumerable (deactivate [] guid) C1 ⟨some "name", O, P, none, true⟩ [] guid []
            (propertyDidChange O P v)).setObject
              ⟨guid, [], [⟨some "name", O, P, none, true⟩]⟩ (.ref C2)) := by
  have hne2 : ¬ (Value.ref C1 = Value.ref C2) := by
    intro h; injection h with h; exact hne h
  have h1 : (propertyDidChange O P v).object
      ⟨guid, [], [⟨some "items", O, P, some "name", false⟩, ⟨some "name", O, P, none, true⟩]⟩
      = .ref O := hroot
  have h2 : (propertyDidChange O P v).object ⟨guid, [], [⟨some "name", O, P, none, true⟩]⟩
      = .ref C1 := heach
  have h3 : (propertyDidChange O P v).get O "items" = .ref C2 := hitems
  simp only [notifyPropertyDidChange, ne_eq, List.cons_ne_nil, not_false_eq_true, and_self,
    if_true, h1, key, Option.getD_some, h3]
  simp [activate, deactivate, h2, hne2]

/-- C12. A newly created chain `items.@each.name` of `O` is activated while
`O.items` is the collection `C1`; then `O.items` is replaced by a different
collection `C2` and the `items` node is notified. The property `P` of `O` is
invalidated exactly once; the `@each` node is first removed from `C1` and then
registered on `C2`; afterwards it is attached to `C2` and to no other
collection and has `C2` as its object; and an old member that is not in `C2`
(and was watched by no other chain) has no chain node left, so that a later
change of its name invalidates nothing. -/
theorem collection_replaced (O C1 C2 : Obj) (P : String) (guid : Nat) (w : World)
    (hne : C1 ≠ C2) (hitems : w.get O "items" = .ref C1)
    (hroot : w.object ⟨guid, [], createChain "items.@each.name" O P⟩ = .absent)
    (heach : w.object ⟨guid, [], (createChain "items.@each.name" O P).tail⟩ = .absent)
    (hclones : w.clones C1 ⟨guid, [], (createChain "items.@each.name" O P).tail⟩ = [])
    (henum : ∀ c, ⟨guid, [], (createChain "items.@each.name" O P).tail⟩ ∉ w.enumerableChains c) :
    (notifyPropertyDidChange ⟨guid, [], createChain "items.@each.name" O P⟩
        ((activate (createChain "items.@each.name" O P) guid [] .absent w).set O "items"
          (.ref C2))).invalidated
        = ((activate (createChain "items.@each.name" O P) guid [] .absent w).set O "items"
          (.ref C2)).invalidated ++ [(O, P)]
      ∧ notifyPropertyDidChange ⟨guid, [], createChain "items.@each.name" O P⟩
          ((activate (createChain "items.@each.name" O P) guid [] .absent w).set O "items"
            (.ref C2))
        = registerEnumerable (activate [] guid) C2 ⟨some "name", O, P, none, true⟩ [] guid []
            ((removeEnumerable (deactivate [] guid) C1 ⟨some "name", O, P, none, true⟩ [] guid []
              (propertyDidChange O P
                ((activate (createChain "items.@each.name" O P) guid [] .absent w).set O "items"
                  (.ref C2)))).setObject
                ⟨guid, [], (createChain "items.@each.name" O P).tail⟩ (.ref C2))
      ∧ (∀ c, ⟨guid, [], (createChain "items.@each.name" O P).tail⟩ ∈
            (notifyPropertyDidChange ⟨guid, [], createChain "items.@each.name" O P⟩
              ((activate (createChain "items.@each.name" O P) guid [] .absent w).set O "items"
                (.ref C2))).enumerableChains c ↔ c = C2)
      ∧ (notifyPropertyDidChange ⟨guid, [], createChain "items.@each.name" O P⟩
          ((activate (createChain "items.@each.name" O P) guid [] .absent w).set O "items"
            (.ref C2))).object ⟨guid, [], (createChain "items.@each.name" O P).tail⟩ = .ref C2
      ∧ (∀ m ∈ w.members C1, m ∉ w.members C2 → w.chains m "name" = [] →
          (notifyPropertyDidChange ⟨guid, [], createChain "items.@each.name" O P⟩
            ((activate (createChain "items.@each.name" O P) guid [] .absent w).set O "items"
              (.ref C2))).chains m "name" = []
          ∧ (notifyPropertyChains m "name"
              (notifyPropertyDidChange ⟨guid, [], createChain "items.@each.name" O P⟩
                ((activate (createChain "items.@each.name" O P) guid [] .absent w).set O "items"
                  (.ref C2)))).invalidated
            = (notifyPropertyDidChange ⟨guid, [], createChain "items.@each.name" O P⟩
                ((activate (createChain "items.@each.name" O P) guid [] .absent w).set O "items"
                  (.ref C2))).invalidated) := by
  rw [createChain_items_each_name] at *
  simp only [List.tail_cons] at *
  obtain ⟨f1, f2, f3, f4, f5, f6, f7, f8, f9⟩ :=
    items_each_activated O C1 P guid w hitems hroot heach hclones
  -- the world in which the notification arrives
  generalize hw1 : activate [⟨some "items", O, P, some "name", false⟩,
    ⟨some "name", O, P, none, true⟩] guid [] .absent w = w1 at f1 f2 f3 f4 f5 f6 f7 f8 f9 ⊢
  have hstep := notify_items_replaced O C1 C2 P guid (w1.set O "items" (.ref C2)) hne f5 f4
    (by simp [World.set])
  -- the stages of the notification
  obtain ⟨d1, d2, d3, d4, d5, d6, d7, d8⟩ :=
    foldl_detachClone_leaf (deactivate [] guid) ⟨some "name", O, P, none, true⟩ guid []
      (w1.clones C1 ⟨guid, [], [⟨some "name", O, P, none, true⟩]⟩)
      ((propertyDidChange O P (w1.set O "items" (.ref C2))).dropEnumerable C1
        ⟨guid, [], [⟨some "name", O, P, none, true⟩]⟩)
      (fun m hm => f3 m ((f2 m).mp hm))
  obtain ⟨a1, a2, a3, a4, a5, a6, a7, a8, a9⟩ :=
    foldl_attachClone_leaf (activate [] guid) C2 ⟨some "name", O, P, none, true⟩ guid []
      (w1.members C2)
      ((((removeEnumerable (deactivate [] guid) C1 ⟨some "name", O, P, none, true⟩ [] guid []
        (propertyDidChange O P (w1.set O "items" (.ref C2)))).setObject
          ⟨guid, [], [⟨some "name", O, P, none, true⟩]⟩ (.ref C2)).addEnumerable C2
          ⟨guid, [], [⟨some "name", O, P, none, true⟩]⟩))
  have hmembers : (((removeEnumerable (deactivate [] guid) C1 ⟨some "name", O, P, none, true⟩ []
      guid [] (propertyDidChange O P (w1.set O "items" (.ref C2)))).setObject
        ⟨guid, [], [⟨some "name", O, P, none, true⟩]⟩ (.ref C2)).addEnumerable C2
        ⟨guid, [], [⟨some "name", O, P, none, true⟩]⟩).members = w1.members := by
    show (removeEnumerable (deactivate [] guid) C1 ⟨some "name", O, P, none, true⟩ []
      guid [] (propertyDidChange O P (w1.set O "items" (.ref C2)))).members = w1.members
    exact d8
  have hreg3 : registerEnumerable (activate [] guid) C2 ⟨some "name", O, P, none, true⟩ [] guid []
      ((removeEnumerable (deactivate [] guid) C1 ⟨some "name", O, P, none, true⟩ [] guid []
        (propertyDidChange O P (w1.set O "items" (.ref C2)))).setObject
          ⟨guid, [], [⟨some "name", O, P, none, true⟩]⟩ (.ref C2))
      = (w1.members C2).foldl
          (fun w m => attachClone (activate [] guid) C2 ⟨some "name", O, P, none, true⟩ [] guid []
            m w)
          ((((removeEnumerable (deactivate [] guid) C1 ⟨some "name", O, P, none, true⟩ [] guid []
            (propertyDidChange O P (w1.set O "items" (.ref C2)))).setObject
              ⟨guid, [], [⟨some "name", O, P, none, true⟩]⟩ (.ref C2)).addEnumerable C2
              ⟨guid, [], [⟨some "name", O, P, none, true⟩]⟩)) := by
    unfold registerEnumerable
    simp only [hmembers]
  have hremEnum : (removeEnumerable (deactivate [] guid) C1 ⟨some "name", O, P, none, true⟩ []
      guid [] (propertyDidChange O P (w1.set O "items" (.ref C2)))).enumerableChains
      = fun c => if c = C1 then
          (w1.enumerableChains c).erase ⟨guid, [], [⟨some "name", O, P, none, true⟩]⟩
        else w1.enumerableChains c := by
    exact d5
  have hremChains : (removeEnumerable (deactivate [] guid) C1 ⟨some "name", O, P, none, true⟩ []
      guid [] (propertyDidChange O P (w1.set O "items" (.ref C2)))).chains
      = (List.foldl
          (fun w m => detachClone (deactivate [] guid) ⟨some "name", O, P, none, true⟩ [] guid []
            m w)
          ((propertyDidChange O P (w1.set O "items" (.ref C2))).dropEnumerable C1
            ⟨guid, [], [⟨some "name", O, P, none, true⟩]⟩)
          (w1.clones C1 ⟨guid, [], [⟨some "name", O, P, none, true⟩]⟩)).chains := by
    unfold removeEnumerable
    rfl
  refine ⟨notify_invalidated _ _ guid [] _, hstep, ?_, ?_, ?_⟩
  · intro c
    rw [hstep, hreg3, a6]
    show ⟨guid, [], [⟨some "name", O, P, none, true⟩]⟩ ∈
      (if c = C2 then
        ((removeEnumerable (deactivate [] guid) C1 ⟨some "name", O, P, none, true⟩ [] guid []
          (propertyDidChange O P (w1.set O "items" (.ref C2)))).enumerableChains c).insert
            ⟨guid, [], [⟨some "name", O, P, none, true⟩]⟩
      else (removeEnumerable (deactivate [] guid) C1 ⟨some "name", O, P, none, true⟩ [] guid []
          (propertyDidChange O P (w1.set O "items" (.ref C2)))).enumerableChains c) ↔ c = C2
    by_cases hc : c = C2
    · simp [hc]
    · simp only [hc, if_false, iff_false]
      rw [hremEnum]
      by_cases hc1 : c = C1
      · subst hc1
        simp only [if_true]
        rw [f6, if_pos rfl, List.insert_of_not_mem (henum c), List.erase_cons_head]
        exact henum c
      · simp only [hc1, if_false]
        rw [f6, if_neg hc1]
        exact henum c
  · rw [hstep, hreg3, a9]
    simp [World.addEnumerable, World.setObject]
  · intro m hm hm2 hreg
    have hempty : (notifyPropertyDidChange ⟨guid, [], [⟨some "items", O, P, some "name", false⟩,
        ⟨some "name", O, P, none, true⟩]⟩ (w1.set O "items" (.ref C2))).chains m "name" = [] := by
      rw [hstep, hreg3, a1]
      have hm3 : m ∉ w1.members C2 := by rw [f9]; exact hm2
      simp only [hm3, false_and, and_false, if_false]
      show (removeEnumerable (deactivate [] guid) C1 ⟨some "name", O, P, none, true⟩ []
        guid [] (propertyDidChange O P (w1.set O "items" (.ref C2)))).chains m "name" = []
      rw [hremChains]
      refine d2 m ((f2 m).mpr hm) (Or.inl ?_)
      show w1.chains m "name" = _
      rw [f1, if_pos hm, hreg]
      rfl
    refine ⟨hempty, ?_⟩
    unfold notifyPropertyChains
    rw [hempty]
    rfl

/-- Witness of C12: the collection 10 with members 11 and 12 is replaced by the
collection 20 with members 12 and 21. -/
theorem collection_replaced_witness :
    (notifyPropertyDidChange ⟨7, [], (createChain "items.@each.name" 0 "atEachProperty")⟩
          ((activate (createChain "items.@each.name" 0 "atEachProperty") 7 [] .absent
            (((World.empty.set 0 "items" (.ref 10)).setMembers 10 [11, 12]).setMembers 20 [12, 21])).set 0 "items"
            (.ref 20))).invalidated
        = ((activate (createChain "items.@each.name" 0 "atEachProperty") 7 [] .absent
            (((World.empty.set 0 "items" (.ref 10)).setMembers 10 [11, 12]).setMembers 20 [12, 21])).set 0 "items"
            (.ref 20)).invalidated ++ [(0, "atEachProperty")]
      ∧ ((⟨7, [], (createChain "items.@each.name" 0 "atEachProperty").tail⟩ : Node) ∈
          (notifyPropertyDidChange ⟨7, [], (createChain "items.@each.name" 0 "atEachProperty")⟩
          ((activate (createChain "items.@each.name" 0 "atEachProperty") 7 [] .absent
            (((World.empty.set 0 "items" (.ref 10)).setMembers 10 [11, 12]).setMembers 20 [12, 21])).set 0 "items"
            (.ref 20))).enumerableChains 10 ↔ 10 = 20)
      ∧ (notifyPropertyDidChange ⟨7, [], (createChain "items.@each.name" 0 "atEachProperty")⟩
          ((activate (createChain "items.@each.name" 0 "atEachProperty") 7 [] .absent
            (((World.empty.set 0 "items" (.ref 10)).setMembers 10 [11, 12]).setMembers 20 [12, 21])).set 0 "items"
            (.ref 20))).object
          ⟨7, [], (createChain "items.@each.name" 0 "atEachProperty").tail⟩ = .ref 20
      ∧ (notifyPropertyDidChange ⟨7, [], (createChain "items.@each.name" 0 "atEachProperty")⟩
          ((activate (createChain "items.@each.name" 0 "atEachProperty") 7 [] .absent
            (((World.empty.set 0 "items" (.ref 10)).setMembers 10 [11, 12]).setMembers 20 [12, 21])).set 0 "items"
            (.ref 20))).chains 11 "name" = [] :=
  have h := collection_replaced 0 10 20 "atEachProperty" 7
    (((World.empty.set 0 "items" (.ref 10)).setMembers 10 [11, 12]).setMembers 20 [12, 21])
    (by decide) rfl rfl rfl rfl (fun _ hmem => by cases hmem)
  ⟨h.1, h.2.2.1 10, h.2.2.2.1, (h.2.2.2.2 11 (by decide) (by decide) rfl).1⟩

/-! ## Numbers passed to the escaping helpers -/

namespace RenderContext

theorem replace_of_not_matched (matched : Char → Bool) (method : Char → Option String)
    (s : String) (h : ∀ c ∈ s.toList, matched c = false) : replace matched method s = s := by
  unfold replace
  have : (s.toList.map fun c =>
      if matched c then (method c).getD "undefined" else String.singleton c)
        = s.toList.map String.singleton := by
    apply List.map_congr_left
    intro c hc
    simp [h c hc]
  rw [this, join_singletons]

theorem join_cons (a : String) (l : List String) : String.join (a :: l) = a ++ String.join l := by
  apply String.ext
  simp [join_data]

theorem digitChar_plain :
    ∀ k, k < 10 →
      escapeAttributeRegex (Nat.digitChar k) = false ∧ escapeHTMLRegex (Nat.digitChar k) = false := by
  decide

theorem toDigitsCore_plain : ∀ (fuel n : Nat) (ds : List Char),
    (∀ c ∈ ds, escapeAttributeRegex c = false ∧ escapeHTMLRegex c = false) →
    ∀ c ∈ Nat.toDigitsCore 10 fuel n ds,
      escapeAttributeRegex c = false ∧ escapeHTMLRegex c = false := by
  intro fuel
  induction fuel with
  | zero => intro n ds h c hc; exact h c hc
  | succ fuel ih =>
    intro n ds h c hc
    have hd : ∀ c ∈ Nat.digitChar (n % 10) :: ds,
        escapeAttributeRegex c = false ∧ escapeHTMLRegex c = false := by
      intro c hc
      rcases List.mem_cons.1 hc with rfl | hc
      · exact digitChar_plain (n % 10) (Nat.mod_lt n (by decide))
      · exact h c hc
    unfold Nat.toDigitsCore at hc
    by_cases h0 : n / 10 = 0
    · simp only [h0, if_true] at hc
      exact hd c hc
    · simp only [h0, if_false] at hc
      exact ih (n / 10) _ hd c hc

theorem repr_plain (m : Nat) :
    ∀ c ∈ (Nat.repr m).toList, escapeAttributeRegex c = false ∧ escapeHTMLRegex c = false := by
  intro c hc
  exact toDigitsCore_plain (m + 1) m [] (by simp) c hc

theorem numberToString_small (n : Int) (h : n.natAbs < 1000000000000000000000) :
    numberToString n = toString n := by
  unfold numberToString
  rw [if_pos h]

theorem escapeHTML_number (n : Int) (hn : n ≠ 0) (hsmall : n.natAbs < 1000000000000000000000) :
    escapeHTML (.number n) = toString n := by
  unfold escapeHTML textOf
  simp only [hn, if_false, numberToString_small n hsmall]
  apply replace_of_not_matched
  intro c hc
  cases n with
  | ofNat m => exact (repr_plain m c hc).2
  | negSucc m =>
    have hc2 : c ∈ '-' :: (Nat.repr (m + 1)).toList := hc
    rcases List.mem_cons.1 hc2 with rfl | hc3
    · decide
    · exact (repr_plain (m + 1) c hc3).2

theorem escapeAttributeValue_positive (n : Int) (hn : 0 < n)
    (hsmall : n.natAbs < 1000000000000000000000) :
    escapeAttributeValue (.number n) = toString n := by
  unfold escapeAttributeValue textOf
  simp only [ne_of_gt hn, if_false, numberToString_small n hsmall]
  apply replace_of_not_matched
  intro c hc
  cases n with
  | ofNat m => exact (repr_plain m c hc).1
  | negSucc m => exact absurd hn (by simp [Int.negSucc_lt_zero])

theorem escapeAttributeValue_negative (n : Int) (hn : n < 0)
    (hsmall : n.natAbs < 1000000000000000000000) :
    escapeAttributeValue (.number n) = "&#x2d;" ++ toString (-n) := by
  cases n with
  | ofNat m => exact absurd hn (by simp [Int.ofNat_nonneg])
  | negSucc m =>
    have h0 : Int.negSucc m ≠ 0 := by simp
    unfold escapeAttributeValue textOf
    simp only [h0, if_false, numberToString_small _ hsmall]
    have hs : toString (Int.negSucc m) = "-" ++ Nat.repr (m + 1) := rfl
    have ht : toString (-Int.negSucc m) = Nat.repr (m + 1) := rfl
    rw [hs, ht]
    unfold replace
    have hl : ("-" ++ Nat.repr (m + 1)).toList = '-' :: (Nat.repr (m + 1)).toList := rfl
    rw [hl, List.map_cons, join_cons]
    have hrest : ((Nat.repr (m + 1)).toList.map fun c =>
        if escapeAttributeRegex c then (escapeAttributeMethod c).getD "undefined"
        else String.singleton c) = (Nat.repr (m + 1)).toList.map String.singleton := by
      apply List.map_congr_left
      intro c hc
      simp [(repr_plain (m + 1) c hc).1]
    rw [hrest, join_singletons]
    rfl

theorem numberChars_escape :
    ∀ c ∈ numberChars,
      escapeHTMLRegex c = false
        ∧ (if escapeAttributeRegex c then (escapeAttributeMethod c).getD "undefined"
            else String.singleton c) = escapeNumberChar c := by
  decide

theorem digitChar_numberChars : ∀ k, k < 10 → Nat.digitChar k ∈ numberChars := by
  decide

theorem toDigitsCore_numberChars : ∀ (fuel n : Nat) (ds : List Char),
    (∀ c ∈ ds, c ∈ numberChars) → ∀ c ∈ Nat.toDigitsCore 10 fuel n ds, c ∈ numberChars := by
  intro fuel
  induction fuel with
  | zero => intro n ds h c hc; exact h c hc
  | succ fuel ih =>
    intro n ds h c hc
    have hd : ∀ c ∈ Nat.digitChar (n % 10) :: ds, c ∈ numberChars := by
      intro c hc
      rcases List.mem_cons.1 hc with rfl | hc
      · exact digitChar_numberChars (n % 10) (Nat.mod_lt n (by decide))
      · exact h c hc
    unfold Nat.toDigitsCore at hc
    by_cases h0 : n / 10 = 0
    · simp only [h0, if_true] at hc
      exact hd c hc
    · simp only [h0, if_false] at hc
      exact ih (n / 10) _ hd c hc

theorem toDigits_numberChars (m : Nat) : ∀ c ∈ Nat.toDigits 10 m, c ∈ numberChars := by
  intro c hc
  exact toDigitsCore_numberChars (m + 1) m [] (by simp) c hc

theorem digitsToString_numberChars (digits : List Char) (n : Int)
    (h : ∀ c ∈ digits, c ∈ numberChars) :
    ∀ c ∈ (digitsToString digits n).data, c ∈ numberChars := by
  intro c hc
  unfold digitsToString at hc
  simp only at hc
  split_ifs at hc
  all_goals
    simp only [List.mem_append, List.mem_cons, List.mem_replicate] at hc
    casesm* _ ∨ _
  all_goals
    first
    | exact h c ‹_›
    | exact h c (List.mem_of_mem_take ‹_›)
    | exact h c (List.mem_of_mem_drop ‹_›)
    | exact toDigits_numberChars _ c ‹_›
    | (rename_i hx; rw [hx]; decide)
    | (rename_i hx; rw [hx.2]; decide)

theorem sign_numberChars (negative : Bool) (rest : String)
    (h : ∀ c ∈ rest.data, c ∈ numberChars) :
    ∀ c ∈ ((if negative then "-" else "") ++ rest).data, c ∈ numberChars := by
  intro c hc
  cases negative with
  | false =>
    have : (("" : String) ++ rest).data = rest.data := by simp [String.data_append]
    simp only [Bool.false_eq_true, if_false, this] at hc
    exact h c hc
  | true =>
    have : (("-" : String) ++ rest).data = '-' :: rest.data := by simp [String.data_append]
    simp only [if_true, this] at hc
    rcases List.mem_cons.1 hc with rfl | hc
    · decide
    · exact h c hc

theorem numberToString_numberChars (n : Int) :
    ∀ c ∈ (numberToString n).data, c ∈ numberChars := by
  unfold numberToString
  by_cases hsmall : n.natAbs < 1000000000000000000000
  · rw [if_pos hsmall]
    intro c hc
    cases n with
    | ofNat m => exact toDigits_numberChars m c hc
    | negSucc m =>
      have hc2 : c ∈ '-' :: (Nat.repr (m + 1)).toList := hc
      rcases List.mem_cons.1 hc2 with rfl | hc3
      · decide
      · exact toDigits_numberChars (m + 1) c hc3
  · rw [if_neg hsmall]
    have hrest := digitsToString_numberChars
      ((Nat.toDigits 10 n.natAbs).reverse.dropWhile (fun c => c = '0')).reverse
      (Nat.toDigits 10 n.natAbs).length
      (by
        intro c hc
        have h1 := (List.dropWhile_sublist _).subset (List.mem_reverse.1 hc)
        exact toDigits_numberChars _ c (List.mem_reverse.1 h1))
    have hsign := sign_numberChars (decide (n < 0)) _ hrest
    intro c hc
    apply hsign c
    simpa using hc

theorem decimal_numberChars (x : Decimal) : ∀ c ∈ x.toString.data, c ∈ numberChars := by
  cases x with
  | nan => decide
  | infinity negative => cases negative <;> decide
  | finite negative s n =>
    by_cases hs : s = 0
    · subst hs
      have heq : (Decimal.finite negative 0 n).toString = "0" := by simp [Decimal.toString]
      rw [heq]
      decide
    · have heq : (Decimal.finite negative s n).toString
          = (if negative then "-" else "") ++ digitsToString (Nat.toDigits 10 s) n := by
        simp [Decimal.toString, hs]
      rw [heq]
      exact sign_numberChars negative _
        (digitsToString_numberChars _ n (toDigits_numberChars s))

theorem toStr_numberChars (x : Text) (hnumber : ∀ s, x ≠ .string s) :
    ∀ c ∈ x.toStr.data, c ∈ numberChars := by
  cases x with
  | string s => exact absurd rfl (hnumber s)
  | number n => exact numberToString_numberChars n
  | decimal x => exact decimal_numberChars x

theorem textOf_number (x : Text) (hnumber : ∀ s, x ≠ .string s) :
    textOf x = none ∨ textOf x = some x.toStr := by
  cases x with
  | string s => exact absurd rfl (hnumber s)
  | number n =>
    by_cases h : n = 0
    · left
      simp [textOf, h]
    · right
      simp [textOf, h, Text.toStr]
  | decimal x =>
    cases x with
    | nan => left; rfl
    | infinity negative => right; rfl
    | finite negative s n =>
      by_cases h : s = 0
      · left
        simp [textOf, h]
      · right
        simp [textOf, h, Text.toStr]

theorem textOf_number_none (x : Text) (hnumber : ∀ s, x ≠ .string s) :
    textOf x = none
      ↔ x = .number 0 ∨ x = .decimal .nan ∨ ∃ negative n, x = .decimal (.finite negative 0 n) := by
  cases x with
  | string s => exact absurd rfl (hnumber s)
  | number n =>
    by_cases h : n = 0
    · simp [textOf, h]
    · simp [textOf, h]
  | decimal x =>
    cases x with
    | nan => simp [textOf]
    | infinity negative => simp [textOf]
    | finite negative s n =>
      by_cases h : s = 0
      · simp [textOf, h]
      · simp [textOf, h]

theorem escapeHTML_of_number (x : Text) (hnumber : ∀ s, x ≠ .string s) (h : textOf x ≠ none) :
    escapeHTML x = x.toStr := by
  have hs : textOf x = some x.toStr := (textOf_number x hnumber).resolve_left h
  unfold escapeHTML
  rw [hs]
  apply replace_of_not_matched
  intro c hc
  exact (numberChars_escape c (toStr_numberChars x hnumber c hc)).1

theorem escapeAttributeValue_of_number (x : Text) (hnumber : ∀ s, x ≠ .string s)
    (h : textOf x ≠ none) :
    escapeAttributeValue x = String.join (x.toStr.toList.map escapeNumberChar) := by
  have hs : textOf x = some x.toStr := (textOf_number x hnumber).resolve_left h
  unfold escapeAttributeValue
  rw [hs]
  show replace escapeAttributeRegex escapeAttributeMethod x.toStr = _
  unfold replace
  congr 1
  apply List.map_congr_left
  intro c hc
  exact (numberChars_escape c (toStr_numberChars x hnumber c hc)).2

/-- C21 on the code, at the inputs where it fails: the test `if (!text)` takes
the number zero for a missing argument, so both helpers return the empty string
for `0`, whose `toString()` is `0`; and `escapeAttributeValue` escapes every
character of the string of a number that is no digit and no letter: the sign of
`-12`, which gives `&#x2d;12`, the point of `12345.6789`, the number of the
test of `escapeHTML`, which gives `12345&#x2e;6789`, and the plus sign of
`1e+21`, which gives `1e&#x2b;21`. -/
theorem escape_number_zero_and_negative :
    escapeHTML (.number 0) = "" ∧ escapeAttributeValue (.number 0) = ""
      ∧ toString (0 : Int) = "0"
      ∧ escapeAttributeValue (.number (-12)) = "&#x2d;12" ∧ toString (-12 : Int) = "-12"
      ∧ (Text.number 0).toStr = "0" ∧ (Text.number (-12)).toStr = "-12"
      ∧ (Text.decimal (.finite false 123456789 5)).toStr = "12345.6789"
      ∧ escapeAttributeValue (.decimal (.finite false 123456789 5)) = "12345&#x2e;6789"
      ∧ (Text.number 1000000000000000000000).toStr = "1e+21"
      ∧ escapeAttributeValue (.number 1000000000000000000000) = "1e&#x2b;21" := by
  decide

/-- C21, amended. For a number `x`, with `x.toStr` its `toString()`: the
helpers take `x` for a missing argument exactly when it is zero or `NaN`, and
then both return the empty string; for every other number `escapeHTML(x)` is
`x.toString()`, and `escapeAttributeValue(x)` is `x.toString()` with every minus
sign, point and plus sign written as `&#x2d;`, `&#x2e;` and `&#x2b;`. So for an
integer `n` of at most 21 digits `escapeHTML(n)` is its decimal notation unless
`n` is zero, and `escapeAttributeValue(n)` is its decimal notation when `n` is
above zero, and `&#x2d;` followed by the digits when `n` is below zero. -/
theorem escape_number (x : Text) (hnumber : ∀ s, x ≠ .string s) :
    (textOf x = none
        ↔ x = .number 0 ∨ x = .decimal .nan
          ∨ ∃ negative n, x = .decimal (.finite negative 0 n))
      ∧ (textOf x = none → escapeHTML x = "" ∧ escapeAttributeValue x = "")
      ∧ (textOf x ≠ none →
          escapeHTML x = x.toStr
            ∧ escapeAttributeValue x = String.join (x.toStr.toList.map escapeNumberChar))
      ∧ (∀ n : Int, n ≠ 0 → n.natAbs < 1000000000000000000000 →
          escapeHTML (.number n) = toString n)
      ∧ (∀ n : Int, 0 < n → n.natAbs < 1000000000000000000000 →
          escapeAttributeValue (.number n) = toString n)
      ∧ (∀ n : Int, n < 0 → n.natAbs < 1000000000000000000000 →
          escapeAttributeValue (.number n) = "&#x2d;" ++ toString (-n)) := by
  refine ⟨textOf_number_none x hnumber, ?_,
    fun h => ⟨escapeHTML_of_number x hnumber h, escapeAttributeValue_of_number x hnumber h⟩,
    escapeHTML_number, escapeAttributeValue_positive, escapeAttributeValue_negative⟩
  intro h
  unfold escapeHTML escapeAttributeValue
  rw [h]
  exact ⟨rfl, rfl⟩

/-- Witness of C21: the number 12345.6789 of the test of `escapeHTML` passed
to both helpers, the number of the test of `escapeAttributeValue`, and a
negative number. -/
theorem escape_number_witness :
    escapeHTML (.decimal (.finite false 123456789 5)) = "12345.6789"
      ∧ escapeAttributeValue (.decimal (.finite false 123456789 5)) = "12345&#x2e;6789"
      ∧ escapeAttributeValue (.number 123456789) = toString (123456789 : Int)
      ∧ escapeAttributeValue (.number (-12)) = "&#x2d;" ++ toString (-(-12) : Int)
      ∧ escapeHTML (.number (-12)) = toString (-12 : Int) :=
  ⟨((escape_number (.decimal (.finite false 123456789 5)) (fun _ h => Text.noConfusion h)).2.2.1
      (by decide)).1.trans (by decide),
    ((escape_number (.decimal (.finite false 123456789 5)) (fun _ h => Text.noConfusion h)).2.2.1
      (by decide)).2.trans (by decide),
    (escape_number (.number 0) (fun _ h => Text.noConfusion h)).2.2.2.2.1 123456789
      (by decide) (by decide),
    (escape_number (.number 0) (fun _ h => Text.noConfusion h)).2.2.2.2.2 (-12)
      (by decide) (by decide),
    (escape_number (.number 0) (fun _ h => Text.noConfusion h)).2.2.2.1 (-12)
      (by decide) (by decide)⟩

end RenderContext

/-! ## Attributes -/

namespace RenderContext

theorem hashGet_hashSet_self (hash : Hash) (key : String) (value : Option Text) :
    hashGet (hashSet hash key value) key = some value := by
  induction hash with
  | nil => simp [hashSet, hashGet]
  | cons p rest ih =>
    obtain ⟨k, v⟩ := p
    by_cases h : k = key
    · simp [hashSet, hashGet, h]
    · simp [hashSet, hashGet, h, ih]

theorem hashGet_hashSet_other (hash : Hash) (key other : String) (value : Option Text)
    (h : other ≠ key) : hashGet (hashSet hash key value) other = hashGet hash other := by
  induction hash with
  | nil => simp [hashSet, hashGet, Ne.symm h]
  | cons p rest ih =>
    obtain ⟨k, v⟩ := p
    by_cases hk : k = key
    · subst hk
      simp [hashSet, hashGet, Ne.symm h]
    · by_cases ho : k = other
      · subst ho
        simp [hashSet, hashGet, hk]
      · simp [hashSet, hashGet, hk, ho, ih]

theorem keys_hashSet (hash : Hash) (key : String) (value : Option Text)
    (h : key ∈ hash.map Prod.fst) :
    (hashSet hash key value).map Prod.fst = hash.map Prod.fst := by
  induction hash with
  | nil => simp at h
  | cons p rest ih =>
    obtain ⟨k, v⟩ := p
    by_cases hk : k = key
    · simp [hashSet, hk]
    · have : key ∈ rest.map Prod.fst := by
        rcases List.mem_cons.1 h with h | h
        · exact absurd h.symm hk
        · exact h
      simp [hashSet, hk, ih this]

/-- The hash that the loop of `safeAttr` builds from `hash`. -/
theorem safeAttr_fold (stored : Option Text → Option Text) :
    ∀ (given : Hash) (ctx : Context),
      given.foldl
        (fun ctx entry => { ctx with _attrs := some (hashSet (ctx._attrs.getD []) entry.1 (stored entry.2)) })
        ctx
      = match given with
        | [] => ctx
        | _ => { ctx with _attrs := some (given.foldl (fun hash entry => hashSet hash entry.1 (stored entry.2)) (ctx._attrs.getD [])) } := by
  intro given
  induction given with
  | nil => intro ctx; rfl
  | cons e rest ih =>
    intro ctx
    rw [List.foldl_cons, ih]
    cases rest with
    | nil => rfl
    | cons e2 rest2 => rfl

theorem foldl_hashSet_other (stored : Option Text → Option Text) :
    ∀ (given hash : Hash) (key : String), key ∉ given.map Prod.fst →
      hashGet (given.foldl (fun hash entry => hashSet hash entry.1 (stored entry.2)) hash) key
        = hashGet hash key := by
  intro given
  induction given with
  | nil => intro hash key _; rfl
  | cons e rest ih =>
    intro hash key hk
    simp only [List.map_cons, List.mem_cons, not_or] at hk
    rw [List.foldl_cons, ih _ _ hk.2, hashGet_hashSet_other _ _ _ _ hk.1]

theorem foldl_hashSet_mem (stored : Option Text → Option Text) :
    ∀ (given hash : Hash), (given.map Prod.fst).Nodup →
      ∀ key value, (key, value) ∈ given →
      hashGet (given.foldl (fun hash entry => hashSet hash entry.1 (stored entry.2)) hash) key
        = some (stored value) := by
  intro given
  induction given with
  | nil => intro hash _ key value h; simp at h
  | cons e rest ih =>
    intro hash hnd key value hmem
    simp only [List.map_cons, List.nodup_cons] at hnd
    rw [List.foldl_cons]
    rcases List.mem_cons.1 hmem with h | h
    · subst h
      rw [foldl_hashSet_other stored rest _ _ hnd.1, hashGet_hashSet_self]
    · exact ih _ hnd.2 key value h

theorem safeAttr_eq (nameOrAttrs : NameOrAttrs) (value : Option Text) (escape : Option Bool)
    (ctx : Context) (helem : ctx._elem = false) :
    safeAttr nameOrAttrs value escape ctx =
      { ctx with
        _attrs := some (List.foldl
          (fun hash entry => hashSet hash entry.1
            (if escape.getD true then some (Text.string (escapeAttributeValueOf entry.2))
              else entry.2))
          (ctx._attrs.getD []) (attrsOf nameOrAttrs value)) } := by
  obtain ⟨a1, a2, a3, a4, a5, a6, a7, a8, a9, a10, a11, a12, a13, a14⟩ := ctx
  have h8 : a8 = false := helem
  subst h8
  unfold safeAttr
  simp only [Bool.false_eq_true, if_false]
  rw [safeAttr_fold (fun v => if escape.getD true then some (Text.string (escapeAttributeValueOf v)) else v)]
  generalize attrsOf nameOrAttrs value = given
  cases given <;> cases a14 <;> simp

theorem safeAttr_Stores (nameOrAttrs : NameOrAttrs) (value : Option Text) (escape : Option Bool)
    (ctx : Context) (helem : ctx._elem = false)
    (hkeys : ((attrsOf nameOrAttrs value).map Prod.fst).Nodup) :
    Stores (attrsOf nameOrAttrs value)
      (fun v => if escape.getD true then some (Text.string (escapeAttributeValueOf v)) else v)
      ctx (safeAttr nameOrAttrs value escape ctx) := by
  rw [safeAttr_eq _ _ _ _ helem]
  refine ⟨rfl, ?_, ?_, rfl⟩
  · intro key v hmem
    exact foldl_hashSet_mem
      (fun v => if escape.getD true then some (Text.string (escapeAttributeValueOf v)) else v)
      _ (ctx._attrs.getD []) hkeys key v hmem
  · intro key hk
    exact foldl_hashSet_other
      (fun v => if escape.getD true then some (Text.string (escapeAttributeValueOf v)) else v)
      _ (ctx._attrs.getD []) key hk

/-- C22. On a context without backing element, `safeAttr(name, value)` and
`safeAttr(attrs)` (a hash has distinct keys) create `_attrs` if it is missing,
store `escapeAttributeValue(value)` under every name given, and leave every
other attribute and every other field as they were; with `escape = false`, and
through `attr`, the value itself is stored. -/
theorem safeAttr_stores (ctx : Context) (helem : ctx._elem = false) (name : String)
    (value : Option Text) (attrs : Hash) (hkeys : (attrs.map Prod.fst).Nodup) :
    Stores [(name, value)] (fun v => some (.string (escapeAttributeValueOf v))) ctx
        (safeAttr (.name name) value none ctx)
      ∧ Stores attrs (fun v => some (.string (escapeAttributeValueOf v))) ctx
        (safeAttr (.attrs attrs) value none ctx)
      ∧ Stores [(name, value)] (fun v => v) ctx (safeAttr (.name name) value (some false) ctx)
      ∧ Stores attrs (fun v => v) ctx (safeAttr (.attrs attrs) value (some false) ctx)
      ∧ Stores [(name, value)] (fun v => v) ctx (attr (.name name) value ctx)
      ∧ Stores attrs (fun v => v) ctx (attr (.attrs attrs) value ctx) :=
  ⟨safeAttr_Stores (.name name) value none ctx helem (by simp [attrsOf]),
    safeAttr_Stores (.attrs attrs) value none ctx helem hkeys,
    safeAttr_Stores (.name name) value (some false) ctx helem (by simp [attrsOf]),
    safeAttr_Stores (.attrs attrs) value (some false) ctx helem hkeys,
    safeAttr_Stores (.name name) value (some false) ctx helem (by simp [attrsOf]),
    safeAttr_Stores (.attrs attrs) value (some false) ctx helem hkeys⟩

/-- Witness of C22: the calls of the tests `helpers_attr.js`, on a fresh context
and on one that has the attribute `foo`. -/
theorem safeAttr_stores_witness :
    hashGet ((safeAttr (.name "bar") (some (.string "'bar'")) none (init none))._attrs.getD [])
        "bar" = some (some (.string "&#x27;bar&#x27;"))
      ∧ (attr (.attrs [("foo", some (.string "bar")), ("bar", some (.string "bar"))])
          none (attr (.attrs [("foo", some (.string "foo"))]) none (init none)))._attrs
        = some [("foo", some (.string "bar")), ("bar", some (.string "bar"))] :=
  ⟨(safeAttr_stores (init none) rfl "bar" (some (.string "'bar'")) [] (by decide)).1.2.1
      "bar" (some (.string "'bar'")) (by decide),
    by decide⟩

end RenderContext

/-! ## Class names -/

namespace RenderContext

theorem addNames_cons (e : String) (es : List String) (classes : List (Option String)) :
    addNames (e :: es) classes
      = addNames es (if some e ∈ classes then classes else classes ++ [some e]) := rfl

theorem addNames_fixed : ∀ (es : List String) (classes : List (Option String)),
    (∀ e ∈ es, some e ∈ classes) → addNames es classes = classes := by
  intro es
  induction es with
  | nil => intro classes _; rfl
  | cons e es ih =>
    intro classes h
    rw [addNames_cons, if_pos (h e (List.mem_cons_self _ _))]
    exact ih classes fun x hx => h x (List.mem_cons_of_mem _ hx)

theorem addNames_added : ∀ (es : List String) (classes : List (Option String)),
    ∃ added, addNames es classes = classes ++ added ∧ added.Sublist (es.map some)
      ∧ added.Nodup ∧ (∀ x ∈ added, x ∉ classes)
      ∧ (∀ e ∈ es, some e ∈ classes ∨ some e ∈ added) := by
  intro es
  induction es with
  | nil => intro classes; exact ⟨[], by simp [addNames]⟩
  | cons e es ih =>
    intro classes
    rw [addNames_cons]
    by_cases h : some e ∈ classes
    · rw [if_pos h]
      obtain ⟨added, h1, h2, h3, h4, h5⟩ := ih classes
      refine ⟨added, h1, ?_, h3, h4, ?_⟩
      · simpa using h2.cons (some e)
      · intro x hx
        rcases List.mem_cons.1 hx with rfl | hx
        · exact Or.inl h
        · exact h5 x hx
    · rw [if_neg h]
      obtain ⟨added, h1, h2, h3, h4, h5⟩ := ih (classes ++ [some e])
      refine ⟨some e :: added, ?_, ?_, ?_, ?_, ?_⟩
      · rw [h1]; simp
      · simpa using h2.cons₂ (some e)
      · rw [List.nodup_cons]
        exact ⟨fun hmem => h4 _ hmem (by simp), h3⟩
      · intro x hx
        rcases List.mem_cons.1 hx with rfl | hx
        · exact h
        · exact fun hc => h4 x hx (by simp [hc])
      · intro x hx
        rcases List.mem_cons.1 hx with rfl | hx
        · exact Or.inr (List.mem_cons_self _ _)
        · rcases h5 x hx with h6 | h6
          · rcases List.mem_append.1 h6 with h7 | h7
            · exact Or.inl h7
            · have : some x = some e := by simpa using h7
              exact Or.inr (this ▸ List.mem_cons_self _ _)
          · exact Or.inr (List.mem_cons_of_mem _ h6)

theorem addNames_mem (es : List String) (classes : List (Option String)) :
    ∀ e ∈ es, some e ∈ addNames es classes := by
  intro e he
  obtain ⟨added, h1, _, _, _, h5⟩ := addNames_added es classes
  rw [h1]
  rcases h5 e he with h | h
  · exact List.mem_append_left _ h
  · exact List.mem_append_right _ h

theorem addNames_idem (es : List String) (classes : List (Option String)) :
    addNames es (addNames es classes) = addNames es classes :=
  addNames_fixed es _ (addNames_mem es classes)

theorem count_one_of_nodup (x : Option String) : ∀ (l : List (Option String)),
    l.Nodup → x ∈ l → l.count x = 1 := by
  intro l
  induction l with
  | nil => intro _ h; simp at h
  | cons b l ih =>
    intro hnd hm
    rw [List.nodup_cons] at hnd
    rw [List.count_cons]
    by_cases hb : b = x
    · subst hb
      simp [List.count_eq_zero.2 hnd.1]
    · have hx : x ∈ l := by
        rcases List.mem_cons.1 hm with h | h
        · exact absurd h.symm hb
        · exact h
      simp [ih hnd.2 hx, hb]

theorem addNames_count (es : List String) (classes : List (Option String)) :
    ∀ e ∈ es, (addNames es classes).count (some e) = max 1 (classes.count (some e)) := by
  intro e he
  obtain ⟨added, h1, _, h3, h4, h5⟩ := addNames_added es classes
  rw [h1, List.count_append]
  by_cases h : some e ∈ classes
  · have h0 : added.count (some e) = 0 := List.count_eq_zero.2 fun hm => h4 _ hm h
    have hpos : 0 < classes.count (some e) := List.count_pos_iff.2 h
    rw [h0]
    omega
  · have hm : some e ∈ added := (h5 e he).resolve_left h
    have h0 : classes.count (some e) = 0 := List.count_eq_zero.2 h
    have h1 : added.count (some e) = 1 := count_one_of_nodup _ _ h3 hm
    rw [h0, h1]
    rfl

/-- One round of the loop of `safeAddClass` on a context without backing
element. -/
theorem safeAddClass_step (elemHasClass : String → Bool) (ctx : Context)
    (helem : ctx._elem = false) (entry : String) :
    (if (_hasClass elemHasClass entry ctx).1 then (_hasClass elemHasClass entry ctx).2
      else _addClassNoElement entry (_hasClass elemHasClass entry ctx).2)
      = { ctx with _classNames := some (addNames [entry] (ctx._classNames.getD [])) } := by
  obtain ⟨a1, a2, a3, a4, a5, a6, a7, a8, a9, a10, a11, a12, a13, a14⟩ := ctx
  have h8 : a8 = false := helem
  subst h8
  cases a10 with
  | none => simp [_hasClass, _getClassesNoElement, _addClassNoElement, addNames]
  | some classes =>
    by_cases h : some entry ∈ classes
    · simp [_hasClass, _getClassesNoElement, _addClassNoElement, addNames, h]
    · simp [_hasClass, _getClassesNoElement, _addClassNoElement, addNames, h]

theorem foldl_eq_of_inv {α β : Type} (P : α → Prop) (F G : α → β → α)
    (hFG : ∀ a b, P a → F a b = G a b) (hP : ∀ a b, P a → P (G a b)) :
    ∀ (l : List β) (a : α), P a → l.foldl F a = l.foldl G a := by
  intro l
  induction l with
  | nil => intro a _; rfl
  | cons b l ih =>
    intro a ha
    rw [List.foldl_cons, List.foldl_cons, hFG a b ha]
    exact ih _ (hP a b ha)

theorem addNames_loop : ∀ (names : List String) (ctx : Context),
    names.foldl
      (fun ctx entry => { ctx with _classNames := some (addNames [entry] (ctx._classNames.getD [])) })
      ctx
    = if names = [] then ctx
      else { ctx with _classNames := some (addNames names (ctx._classNames.getD [])) } := by
  intro names
  induction names with
  | nil => intro ctx; rfl
  | cons e rest ih =>
    intro ctx
    rw [List.foldl_cons, ih]
    by_cases hr : rest = []
    · subst hr; simp
    · simp only [hr, if_false, reduceCtorEq]
      rfl

theorem safeAddClass_loop (elemHasClass : String → Bool) (escape : Bool)
    (names : List String) (ctx : Context) (helem : ctx._elem = false) :
      names.foldl
        (fun ctx entry =>
          let entry := if escape then escapeAttributeValue (.string entry) else entry
          let (has, ctx) := _hasClass elemHasClass entry ctx
          if has then ctx else _addClassNoElement entry ctx)
        ctx
      = if names = [] then ctx
        else { ctx with
          _classNames := some (addNames
            (names.map fun entry =>
              if escape then escapeAttributeValue (.string entry) else entry)
            (ctx._classNames.getD [])) } := by
  rw [foldl_eq_of_inv (fun ctx => ctx._elem = false) _
    (fun ctx entry => { ctx with
      _classNames := some (addNames [if escape then escapeAttributeValue (.string entry) else entry]
        (ctx._classNames.getD [])) })
    (fun a b ha => safeAddClass_step elemHasClass a ha _) (fun a b ha => ha) names ctx helem]
  have h := addNames_loop
    (names.map fun entry => if escape then escapeAttributeValue (.string entry) else entry) ctx
  rw [List.foldl_map] at h
  rw [h]
  simp

theorem safeAddClass_eq (elemHasClass : String → Bool) (classNames : Option ClassNames)
    (escape : Option Bool) (ctx : Context) (helem : ctx._elem = false) :
    safeAddClass elemHasClass classNames escape ctx
      = if storedNames classNames escape = [] then ctx
        else { ctx with
          _classNames := some (addNames (storedNames classNames escape)
            (ctx._classNames.getD [])) } := by
  unfold safeAddClass storedNames
  cases classNames with
  | none => rfl
  | some cn =>
    cases cn with
    | name c =>
      by_cases hc : c = ""
      · simp [hc]
      · simp only [ClassNames.name.injEq, hc, if_false, helem, Bool.false_eq_true]
        rw [safeAddClass_loop elemHasClass (escape.getD true) [c] ctx helem]
        simp [helem]
    | names l =>
      simp only [reduceCtorEq, if_false, helem, Bool.false_eq_true]
      rw [safeAddClass_loop elemHasClass (escape.getD true) l ctx helem]
      by_cases hl : l = []
      · simp [hl]
      · simp [hl, helem]

/-- C23. On a context without backing element a second `safeAddClass` with
the same argument changes nothing; a call whose names (escaped unless `escape`
is `false`) are all in the class list leaves the context as it is; after the
two calls each of the names occurs as often as before if it was in the list,
and exactly once if it was not; and the list after the calls is the list before
them followed by the names that were missing, each once, in the order of the
argument. -/
theorem safeAddClass_idempotent (elemHasClass : String → Bool) (ctx : Context)
    (helem : ctx._elem = false) (classNames : Option ClassNames) (escape : Option Bool) :
    safeAddClass elemHasClass classNames escape (safeAddClass elemHasClass classNames escape ctx)
        = safeAddClass elemHasClass classNames escape ctx
      ∧ ((∀ n ∈ storedNames classNames escape, some n ∈ ctx._classNames.getD []) →
          safeAddClass elemHasClass classNames escape ctx = ctx)
      ∧ (∀ n ∈ storedNames classNames escape,
          ((safeAddClass elemHasClass classNames escape
              (safeAddClass elemHasClass classNames escape ctx))._classNames.getD []).count (some n)
            = max 1 ((ctx._classNames.getD []).count (some n)))
      ∧ ∃ added,
          (safeAddClass elemHasClass classNames escape
              (safeAddClass elemHasClass classNames escape ctx))._classNames.getD []
            = ctx._classNames.getD [] ++ added
          ∧ added.Sublist ((storedNames classNames escape).map some)
          ∧ added.Nodup ∧ ∀ x ∈ added, x ∉ ctx._classNames.getD [] := by
  have hidem : safeAddClass elemHasClass classNames escape
      (safeAddClass elemHasClass classNames escape ctx)
        = safeAddClass elemHasClass classNames escape ctx := by
    rw [safeAddClass_eq _ _ _ ctx helem]
    by_cases hs : storedNames classNames escape = []
    · simp only [hs, if_true]
      rw [safeAddClass_eq _ _ _ ctx helem, if_pos hs]
    · simp only [hs, if_false]
      rw [safeAddClass_eq elemHasClass classNames escape
        { ctx with
          _classNames := some (addNames (storedNames classNames escape)
            (ctx._classNames.getD [])) } helem, if_neg hs]
      simp [addNames_idem]
  rw [hidem]
  refine ⟨rfl, ?_, ?_, ?_⟩
  · intro h
    rw [safeAddClass_eq _ _ _ ctx helem]
    by_cases hs : storedNames classNames escape = []
    · rw [if_pos hs]
    · rw [if_neg hs, addNames_fixed _ _ h]
      obtain ⟨n, hn⟩ := List.exists_mem_of_ne_nil _ hs
      have hmem := h n hn
      obtain ⟨a1, a2, a3, a4, a5, a6, a7, a8, a9, a10, a11, a12, a13, a14⟩ := ctx
      cases a10 with
      | none => simp at hmem
      | some classes => rfl
  · intro n hn
    rw [safeAddClass_eq _ _ _ ctx helem, if_neg (List.ne_nil_of_mem hn)]
    exact addNames_count _ _ n hn
  · rw [safeAddClass_eq _ _ _ ctx helem]
    by_cases hs : storedNames classNames escape = []
    · rw [if_pos hs]
      exact ⟨[], by simp⟩
    · rw [if_neg hs]
      obtain ⟨added, h1, h2, h3, h4, _⟩ :=
        addNames_added (storedNames classNames escape) (ctx._classNames.getD [])
      exact ⟨added, h1, h2, h3, h4⟩

/-- Witness of C23: the calls of the tests `helpers_className.js` on a fresh
context. After `safeAddClass(c); safeAddClass(c)` the escaped name is in the
list exactly once, and an array added twice leaves its names in the order in
which they came. -/
theorem safeAddClass_idempotent_witness :
    ((safeAddClass (fun _ => false) (some (.name "'foo'")) none
        (safeAddClass (fun _ => false) (some (.name "'foo'")) none (init none)))._classNames.getD
          []).count (some "&#x27;foo&#x27;") = 1
      ∧ (safeAddClass (fun _ => false) (some (.names ["foo", "bar"])) none
          (safeAddClass (fun _ => false) (some (.names ["foo", "bar"])) none (init none)))._classNames
        = some [some "foo", some "bar"]
      ∧ (safeAddClass (fun _ => false) (some (.name "foo")) (some false)
          (classNames ["foo"] (init none)) = classNames ["foo"] (init none)) :=
  ⟨(safeAddClass_idempotent (fun _ => false) (init none) rfl (some (.name "'foo'")) none).2.2.1
      "&#x27;foo&#x27;" (by decide),
    by decide,
    (safeAddClass_idempotent (fun _ => false) (classNames ["foo"] (init none)) rfl
      (some (.name "foo")) (some false)).2.1 (by decide)⟩

end RenderContext

namespace RenderContext

theorem nullFirst_eq (className : String) : ∀ (classes : List (Option String)),
    (if classes.indexOf (some className) < classes.length
      then classes.set (classes.indexOf (some className)) none else classes)
      = nullFirst className classes := by
  intro classes
  induction classes with
  | nil => rfl
  | cons c rest ih =>
    by_cases h : c = some className
    · subst h
      simp [nullFirst, List.indexOf_cons]
    · have hne : ¬ (c == some className) = true := by simpa using h
      rw [List.indexOf_cons]
      simp only [hne, cond_false, Bool.false_eq_true, if_false, nullFirst, h, List.length_cons,
        Nat.succ_lt_succ_iff, List.set_cons_succ, Nat.add_lt_add_iff_right]
      rw [← ih]
      by_cases hlt : List.indexOf (some className) rest < rest.length
      · simp [hlt]
      · simp [hlt]

theorem mem_nullFirst (y x : String) : ∀ (classes : List (Option String)),
    some x ∈ nullFirst y classes → some x ∈ classes := by
  intro classes
  induction classes with
  | nil => intro h; exact h
  | cons c rest ih =>
    intro h
    unfold nullFirst at h
    by_cases hc : c = some y
    · rw [if_pos hc] at h
      rcases List.mem_cons.1 h with h | h
      · cases h
      · exact List.mem_cons_of_mem _ h
    · rw [if_neg hc] at h
      rcases List.mem_cons.1 h with h | h
      · exact h ▸ List.mem_cons_self _ _
      · exact List.mem_cons_of_mem _ (ih h)

theorem count_nullFirst_self (y : String) : ∀ (classes : List (Option String)),
    (nullFirst y classes).count (some y) = classes.count (some y) - 1 := by
  intro classes
  induction classes with
  | nil => rfl
  | cons c rest ih =>
    unfold nullFirst
    by_cases hc : c = some y
    · subst hc
      simp [List.count_cons]
    · rw [if_neg hc, List.count_cons, List.count_cons, ih]
      have hne : ¬ (c == some y) = true := by simpa using hc
      simp [hne]

theorem count_nullFirst_other (y x : String) (hxy : x ≠ y) :
    ∀ (classes : List (Option String)),
    (nullFirst y classes).count (some x) = classes.count (some x) := by
  intro classes
  induction classes with
  | nil => rfl
  | cons c rest ih =>
    unfold nullFirst
    by_cases hc : c = some y
    · subst hc
      have h1 : ¬ ((some y : Option String) == some x) = true := by simpa using Ne.symm hxy
      simp [List.count_cons, Ne.symm hxy]
    · rw [if_neg hc, List.count_cons, List.count_cons, ih]

theorem _removeClassNoElement_eq (className : String) (ctx : Context) :
    _removeClassNoElement className ctx
      = { ctx with _classNames := some (nullFirst className (ctx._classNames.getD [])) } := by
  obtain ⟨a1, a2, a3, a4, a5, a6, a7, a8, a9, a10, a11, a12, a13, a14⟩ := ctx
  cases a10 with
  | none => simp [_removeClassNoElement, _getClassesNoElement, nullFirst]
  | some classes =>
    simp only [_removeClassNoElement, _getClassesNoElement, Option.getD_some]
    rw [← nullFirst_eq]
    by_cases h : List.indexOf (some className) classes < classes.length
    · simp [h]
    · simp [h]

theorem removeClass_eq (className : String) (ctx : Context) (helem : ctx._elem = false) :
    removeClass className ctx
      = { ctx with
          _classNames := some (nullFirst (escapeAttributeValue (.string className))
            (nullFirst className (ctx._classNames.getD []))) } := by
  obtain ⟨a1, a2, a3, a4, a5, a6, a7, a8, a9, a10, a11, a12, a13, a14⟩ := ctx
  have h8 : a8 = false := helem
  subst h8
  simp [removeClass, _removeClassNoElement_eq]

theorem hasClass_eq (elemHasClass : String → Bool) (className : String) (ctx : Context)
    (helem : ctx._elem = false) :
    (hasClass elemHasClass className ctx).1
      = (decide (some className ∈ ctx._classNames.getD [])
          || decide (some (escapeAttributeValue (.string className)) ∈ ctx._classNames.getD [])) := by
  obtain ⟨a1, a2, a3, a4, a5, a6, a7, a8, a9, a10, a11, a12, a13, a14⟩ := ctx
  have h8 : a8 = false := helem
  subst h8
  cases a10 with
  | none => simp [hasClass, _hasClass, _getClassesNoElement]
  | some classes =>
    by_cases h : some className ∈ classes
    · simp [hasClass, _hasClass, _getClassesNoElement, h]
    · simp [hasClass, _hasClass, _getClassesNoElement, h]

theorem removeClass_hasClass (elemHasClass : String → Bool) (ctx : Context)
    (helem : ctx._elem = false) (className : String)
    (hc : (ctx._classNames.getD []).count (some className) ≤ 1)
    (he : (ctx._classNames.getD []).count (some (escapeAttributeValue (.string className))) ≤ 1) :
    (hasClass elemHasClass className (removeClass className ctx)).1 = false := by
  rw [hasClass_eq _ _ _ (by rw [removeClass_eq _ _ helem]; exact helem)]
  rw [removeClass_eq _ _ helem]
  simp only [Option.getD_some, Bool.or_eq_false_iff, decide_eq_false_iff_not]
  have h1 : some className ∉ nullFirst className (ctx._classNames.getD []) := by
    apply List.count_eq_zero.1
    rw [count_nullFirst_self]
    omega
  constructor
  · exact fun h => h1 (mem_nullFirst _ _ _ h)
  · apply List.count_eq_zero.1
    rw [count_nullFirst_self]
    by_cases hce : escapeAttributeValue (.string className) = className
    · rw [hce, count_nullFirst_self]
      omega
    · rw [count_nullFirst_other _ _ hce]
      omega

theorem removeClass_other (ctx : Context) (helem : ctx._elem = false) (className other : String)
    (h1 : other ≠ className) (h2 : other ≠ escapeAttributeValue (.string className)) :
    ((removeClass className ctx)._classNames.getD []).count (some other)
      = (ctx._classNames.getD []).count (some other) := by
  rw [removeClass_eq _ _ helem]
  simp only [Option.getD_some]
  rw [count_nullFirst_other _ _ h2, count_nullFirst_other _ _ h1]

/-- C24 on the code: `_removeClassNoElement` sets the first place of a name to
`null` and no other, so a name that is in the list twice, here after
`classNames(["'a'", "'a'"])`, is still there after `removeClass`, and `hasClass`
returns true, where the docstring of `removeClass` says that the class is
removed from the tag. A name that is its own escaped form loses two places,
and is still there when it had three. -/
theorem removeClass_leaves_later_copies :
    (removeClass "'a'" (classNames ["'a'", "'a'"] (init none)))._classNames
        = some [none, some "'a'"]
      ∧ (hasClass (fun _ => false) "'a'"
          (removeClass "'a'" (classNames ["'a'", "'a'"] (init none)))).1 = true
      ∧ (hasClass (fun _ => false) "foo"
          (removeClass "foo" (classNames ["foo", "foo", "foo"] (init none)))).1 = true := by
  decide

/-- Where `removeClass` does what its docstring says: on a context without
backing element in whose class list neither `c` nor its escaped form stands
more than once, `hasClass(c)` returns false after `removeClass(c)`, so both
forms are gone; and, whatever the list, a class stored under a string that is
neither `c` nor its escaped form is in the list as often as before. -/
theorem removeClass_then_hasClass (elemHasClass : String → Bool) (ctx : Context)
    (helem : ctx._elem = false) (className : String)
    (hc : (ctx._classNames.getD []).count (some className) ≤ 1)
    (he : (ctx._classNames.getD []).count (some (escapeAttributeValue (.string className))) ≤ 1) :
    (hasClass elemHasClass className (removeClass className ctx)).1 = false
      ∧ some className ∉ (removeClass className ctx)._classNames.getD []
      ∧ some (escapeAttributeValue (.string className))
          ∉ (removeClass className ctx)._classNames.getD []
      ∧ ∀ other, other ≠ className → other ≠ escapeAttributeValue (.string className) →
          ((removeClass className ctx)._classNames.getD []).count (some other)
            = (ctx._classNames.getD []).count (some other) := by
  have h := removeClass_hasClass elemHasClass ctx helem className hc he
  have h2 := h
  rw [hasClass_eq _ _ _ (by rw [removeClass_eq _ _ helem]; exact helem)] at h2
  simp only [Bool.or_eq_false_iff, decide_eq_false_iff_not] at h2
  exact ⟨h, h2.1, h2.2, fun other h1 h3 => removeClass_other ctx helem className other h1 h3⟩

/-- The list of the test `helpers_className.js`, from which `'classC'` is
removed in its escaped form, and the class `classA`, which stays. -/
theorem removeClass_then_hasClass_witness :
    (hasClass (fun _ => false) "'classC'"
        (removeClass "'classC'"
          (classNames ["classA", "'classB'", "&#x27;classC&#x27;"] (init none)))).1 = false
      ∧ ((removeClass "'classC'"
          (classNames ["classA", "'classB'", "&#x27;classC&#x27;"]
            (init none)))._classNames.getD []).count (some "classA") = 1 :=
  ⟨(removeClass_then_hasClass (fun _ => false)
      (classNames ["classA", "'classB'", "&#x27;classC&#x27;"] (init none)) rfl "'classC'"
      (by decide) (by decide)).1,
    ((removeClass_then_hasClass (fun _ => false)
      (classNames ["classA", "'classB'", "&#x27;classC&#x27;"] (init none)) rfl "'classC'"
      (by decide) (by decide)).2.2.2 "classA" (by decide) (by decide)).trans (by decide)⟩

end RenderContext

/-! ## The tag of a context -/

namespace RenderContext

theorem intercalate_go_empty : ∀ (l : List String) (acc : String),
    String.intercalate.go acc "" l = l.foldl (fun r s => r ++ s) acc := by
  intro l
  induction l with
  | nil => intro acc; rfl
  | cons a rest ih =>
    intro acc
    rw [String.intercalate.go, ih, List.foldl_cons]
    congr 1
    simp

theorem intercalate_empty (l : List String) : String.intercalate "" l = String.join l := by
  cases l with
  | nil => rfl
  | cons a rest =>
    rw [String.intercalate, intercalate_go_empty, String.join, List.foldl_cons]
    congr 1

theorem join_append (l1 l2 : List String) :
    String.join (l1 ++ l2) = String.join l1 ++ String.join l2 := by
  apply String.ext
  simp [join_data]

theorem toLowerCase_fast (t : String) (h : t = "div" ∨ t = "label" ∨ t = "a") :
    toLowerCase t = t := by
  rcases h with rfl | rfl | rfl <;> decide

theorem init_tagName (t : String) :
    init (some (.tagName t))
      = { strings := [none], offset := 0, length := 1, needsContent := true,
          _tagName := some (toLowerCase t), _needsTag := true,
          _selfClosing := some (decide (toLowerCase t ∈ SELF_CLOSING)), _elem := false,
          _id := none, _classNames := none, _styles := none, _cloneStyles := false,
          _stylesDidChange := false, _attrs := none } := by
  unfold init
  by_cases h : t = "div" ∨ t = "label" ∨ t = "a"
  · simp only [h, if_true]
    rw [toLowerCase_fast t h]
    rfl
  · simp only [h, if_false]
    rfl

theorem push_eq (line : List String) (ctx : Context) :
    push line ctx
      = { ctx with strings := ctx.strings ++ line.map some, length := ctx.length + line.length,
                   needsContent := true } := by
  unfold push safeContent
  simp only [Bool.false_eq_true, if_false]
  have : ∀ (l : List String) (acc : List (Option String)),
      l.foldl (fun strings line => strings ++ [some line]) acc = acc ++ l.map some := by
    intro l
    induction l with
    | nil => intro acc; simp
    | cons a rest ih => intro acc; simp [ih]
  rw [this]

theorem pushes_eq : ∀ (pushes : List (List String)) (ctx : Context), ctx.needsContent = true →
    pushes.foldl (fun ctx line => push line ctx) ctx
      = { ctx with strings := ctx.strings ++ pushes.flatten.map some,
                   length := ctx.length + pushes.flatten.length } := by
  intro pushes
  induction pushes with
  | nil => intro ctx _; simp
  | cons line rest ih =>
    intro ctx h
    rw [List.foldl_cons, ih _ (by rw [push_eq]), push_eq]
    obtain ⟨a1, a2, a3, a4, a5, a6, a7, a8, a9, a10, a11, a12, a13, a14⟩ := ctx
    have h4 : a4 = true := h
    subst h4
    simp [Nat.add_assoc]

theorem join_single (a : String) : String.join [a] = a := by
  apply String.ext
  simp [join_data]

theorem join_eq (dasherize : String → String) (t : String) (pushes : List (List String)) :
    (join dasherize none
        (pushes.foldl (fun ctx line => push line ctx) (init (some (.tagName t))))).1
      = if toLowerCase t ∈ SELF_CLOSING ∧ pushes.flatten = [] then "<" ++ toLowerCase t ++ " />"
        else "<" ++ toLowerCase t ++ ">" ++ String.join pushes.flatten
          ++ "</" ++ toLowerCase t ++ ">" := by
  rw [init_tagName, pushes_eq _ _ rfl]
  generalize pushes.flatten = lines
  unfold join
  simp only [if_true, Option.getD_none, intercalate_empty]
  unfold endTag arraySet
  simp only [Option.isSome_none, Bool.or_self, Bool.false_eq_true, if_false, Option.getD_some,
    List.singleton_append, List.length_cons, Nat.zero_lt_succ, if_true, List.set_cons_zero]
  have hmap : (List.map ((fun s => s.getD "") ∘ some) lines : List String) = lines := by
    simp [Function.comp_def]
  by_cases hs : toLowerCase t ∈ SELF_CLOSING
  · by_cases hp : lines = []
    · subst hp
      simp [hs, join_single]
    · have hd : decide (1 + lines.length = 1) = false := by
        simpa using hp
      have hnil : String.join [] = "" := rfl
      simp [hs, hp, hd, join_cons, join_append, join_single, hmap, String.append_assoc, hnil]
  · have hnil : String.join [] = "" := rfl
    simp [hs, join_cons, join_append, join_single, hmap, String.append_assoc, hnil]

end RenderContext

namespace RenderContext

/-- C25 on the code, at inputs where it fails: `init` puts every tag name
other than `div`, `label` and `a` in lower case, so the tag written is not the
name given; the context made with `SPAN` joins to `<span>x</span>`, and the one
made with `BR`, a name that is not in `SELF_CLOSING`, joins to `<br />`. -/
theorem join_lowercases_tag_name :
    (join (fun s => s) none (push ["x"] (init (some (.tagName "SPAN"))))).1 = "<span>x</span>"
      ∧ "BR" ∉ SELF_CLOSING
      ∧ (join (fun s => s) none (init (some (.tagName "BR")))).1 = "<br />" := by
  decide

/-- C25, amended. For a context created with a tag name `t` of ASCII
characters and with no id, classes, styles or attributes, the first `join()`
writes the tag name in lower case: with `t'` for `t.toLowerCase()`, it returns
`<t' />` if `t'` is in `SELF_CLOSING` and no string was pushed, and `<t'>` + the
strings pushed, in order, + `</t'>` otherwise. For a name `t` without capital
letters this is `<t>` + the strings + `</t>` when `t` is not in `SELF_CLOSING`,
and `<t />` when it is and nothing was pushed. -/
theorem join_first (dasherize : String → String) (t : String) (pushes : List (List String))
    (hascii : ∀ c ∈ t.data, c.toNat < 128) :
    (join dasherize none
        (pushes.foldl (fun ctx line => push line ctx) (init (some (.tagName t))))).1
      = (if toLowerCase t ∈ SELF_CLOSING ∧ pushes.flatten = [] then "<" ++ toLowerCase t ++ " />"
        else "<" ++ toLowerCase t ++ ">" ++ String.join pushes.flatten
          ++ "</" ++ toLowerCase t ++ ">")
      ∧ (toLowerCase t = t → t ∉ SELF_CLOSING →
          (join dasherize none
            (pushes.foldl (fun ctx line => push line ctx) (init (some (.tagName t))))).1
          = "<" ++ t ++ ">" ++ String.join pushes.flatten ++ "</" ++ t ++ ">")
      ∧ (t ∈ SELF_CLOSING → pushes.flatten = [] →
          (join dasherize none
            (pushes.foldl (fun ctx line => push line ctx) (init (some (.tagName t))))).1
          = "<" ++ t ++ " />") := by
  refine ⟨join_eq dasherize t pushes, ?_, ?_⟩
  · intro hlow hnot
    rw [join_eq, hlow, if_neg (fun h => hnot h.1)]
  · intro hmem hnil
    have hlow : toLowerCase t = t := by
      have key : ∀ s ∈ SELF_CLOSING, toLowerCase s = s := by decide
      exact key t hmem
    rw [join_eq, hlow, if_pos ⟨hmem, hnil⟩]

/-- Witness of C25: a `div` with two strings pushed one by one, an `img`
with nothing pushed, and a `SPAN`, which is written in lower case. -/
theorem join_first_witness :
    (join (fun s => s) none
        (push ["b"] (push ["a"] (init (some (.tagName "div")))))).1 = "<div>ab</div>"
      ∧ (join (fun s => s) none (init (some (.tagName "img")))).1 = "<img />"
      ∧ (join (fun s => s) none (push ["x"] (init (some (.tagName "SPAN"))))).1
        = "<span>x</span>" :=
  ⟨(join_first (fun s => s) "div" [["a"], ["b"]] (by decide)).2.1 (by decide) (by decide),
    (join_first (fun s => s) "img" [] (by decide)).2.2 (by decide) rfl,
    (join_first (fun s => s) "SPAN" [["x"]] (by decide)).1.trans (by decide)⟩

/-! ## removeStyle -/

theorem removeStyle_fst (styleName : String) (ctx : Context) :
    (removeStyle styleName ctx).1
      = if ctx._elem = true ∨ ctx._styles = none then Returned.receiver
        else Returned.undefined := by
  unfold removeStyle
  by_cases h1 : ctx._elem = true
  · simp [h1]
  · cases h2 : ctx._styles with
    | none => simp [h1, h2]
    | some hash =>
      simp only [h1, h2, Option.isNone_some, Bool.false_eq_true, if_false, reduceCtorEq, or_self]
      by_cases h3 : truthy (hashGet (styles ctx).1 styleName) = true
      · simp [h3]
      · simp [h3]

/-- C26 on the code: `removeStyle` returns the receiver when the context has a
backing element and when it has no style hash; on every other path the body
ends without a `return`, and the call returns `undefined`, whether the style is
in the hash or not. -/
theorem removeStyle_returns (styleName : String) (ctx : Context) :
    (removeStyle styleName ctx).1
        = (if ctx._elem = true ∨ ctx._styles = none then Returned.receiver
          else Returned.undefined)
      ∧ (removeStyle "color"
          { init none with _styles := some [("color", some (.string "red"))] }).1
        = Returned.undefined
      ∧ (removeStyle "width"
          { init none with _styles := some [("color", some (.string "red"))] }).1
        = Returned.undefined :=
  ⟨removeStyle_fst styleName ctx, by decide, by decide⟩

theorem removeStyle_styles (styleName : String) (ctx : Context) (hash : Hash)
    (helem : ctx._elem = false) (hstyles : ctx._styles = some hash) :
    (removeStyle styleName ctx).2._styles
      = some (if truthy (hashGet hash styleName) then hashSet hash styleName none else hash) := by
  unfold removeStyle styles
  simp only [helem, hstyles, Option.isNone_some, Bool.false_eq_true, if_false]
  by_cases h3 : truthy (hashGet hash styleName) = true
  · by_cases h4 : ctx._cloneStyles = true
    · simp [h3, h4]
    · simp [h3, h4]
  · by_cases h4 : ctx._cloneStyles = true
    · simp [h3, h4, hstyles]
    · simp [h3, h4, hstyles]

/-- C27 on the code: `removeStyle` tests `if (styles[styleName])`, the truth
value of the entry and not its presence. An entry whose value is truthy is set
to `null`, with its key kept in place; an entry whose value is falsy, the
number zero for one, is left as it is. -/
theorem removeStyle_by_truth_value (styleName : String) (ctx : Context) (hash : Hash)
    (helem : ctx._elem = false) (hstyles : ctx._styles = some hash) :
    (truthy (hashGet hash styleName) = true →
        (removeStyle styleName ctx).2._styles = some (hashSet hash styleName none)
          ∧ hashGet (hashSet hash styleName none) styleName = some none
          ∧ (hashSet hash styleName none).map Prod.fst = hash.map Prod.fst)
      ∧ (truthy (hashGet hash styleName) = false →
          (removeStyle styleName ctx).2._styles = some hash) := by
  constructor
  · intro h
    refine ⟨by rw [removeStyle_styles _ _ _ helem hstyles, if_pos h], hashGet_hashSet_self _ _ _, ?_⟩
    apply keys_hashSet
    clear hstyles
    induction hash with
    | nil => simp [hashGet, truthy] at h
    | cons p rest ih =>
      obtain ⟨k, v⟩ := p
      by_cases hk : k = styleName
      · simp [hk]
      · simp only [hashGet, hk, if_false] at h
        simp [ih h]
  · intro h
    rw [removeStyle_styles _ _ _ helem hstyles]
    simp [h]

/-- Witness of C27, with the divergence: in the hash `{left: 0, top: 3}` the
style `top` is set to `null` and is not written by `end()` any more, the style
`left` keeps the value `0` and is still written. -/
theorem removeStyle_by_truth_value_witness :
    (removeStyle "top"
        { init none with
          _styles := some [("left", some (.number 0)), ("top", some (.number 3))] }).2._styles
        = some [("left", some (.number 0)), ("top", none)]
      ∧ (removeStyle "left"
        { init none with
          _styles := some [("left", some (.number 0)), ("top", some (.number 3))] }).2._styles
        = some [("left", some (.number 0)), ("top", some (.number 3))]
      ∧ (join (fun s => s) none
          (removeStyle "left"
            { init none with _styles := some [("left", some (.number 0))] }).2).1
        = "<div style=\"left: 0px; \" ></div>" :=
  ⟨((removeStyle_by_truth_value "top"
      { init none with
        _styles := some [("left", some (.number 0)), ("top", some (.number 3))] }
      [("left", some (.number 0)), ("top", some (.number 3))] rfl rfl).1 (by decide)).1,
    (removeStyle_by_truth_value "left"
      { init none with
        _styles := some [("left", some (.number 0)), ("top", some (.number 3))] }
      [("left", some (.number 0)), ("top", some (.number 3))] rfl rfl).2 (by decide),
    by decide⟩

end RenderContext

/-! ## The queue of observers -/

namespace Observers

/-- C28 on the code: `addObserver` sets the value that it returns only in the
branch for a string, so for a path given as a tuple it returns `undefined`, also
when the observer has been added to the object of the tuple; for a string it
returns what `SC.tupleForPropertyPath` gave. -/
theorem addObserver_returns
    (tupleForPropertyPath : PropertyPath → Option Obj → Option (Obj × String))
    (observable : Obj → Bool) (target method : Nat) (pathRoot : Option Obj) (s : Queue) :
    (∀ ref object key,
        (addObserver tupleForPropertyPath observable (.tuple ref object key) target method
          pathRoot s).1 = none)
      ∧ (∀ ref object key, observable object = true →
          (addObserver tupleForPropertyPath observable (.tuple ref object key) target method
            pathRoot s).2
          = { s with
              calls := s.calls ++ [.addObserver object key target method],
              observers := registerObserver ⟨object, key, target, method⟩ s.observers })
      ∧ (∀ path,
          (addObserver tupleForPropertyPath observable (.string path) target method
            pathRoot s).1 = tupleForPropertyPath (.string path) pathRoot) := by
  refine ⟨?_, ?_, ?_⟩
  · intro ref object key
    unfold addObserver
    by_cases h : observable object = true
    · simp [h]
    · simp [h]
  · intro ref object key h
    unfold addObserver
    simp [h]
  · intro path
    unfold addObserver
    cases h : tupleForPropertyPath (.string path) pathRoot with
    | none => simp [h]
    | some tuple =>
      obtain ⟨object, key⟩ := tuple
      by_cases ho : observable object = true
      · simp [h, ho]
      · simp [h, ho]

/-- Witness of C28: the observer is added to object 1 under the key `name`,
and the call returns `undefined`. -/
theorem addObserver_returns_witness :
    (addObserver (fun _ _ => none) (fun _ => true) (.tuple 0 1 "name") 7 8 none
        { queue := [], calls := [], observers := [] }).1 = none
      ∧ (addObserver (fun _ _ => none) (fun _ => true) (.tuple 0 1 "name") 7 8 none
        { queue := [], calls := [], observers := [] }).2
        = { queue := [], calls := [.addObserver 1 "name" 7 8],
            observers := [⟨1, "name", 7, 8⟩] } :=
  ⟨(addObserver_returns (fun _ _ => none) (fun _ => true) 7 8 none
      { queue := [], calls := [], observers := [] }).1 0 1 "name",
    (addObserver_returns (fun _ _ => none) (fun _ => true) 7 8 none
      { queue := [], calls := [], observers := [] }).2.1 0 1 "name" rfl⟩

theorem removeLoop_eq (propertyPath : PropertyPath) (target method : Nat)
    (pathRoot : Option Obj) :
    ∀ (items newQueue : List Item) (removed : Bool),
      removeLoop propertyPath target method pathRoot items newQueue removed
        = (newQueue ++ items.filter
              (fun item => decide (item ≠ ⟨propertyPath, target, method, pathRoot⟩)),
            removed || decide ((⟨propertyPath, target, method, pathRoot⟩ : Item) ∈ items)) := by
  intro items
  induction items with
  | nil => intro newQueue removed; simp [removeLoop]
  | cons item rest ih =>
    intro newQueue removed
    have hiff : (item.propertyPath ≠ propertyPath ∨ item.target ≠ target ∨ item.method ≠ method
        ∨ item.pathRoot ≠ pathRoot) ↔ item ≠ ⟨propertyPath, target, method, pathRoot⟩ := by
      obtain ⟨a, b, c, d⟩ := item
      simp only [ne_eq, Item.mk.injEq, not_and]
      tauto
    unfold removeLoop
    by_cases h : item = ⟨propertyPath, target, method, pathRoot⟩
    · have h' : ¬ (item.propertyPath ≠ propertyPath ∨ item.target ≠ target ∨ item.method ≠ method
          ∨ item.pathRoot ≠ pathRoot) := fun hc => hiff.1 hc h
      rw [if_neg h', ih]
      simp [h]
    · have h' : item.propertyPath ≠ propertyPath ∨ item.target ≠ target ∨ item.method ≠ method
          ∨ item.pathRoot ≠ pathRoot := hiff.2 h
      rw [if_pos h', ih]
      have hne : (⟨propertyPath, target, method, pathRoot⟩ : Item) ≠ item := fun e => h e.symm
      simp [h, hne]

/-- C29 on the code: the queue is empty and no observer is registered, but the
path resolves, to object 1 and the key `name`; `removeObserver` calls
`removeObserver` on the object, which removes nothing, sets `removed = true`
without a look at what the call did, and returns true, where its docstring
says that it returns true if an observer was removed. -/
theorem removeObserver_true_without_removal :
    removeObserver (fun _ _ => some (1, "name")) (fun _ => true) (.string "person.name") 7 8 none
        { queue := [], calls := [], observers := [] }
      = some (true, { queue := [], calls := [.removeObserver 1 "name" 7 8], observers := [] }) := by
  decide

/-- What `removeObserver` returns, for every argument: it throws exactly when
the path resolves to an object without the method `removeObserver`. In every
other case it returns true if and only if the path resolves to a tuple or an
entry of the queue agrees with the four arguments; so it returns true whenever
an observer was removed from an object or an entry was removed from the queue,
and also when the path resolves and no observer was registered. The queue
after the call holds the entries that differ from the arguments, in reverse
order. -/
theorem removeObserver_returns
    (tupleForPropertyPath : PropertyPath → Option Obj → Option (Obj × String))
    (observable : Obj → Bool) (propertyPath : PropertyPath) (target method : Nat)
    (pathRoot : Option Obj) (s : Queue) :
    (removeObserver tupleForPropertyPath observable propertyPath target method pathRoot s = none
        ↔ ∃ object key, tupleForPropertyPath propertyPath pathRoot = some (object, key)
            ∧ observable object = false)
      ∧ ∀ removed after,
          removeObserver tupleForPropertyPath observable propertyPath target method pathRoot s
            = some (removed, after) →
          (removed = true ↔ (tupleForPropertyPath propertyPath pathRoot).isSome = true
              ∨ (⟨propertyPath, target, method, pathRoot⟩ : Item) ∈ s.queue)
            ∧ after.queue = (s.queue.filter
                (fun item => decide (item ≠ ⟨propertyPath, target, method, pathRoot⟩))).reverse
            ∧ (after.observers ≠ s.observers ∨ after.queue.length < s.queue.length →
                removed = true) := by
  have hlen : (s.queue.filter
      (fun item => decide (item ≠ ⟨propertyPath, target, method, pathRoot⟩))).length
        < s.queue.length → (⟨propertyPath, target, method, pathRoot⟩ : Item) ∈ s.queue := by
    intro hlt
    by_contra hmem
    have hall : s.queue.filter
        (fun item => decide (item ≠ ⟨propertyPath, target, method, pathRoot⟩)) = s.queue := by
      apply List.filter_eq_self.2
      intro a ha
      simp only [ne_eq, decide_not, Bool.not_eq_true', decide_eq_false_iff_not]
      exact fun e => hmem (e ▸ ha)
    rw [hall] at hlt
    exact Nat.lt_irrefl _ hlt
  unfold removeObserver
  cases h : tupleForPropertyPath propertyPath pathRoot with
  | none =>
    simp only [removeLoop_eq, List.nil_append, Bool.false_or, List.mem_reverse, reduceCtorEq,
      false_and, exists_false, iff_false, not_false_eq_true, true_and, Option.some.injEq,
      Prod.mk.injEq, Option.isSome_none, Bool.false_eq_true, false_or]
    rintro removed after ⟨h1, h2⟩
    subst h1 h2
    refine ⟨by simp, by simp [List.filter_reverse], ?_⟩
    intro hc
    rcases hc with hc | hc
    · exact absurd rfl hc
    · have hc2 : (s.queue.filter
          (fun item => decide (item ≠ ⟨propertyPath, target, method, pathRoot⟩))).length
            < s.queue.length := by
        simpa [List.filter_reverse] using hc
      simpa using hlen hc2
  | some tuple =>
    obtain ⟨object, key⟩ := tuple
    by_cases ho : observable object = true
    · simp only [ho, if_true, removeLoop_eq, List.nil_append, Bool.true_or, reduceCtorEq,
        Option.some.injEq, Prod.mk.injEq, false_iff, not_exists, not_and, Bool.not_eq_false,
        Option.isSome_some, true_or, iff_true]
      refine ⟨fun o k h1 => by rw [← h1.1]; exact ho, ?_⟩
      rintro removed after ⟨h1, h2⟩
      subst h1 h2
      simp [List.filter_reverse]
    · have ho' : observable object = false := by simpa using ho
      simp only [ho', Bool.false_eq_true, if_false, true_iff, reduceCtorEq, false_implies,
        implies_true, and_true]
      exact ⟨object, key, rfl, ho'⟩

/-- A call in which the path does not resolve: the entry of the queue that
agrees with the arguments is dropped, the other entry stays, and the call
returns true. -/
theorem removeObserver_returns_witness :
    removeObserver (fun _ _ => none) (fun _ => true) (.string "a.b") 7 8 none
        { queue := [⟨.string "a.b", 7, 8, none⟩, ⟨.string "c", 1, 2, none⟩], calls := [],
          observers := [] }
        = some (true, { queue := [⟨.string "c", 1, 2, none⟩], calls := [], observers := [] })
      ∧ (true = true ↔ (Option.isSome (none : Option (Obj × String))) = true
          ∨ (⟨.string "a.b", 7, 8, none⟩ : Item)
              ∈ [⟨.string "a.b", 7, 8, none⟩, ⟨.string "c", 1, 2, none⟩]) :=
  ⟨by decide,
    ((removeObserver_returns (fun _ _ => none) (fun _ => true) (.string "a.b") 7 8 none
      { queue := [⟨.string "a.b", 7, 8, none⟩, ⟨.string "c", 1, 2, none⟩], calls := [],
        observers := [] }).2
      true { queue := [⟨.string "c", 1, 2, none⟩], calls := [], observers := [] }
      (by decide)).1⟩

end Observers

/-! ## The largest horizontal offset of a scroll view -/

namespace ScrollView

/-- C30 on the code, at inputs where it fails: with horizontal scrolling
disabled, a content of width 50 in a container of width 100 has the largest
offset -50 when it is aligned right and -25 when it is centered. -/
theorem maximumHorizontalScrollOffset_not_zero :
    canScrollHorizontal
        { contentView := some ⟨50, none⟩, containerWidth := 100, _scale := 1,
          hasHorizontalScroller := false, horizontalScrollerView := true,
          isHorizontalScrollerVisible := true, horizontalAlign := .right } = false
      ∧ maximumHorizontalScrollOffset
        { contentView := some ⟨50, none⟩, containerWidth := 100, _scale := 1,
          hasHorizontalScroller := false, horizontalScrollerView := true,
          isHorizontalScrollerVisible := true, horizontalAlign := .right } = -50
      ∧ maximumHorizontalScrollOffset
        { contentView := some ⟨50, none⟩, containerWidth := 100, _scale := 1,
          hasHorizontalScroller := false, horizontalScrollerView := true,
          isHorizontalScrollerVisible := true, horizontalAlign := .center } = -25 := by
  decide

/-- C30, amended. When horizontal scrolling is disabled,
`maximumHorizontalScrollOffset` is what the alignment dictates: 0 if the content
is at least as wide as the container or is aligned left, minus half the free
width, rounded, if it is narrower and centered, and minus the free width if it
is narrower and aligned right. It is never positive, and it is 0 exactly when
the content is at least as wide as the container or is aligned left (or
top). -/
theorem maximumHorizontalScrollOffset_disabled (this : View)
    (h : canScrollHorizontal this = false) :
    maximumHorizontalScrollOffset this
        = (if this.containerWidth ≤ contentWidth this then 0
          else if this.horizontalAlign = .left ∨ this.horizontalAlign = .top then 0
          else if this.horizontalAlign = .middle ∨ this.horizontalAlign = .center then
            0 - roundHalf (this.containerWidth - contentWidth this)
          else 0 - (this.containerWidth - contentWidth this))
      ∧ maximumHorizontalScrollOffset this ≤ 0
      ∧ (maximumHorizontalScrollOffset this = 0 ↔
          this.containerWidth ≤ contentWidth this ∨ this.horizontalAlign = .left
            ∨ this.horizontalAlign = .top) := by
  have heq : maximumHorizontalScrollOffset this
      = (if this.containerWidth ≤ contentWidth this then 0
        else if this.horizontalAlign = .left ∨ this.horizontalAlign = .top then 0
        else if this.horizontalAlign = .middle ∨ this.horizontalAlign = .center then
          0 - roundHalf (this.containerWidth - contentWidth this)
        else 0 - (this.containerWidth - contentWidth this)) := by
    unfold maximumHorizontalScrollOffset maximumScrollOffset
    simp only [h, Bool.not_false, if_true]
    by_cases hle : this.containerWidth ≤ contentWidth this
    · simp [hle, min_eq_right hle]
    · have hlt : contentWidth this < this.containerWidth := by omega
      simp [hle, min_eq_left (le_of_lt hlt), hlt]
  refine ⟨heq, ?_, ?_⟩
  · rw [heq]
    unfold roundHalf
    split_ifs <;> omega
  · rw [heq]
    unfold roundHalf
    split_ifs with h1 h2 h3
    · simp [h1]
    · simp [h2]
    · simp only [h1, false_or]
      constructor
      · intro h4; omega
      · intro h4; exact absurd h4 h2
    · simp only [h1, false_or]
      constructor
      · intro h4; omega
      · intro h4; exact absurd h4 h2

/-- Witness of C30: a content wider than the container, and a narrower one
aligned left, with the scroller hidden. -/
theorem maximumHorizontalScrollOffset_disabled_witness :
    maximumHorizontalScrollOffset
        { contentView := some ⟨300, none⟩, containerWidth := 100, _scale := 1,
          hasHorizontalScroller := true, horizontalScrollerView := true,
          isHorizontalScrollerVisible := false, horizontalAlign := .right } = 0
      ∧ maximumHorizontalScrollOffset
        { contentView := some ⟨50, none⟩, containerWidth := 100, _scale := 1,
          hasHorizontalScroller := true, horizontalScrollerView := true,
          isHorizontalScrollerVisible := false, horizontalAlign := .left } = 0 :=
  ⟨(maximumHorizontalScrollOffset_disabled
      { contentView := some ⟨300, none⟩, containerWidth := 100, _scale := 1,
        hasHorizontalScroller := true, horizontalScrollerView := true,
        isHorizontalScrollerVisible := false, horizontalAlign := .right } rfl).2.2.2
      (Or.inl (by decide)),
    (maximumHorizontalScrollOffset_disabled
      { contentView := some ⟨50, none⟩, containerWidth := 100, _scale := 1,
        hasHorizontalScroller := true, horizontalScrollerView := true,
        isHorizontalScrollerVisible := false, horizontalAlign := .left } rfl).2.2.2
      (Or.inr (Or.inl rfl))⟩

end ScrollView

/-! ## Scrolling by lines -/

namespace ScrollView

theorem scrollTo_horizontal (x : Int) (this : Scrolling) :
    (scrollTo (some x) none this)._scroll_horizontalScrollOffset
      = max (minimumHorizontalScrollOffset this.view)
          (min (maximumHorizontalScrollOffset this.view) x) := rfl

theorem scrollBy_vertical (y : Int) (this : Scrolling) :
    (scrollBy none (some y) this)._scroll_verticalScrollOffset
      = if y = 0 then this._scroll_verticalScrollOffset
        else max (minimumVerticalScrollOffset this)
          (min (maximumVerticalScrollOffset this) (this._scroll_verticalScrollOffset + y)) := by
  unfold scrollBy scrollTo verticalScrollOffset
  by_cases hy : y = 0
  · simp [hy]
  · simp [hy]

/-- C31 on the code: `scrollRightLine` and `scrollLeftLine` call `scrollTo`,
not `scrollBy`. The horizontal offset after `scrollRightLine(lines)` is
`horizontalLineScroll * lines` brought into the allowed range, whatever the
offset was before, and after `scrollLeftLine(lines)` it is
`0 - horizontalLineScroll * lines` brought into that range; `scrollDownLine`
and `scrollUpLine` do add to the vertical offset. A view of 100 by 100 on a
content of 500 by 500 that stands at 40 in both directions goes to 20 with
`scrollRightLine(1)` and to 0 with `scrollLeftLine(1)`, and to 60 with
`scrollDownLine(1)`. -/
theorem scrollRightLine_absolute (lines : Int) (this : Scrolling) :
    (scrollRightLine (some lines) this)._scroll_horizontalScrollOffset
        = max (minimumHorizontalScrollOffset this.view)
            (min (maximumHorizontalScrollOffset this.view) (this.horizontalLineScroll * lines))
      ∧ (scrollLeftLine (some lines) this)._scroll_horizontalScrollOffset
        = max (minimumHorizontalScrollOffset this.view)
            (min (maximumHorizontalScrollOffset this.view)
              (0 - this.horizontalLineScroll * lines))
      ∧ (scrollDownLine (some lines) this)._scroll_verticalScrollOffset
        = (if this.verticalLineScroll * lines = 0 then this._scroll_verticalScrollOffset
          else max (minimumVerticalScrollOffset this)
            (min (maximumVerticalScrollOffset this)
              (this._scroll_verticalScrollOffset + this.verticalLineScroll * lines)))
      ∧ (scrollUpLine (some lines) this)._scroll_verticalScrollOffset
        = (if 0 - this.verticalLineScroll * lines = 0 then this._scroll_verticalScrollOffset
          else max (minimumVerticalScrollOffset this)
            (min (maximumVerticalScrollOffset this)
              (this._scroll_verticalScrollOffset + (0 - this.verticalLineScroll * lines))))
      ∧ (scrollRightLine (some 1) (scrollTo (some 40) (some 40) contentOf500)
          )._scroll_horizontalScrollOffset = 20
      ∧ (scrollLeftLine (some 1) (scrollTo (some 40) (some 40) contentOf500)
          )._scroll_horizontalScrollOffset = 0
      ∧ (scrollDownLine (some 1) (scrollTo (some 40) (some 40) contentOf500)
          )._scroll_verticalScrollOffset = 60
      ∧ (scrollTo (some 40) (some 40) contentOf500)._scroll_horizontalScrollOffset = 40 :=
  ⟨scrollTo_horizontal _ this, scrollTo_horizontal _ this, scrollBy_vertical _ this,
    scrollBy_vertical _ this, by decide, by decide, by decide, by decide⟩

end ScrollView

/-! ## flush -/

namespace Observers

theorem pathLength_eq_zero (path : PropertyPath) :
    pathLength path = 0 ↔ path = .string "" := by
  cases path with
  | string s =>
    simp only [pathLength, PropertyPath.string.injEq]
    constructor
    · intro h
      apply String.ext
      exact List.eq_nil_of_length_eq_zero h
    · intro h
      rw [h]
      rfl
  | tuple r o k => simp [pathLength]

theorem flushItem_eq (tfpp : PropertyPath → Option Obj → Option (Obj × String))
    (observable : Obj → Bool) (objectString : Obj → String)
    (state : List Item × List Connection) (item : Item) :
    flushItem tfpp observable objectString state item
      = (state.1 ++ (flushItem tfpp observable objectString ([], []) item).1,
          state.2 ++ (flushItem tfpp observable objectString ([], []) item).2) := by
  obtain ⟨newQueue, calls⟩ := state
  unfold flushItem
  simp only
  split
  · simp
  · split
    · split
      · split
        · split
          · simp
          · simp
        · simp
      · simp
    · simp

theorem flush_fold (tfpp : PropertyPath → Option Obj → Option (Obj × String))
    (observable : Obj → Bool) (objectString : Obj → String) (queue : List Item)
    (state : List Item × List Connection) :
    queue.foldl (flushItem tfpp observable objectString) state
      = (state.1
            ++ (queue.map (fun item =>
                (flushItem tfpp observable objectString ([], []) item).1)).flatten,
          state.2
            ++ (queue.map (fun item =>
                (flushItem tfpp observable objectString ([], []) item).2)).flatten) := by
  induction queue generalizing state with
  | nil => simp
  | cons item rest ih =>
    rw [List.foldl_cons, ih, flushItem_eq]
    simp [List.append_assoc]

theorem flush_eq (tfpp : PropertyPath → Option Obj → Option (Obj × String))
    (observable : Obj → Bool) (objectString : Obj → String) (queue : List Item) :
    flush tfpp observable objectString queue
      = ((queue.map (fun item =>
            (flushItem tfpp observable objectString ([], []) item).1)).flatten,
          (queue.map (fun item =>
            (flushItem tfpp observable objectString ([], []) item).2)).flatten) := by
  unfold flush
  cases queue with
  | nil => simp
  | cons item rest =>
    simp only [List.length_cons, gt_iff_lt, Nat.zero_lt_succ, if_true]
    rw [flush_fold]
    simp

theorem flushItem_cases (tfpp : PropertyPath → Option Obj → Option (Obj × String))
    (observable : Obj → Bool) (objectString : Obj → String) (item : Item) :
    (∃ object key, resolve tfpp observable item.propertyPath item.pathRoot = some (object, key)
        ∧ flushItem tfpp observable objectString ([], []) item
          = ([], [.observer object key item.target item.method]))
      ∨ (resolve tfpp observable item.propertyPath item.pathRoot = none
        ∧ item.propertyPath ≠ .string ""
        ∧ ∃ chained object key,
          chainedPath objectString item.propertyPath item.pathRoot = some chained
            ∧ resolve tfpp observable (.string chained) item.pathRoot = some (object, key)
            ∧ flushItem tfpp observable objectString ([], []) item
              = ([], [.temporary object key item.target item]))
      ∨ (resolve tfpp observable item.propertyPath item.pathRoot = none
        ∧ item.propertyPath ≠ .string ""
        ∧ flushItem tfpp observable objectString ([], []) item = ([item], []))
      ∨ (resolve tfpp observable item.propertyPath item.pathRoot = none
        ∧ item.propertyPath = .string ""
        ∧ flushItem tfpp observable objectString ([], []) item = ([], [])) := by
  unfold flushItem
  cases h1 : resolve tfpp observable item.propertyPath item.pathRoot with
  | some tuple =>
    obtain ⟨object, key⟩ := tuple
    exact Or.inl ⟨object, key, rfl, by simp⟩
  | none =>
    right
    by_cases h2 : pathLength item.propertyPath = 0
    · right
      right
      exact ⟨rfl, (pathLength_eq_zero _).1 h2, by simp [h2]⟩
    · have h2' : item.propertyPath ≠ .string "" := fun e => h2 ((pathLength_eq_zero _).2 e)
      cases h3 : chainedPath objectString item.propertyPath item.pathRoot with
      | none =>
        right
        left
        exact ⟨rfl, h2', by simp [h2]⟩
      | some chained =>
        by_cases h4 : chained = ""
        · right
          left
          exact ⟨rfl, h2', by simp [h2, h4]⟩
        · cases h5 : resolve tfpp observable (.string chained) item.pathRoot with
          | none =>
            right
            left
            exact ⟨rfl, h2', by simp [h2, h4, h5]⟩
          | some tuple =>
            obtain ⟨object, key⟩ := tuple
            left
            exact ⟨rfl, h2', chained, object, key, rfl, h5, by simp [h2, h4, h5]⟩

theorem flush_sublist (tfpp : PropertyPath → Option Obj → Option (Obj × String))
    (observable : Obj → Bool) (objectString : Obj → String) (queue : List Item) :
    (flush tfpp observable objectString queue).1.Sublist queue := by
  rw [flush_eq]
  induction queue with
  | nil => simp
  | cons item rest ih =>
    simp only [List.map_cons, List.flatten_cons]
    have hitem : (flushItem tfpp observable objectString ([], []) item).1.Sublist [item] := by
      rcases flushItem_cases tfpp observable objectString item with
        ⟨o, k, _, h⟩ | ⟨_, _, c, o, k, _, _, h⟩ | ⟨_, _, h⟩ | ⟨_, _, h⟩ <;> rw [h] <;> simp
    exact List.Sublist.append hitem ih

theorem flush_count (tfpp : PropertyPath → Option Obj → Option (Obj × String))
    (observable : Obj → Bool) (objectString : Obj → String) (queue : List Item) :
    (flush tfpp observable objectString queue).1.length
        + (flush tfpp observable objectString queue).2.length
        + (queue.filter (fun item =>
            decide (item.propertyPath = .string "")
              && (resolve tfpp observable item.propertyPath item.pathRoot).isNone)).length
      = queue.length := by
  rw [flush_eq]
  induction queue with
  | nil => simp
  | cons item rest ih =>
    simp only [List.map_cons, List.flatten_cons, List.length_append, List.length_cons,
      List.filter_cons]
    simp only at ih
    rcases flushItem_cases tfpp observable objectString item with
      ⟨o, k, hr, h⟩ | ⟨hr, hp, c, o, k, _, _, h⟩ | ⟨hr, hp, h⟩ | ⟨hr, hp, h⟩
    · rw [h]
      simp only [hr, Option.isNone_some, Bool.and_false, Bool.false_eq_true, if_false,
        List.length_nil, List.length_cons]
      omega
    · rw [h]
      simp only [hp, decide_False, Bool.false_and, Bool.false_eq_true, if_false,
        List.length_nil, List.length_cons]
      omega
    · rw [h]
      simp only [hp, decide_False, Bool.false_and, Bool.false_eq_true, if_false,
        List.length_nil, List.length_cons]
      omega
    · rw [h]
      have hr2 := hr
      rw [hp] at hr2
      simp only [hp, hr2, decide_True, Option.isNone_none, Bool.and_self, if_true,
        List.length_nil, List.length_cons]
      omega

theorem flush_covers (tfpp : PropertyPath → Option Obj → Option (Obj × String))
    (observable : Obj → Bool) (objectString : Obj → String) (queue : List Item)
    (item : Item) (hmem : item ∈ queue) (hpath : item.propertyPath ≠ .string "") :
    (∃ object key, resolve tfpp observable item.propertyPath item.pathRoot = some (object, key)
        ∧ Connection.observer object key item.target item.method
          ∈ (flush tfpp observable objectString queue).2)
      ∨ (∃ chained object key,
          resolve tfpp observable item.propertyPath item.pathRoot = none
            ∧ chainedPath objectString item.propertyPath item.pathRoot = some chained
            ∧ resolve tfpp observable (.string chained) item.pathRoot = some (object, key)
            ∧ Connection.temporary object key item.target item
              ∈ (flush tfpp observable objectString queue).2)
      ∨ (resolve tfpp observable item.propertyPath item.pathRoot = none
        ∧ item ∈ (flush tfpp observable objectString queue).1) := by
  rw [flush_eq]
  rcases flushItem_cases tfpp observable objectString item with
    ⟨o, k, hr, h⟩ | ⟨hr, hp, c, o, k, hc, hr2, h⟩ | ⟨hr, hp, h⟩ | ⟨hr, hp, h⟩
  · left
    refine ⟨o, k, hr, ?_⟩
    rw [List.mem_flatten]
    exact ⟨_, List.mem_map.2 ⟨item, hmem, rfl⟩, by rw [h]; simp⟩
  · right
    left
    refine ⟨c, o, k, hr, hc, hr2, ?_⟩
    rw [List.mem_flatten]
    exact ⟨_, List.mem_map.2 ⟨item, hmem, rfl⟩, by rw [h]; simp⟩
  · right
    right
    refine ⟨hr, ?_⟩
    rw [List.mem_flatten]
    exact ⟨_, List.mem_map.2 ⟨item, hmem, rfl⟩, by rw [h]; simp⟩
  · exact absurd hp hpath

/-- C32 on the code, at an input where it fails: `addObserver` with the empty
path, which does not resolve, puts an entry in the queue; `flush` tests
`if (item[0].length)` before it looks for a temporary observer, so for this
entry it makes no call and does not put the entry back: after `flush` the
queue is empty and no observer was added. -/
theorem flush_drops_empty_path :
    (addObserver (fun _ _ => none) (fun _ => true) (.string "") 1 2 none ⟨[], [], []⟩).2.queue
        = [⟨.string "", 1, 2, none⟩]
      ∧ flush (fun _ _ => none) (fun _ => true) (fun _ => "") [⟨.string "", 1, 2, none⟩]
        = ([], []) := by
  decide

/-- C32, amended. `flush` loses no entry of the queue whose path is not the
empty string: such an entry is connected to the object that its path resolves
to by the call `addObserver(key, target, method)`, or it does not resolve and
a temporary observer that holds the entry was added on the object and key that
the rewritten path resolves to, or it does not resolve and is in the queue
after `flush`. The queue after `flush` is a sublist of the queue before, so
the entries that stay keep their order. Every entry gives at most one call:
the entries that stay, the calls made and the entries with an empty path that
do not resolve, which are dropped, add up to the entries of the queue
before. -/
theorem flush_keeps_nonempty_paths
    (tupleForPropertyPath : PropertyPath → Option Obj → Option (Obj × String))
    (observable : Obj → Bool) (objectString : Obj → String) (queue : List Item) :
    (∀ item ∈ queue, item.propertyPath ≠ .string "" →
        (∃ object key,
          resolve tupleForPropertyPath observable item.propertyPath item.pathRoot
              = some (object, key)
            ∧ Connection.observer object key item.target item.method
              ∈ (flush tupleForPropertyPath observable objectString queue).2)
          ∨ (∃ chained object key,
            resolve tupleForPropertyPath observable item.propertyPath item.pathRoot = none
              ∧ chainedPath objectString item.propertyPath item.pathRoot = some chained
              ∧ resolve tupleForPropertyPath observable (.string chained) item.pathRoot
                = some (object, key)
              ∧ Connection.temporary object key item.target item
                ∈ (flush tupleForPropertyPath observable objectString queue).2)
          ∨ (resolve tupleForPropertyPath observable item.propertyPath item.pathRoot = none
            ∧ item ∈ (flush tupleForPropertyPath observable objectString queue).1))
      ∧ (flush tupleForPropertyPath observable objectString queue).1.Sublist queue
      ∧ (flush tupleForPropertyPath observable objectString queue).1.length
          + (flush tupleForPropertyPath observable objectString queue).2.length
          + (queue.filter (fun item =>
              decide (item.propertyPath = .string "")
                && (resolve tupleForPropertyPath observable item.propertyPath
                  item.pathRoot).isNone)).length
        = queue.length :=
  ⟨fun item hmem hpath =>
      flush_covers tupleForPropertyPath observable objectString queue item hmem hpath,
    flush_sublist tupleForPropertyPath observable objectString queue,
    flush_count tupleForPropertyPath observable objectString queue⟩

/-- Witness of C32: of the four entries of the example the first is connected,
the second gets a temporary observer on the path `c*d`, the third stays in the
queue and the fourth, with the empty path, is dropped. -/
theorem flush_keeps_nonempty_paths_witness :
    flush sampleTuple (fun _ => true) (fun _ => "") sampleQueue
        = ([⟨.string "e.f", 30, 31, none⟩],
            [.observer 1 "b" 10 11, .temporary 2 "d" 20 ⟨.string "c.d", 20, 21, none⟩])
      ∧ (flush sampleTuple (fun _ => true) (fun _ => "") sampleQueue).1.Sublist sampleQueue
      ∧ ((∃ object key,
          resolve sampleTuple (fun _ => true) (PropertyPath.string "c.d") none
              = some (object, key)
            ∧ Connection.observer object key 20 21
              ∈ (flush sampleTuple (fun _ => true) (fun _ => "") sampleQueue).2)
          ∨ (∃ chained object key,
            resolve sampleTuple (fun _ => true) (PropertyPath.string "c.d") none = none
              ∧ chainedPath (fun _ => "") (PropertyPath.string "c.d") none = some chained
              ∧ resolve sampleTuple (fun _ => true) (.string chained) none
                = some (object, key)
              ∧ Connection.temporary object key 20 ⟨.string "c.d", 20, 21, none⟩
                ∈ (flush sampleTuple (fun _ => true) (fun _ => "") sampleQueue).2)
          ∨ (resolve sampleTuple (fun _ => true) (PropertyPath.string "c.d") none = none
            ∧ (⟨.string "c.d", 20, 21, none⟩ : Item)
              ∈ (flush sampleTuple (fun _ => true) (fun _ => "") sampleQueue).1)) :=
  ⟨by decide,
    (flush_keeps_nonempty_paths sampleTuple (fun _ => true) (fun _ => "") sampleQueue).2.1,
    (flush_keeps_nonempty_paths sampleTuple (fun _ => true) (fun _ => "") sampleQueue).1
      ⟨.string "c.d", 20, 21, none⟩ (by decide) (by decide)⟩

end Observers

/-! ## The path of the temporary observer -/

namespace Observers

theorem indexOf_append_cons (a rest : List Char) (c : Char) (h : c ∉ a) :
    indexOf (a ++ c :: rest) c = a.length := by
  induction a with
  | nil => simp [indexOf]
  | cons x xs ih =>
    have hx : ¬ x = c := fun e => h (by simp [e])
    have hxs : c ∉ xs := fun e => h (by simp [e])
    have hlen : ¬ ((xs.length : Int) < 0) := by omega
    have hstep : indexOf (x :: (xs ++ c :: rest)) c
        = if indexOf (xs ++ c :: rest) c < 0 then -1 else indexOf (xs ++ c :: rest) c + 1 := by
      simp [indexOf, hx]
    rw [List.cons_append, hstep, ih hxs, if_neg hlen, List.length_cons]
    push_cast
    rfl

theorem sliceList_nat {α : Type} (xs : List α) (b e : Nat) :
    sliceList xs (b : Int) (some (e : Int)) = (xs.take e).drop b := by
  have hb : ¬ ((b : Int) < 0) := by omega
  have he : ¬ ((e : Int) < 0) := by omega
  simp [sliceList, hb, he]

theorem sliceList_from {α : Type} (xs : List α) (b : Nat) :
    sliceList xs (b : Int) none = xs.drop b := by
  have hb : ¬ ((b : Int) < 0) := by omega
  simp [sliceList, hb]

theorem chainedPath_swap (objectString : Obj → String) (a m b : List Char)
    (ha : a ≠ []) (hdot : '.' ∉ a) (hstar : '*' ∉ a) (hm : '*' ∉ m) :
    chainedPath objectString (.string (String.mk (a ++ '.' :: (m ++ '*' :: b)))) none
      = some (String.mk (a ++ '*' :: (m.take (m.length - (a.length + 1)) ++ '.' :: b))) := by
  have hdotIdx : indexOf (a ++ '.' :: (m ++ '*' :: b)) '.' = a.length :=
    indexOf_append_cons a _ '.' hdot
  have hmem : '*' ∉ a ++ '.' :: m := by
    simp only [List.mem_append, List.mem_cons, not_or]
    exact ⟨hstar, by decide, hm⟩
  have hstarIdx : indexOf (a ++ '.' :: (m ++ '*' :: b)) '*' = ((a.length + 1 + m.length : Nat) : Int) := by
    have h := indexOf_append_cons (a ++ '.' :: m) b '*' hmem
    simp only [List.append_assoc, List.cons_append, List.length_append, List.length_cons] at h
    rw [h]
    push_cast
    ring
  obtain ⟨x, xs, rfl⟩ : ∃ x xs, a = x :: xs := by
    cases a with
    | nil => exact absurd rfl ha
    | cons x xs => exact ⟨x, xs, rfl⟩
  have hx1 : x ≠ '.' := fun e => hdot (by simp [e])
  have hx2 : x ≠ '*' := fun e => hstar (by simp [e])
  have hsub : ((((x :: xs).length + 1 + m.length : Nat) : Int) - ((x :: xs).length : Int) - 1)
      = (m.length : Int) := by
    push_cast
    ring
  have hs1 : (((x :: xs).length : Int) + 1) = (((x :: xs).length + 1 : Nat) : Int) := by
    push_cast
    rfl
  have hs2 : ((((x :: xs).length + 1 + m.length : Nat) : Int) + 1)
      = (((x :: xs).length + 1 + m.length + 1 : Nat) : Int) := by
    push_cast
    rfl
  have hzero : (0 : Int) = ((0 : Nat) : Int) := rfl
  have hcond1 : ¬ (((x :: xs).length : Int) ≥ 0 ∧ (((x :: xs).length + 1 + m.length : Nat) : Int) < 0) := by
    intro h
    omega
  have hcond2 : ((x :: xs).length : Int) ≥ 0
      ∧ (((x :: xs).length + 1 + m.length : Nat) : Int) > ((x :: xs).length : Int) := by
    constructor <;> push_cast <;> omega
  unfold chainedPath
  simp only [hdotIdx, hstarIdx, Option.isSome_none, Bool.false_eq_true, if_false]
  rw [if_neg (by simp [hx1]), if_pos (by simp [hx2]), if_neg hcond1, if_pos hcond2]
  simp only [slice, hsub, hs1, hs2]
  rw [hzero, sliceList_nat, sliceList_nat, sliceList_from]
  have ht1 : (List.take (x :: xs).length (x :: xs ++ '.' :: (m ++ '*' :: b))) = x :: xs := by
    rw [← List.cons_append]
    exact List.take_left' rfl
  have ht2 : List.drop ((x :: xs).length + 1) (List.take m.length (x :: xs ++ '.' :: (m ++ '*' :: b)))
      = m.take (m.length - ((x :: xs).length + 1)) := by
    rw [List.drop_take]
    have hd : List.drop ((x :: xs).length + 1) (x :: xs ++ '.' :: (m ++ '*' :: b)) = m ++ '*' :: b := by
      have : x :: xs ++ '.' :: (m ++ '*' :: b) = (x :: xs ++ ['.']) ++ (m ++ '*' :: b) := by simp
      rw [this]
      exact List.drop_left' (by simp)
    rw [hd]
    exact List.take_append_of_le_length (by omega)
  have ht3 : List.drop ((x :: xs).length + 1 + m.length + 1) (x :: xs ++ '.' :: (m ++ '*' :: b)) = b := by
    have : x :: xs ++ '.' :: (m ++ '*' :: b) = (x :: xs ++ '.' :: m ++ ['*']) ++ b := by simp
    rw [this]
    exact List.drop_left' (by simp; omega)
  simp only [List.drop_zero, ht1, ht2, ht3]
  congr 1
  apply String.ext
  simp [String.data_append]

/-- C33 on the code: for a path `a.m*b` without root, where `a` is not empty
and has no `.` and no `*` and `m` has no `*`, the middle part is taken by
`slice(dotIdx + 1, starIdx - dotIdx - 1)`, whose second argument is the length
of `m` and not the place of the `*`. The path of the temporary observer is `a`,
then `*`, then the first `length m - (length a + 1)` characters of `m`, then
`.`, then `b`: it is shorter than the path by the smaller of `length m` and
`length a + 1`, and it is the path with the two characters swapped only when
nothing stands between the `.` and the `*`. -/
theorem chainedPath_dot_then_star (objectString : Obj → String) (a m b : List Char)
    (ha : a ≠ []) (hdot : '.' ∉ a) (hstar : '*' ∉ a) (hm : '*' ∉ m) :
    chainedPath objectString (.string (String.mk (a ++ '.' :: (m ++ '*' :: b)))) none
        = some (String.mk (a ++ '*' :: (m.take (m.length - (a.length + 1)) ++ '.' :: b)))
      ∧ (String.mk (a ++ '*' :: (m.take (m.length - (a.length + 1)) ++ '.' :: b))).length
          + min m.length (a.length + 1)
        = (String.mk (a ++ '.' :: (m ++ '*' :: b))).length
      ∧ (chainedPath objectString (.string (String.mk (a ++ '.' :: (m ++ '*' :: b)))) none
          = some (String.mk (a ++ '*' :: (m ++ '.' :: b))) ↔ m = []) := by
  refine ⟨chainedPath_swap objectString a m b ha hdot hstar hm, ?_, ?_⟩
  · simp only [String.length, List.length_append, List.length_cons, List.length_take]
    omega
  · rw [chainedPath_swap objectString a m b ha hdot hstar hm]
    constructor
    · intro h
      have h1 : (a ++ '*' :: (m.take (m.length - (a.length + 1)) ++ '.' :: b)).length
          = (a ++ '*' :: (m ++ '.' :: b)).length := by
        have h2 := Option.some.inj h
        have h3 : (String.mk (a ++ '*' :: (m.take (m.length - (a.length + 1)) ++ '.' :: b))).data
            = (String.mk (a ++ '*' :: (m ++ '.' :: b))).data := by rw [h2]
        exact congrArg List.length h3
      simp only [List.length_append, List.length_cons, List.length_take] at h1
      apply List.eq_nil_of_length_eq_zero
      omega
    · intro h
      subst h
      simp

/-- Witness of C33, with the divergence: for `foo.bar*baz` the path of the
temporary observer is `foo*.baz`, three characters shorter than the path, and
not `foo*bar.baz`. -/
theorem chainedPath_dot_then_star_witness :
    chainedPath (fun _ => "") (.string "foo.bar*baz") none = some "foo*.baz"
      ∧ chainedPath (fun _ => "") (.string "foo.bar*baz") none ≠ some "foo*bar.baz"
      ∧ "foo*.baz".length + 3 = "foo.bar*baz".length :=
  ⟨(chainedPath_dot_then_star (fun _ => "") ['f', 'o', 'o'] ['b', 'a', 'r'] ['b', 'a', 'z']
      (by decide) (by decide) (by decide) (by decide)).1,
    by decide, by decide⟩

end Observers

/-! ## addStyle with a hash and with single keys -/

namespace RenderContext

theorem hashGet_hashDelete_self (hash : Hash) (key : String) :
    hashGet (hashDelete hash key) key = none := by
  induction hash with
  | nil => rfl
  | cons p rest ih =>
    obtain ⟨k, v⟩ := p
    by_cases hk : k = key
    · simp [hashDelete, hk, ih]
    · simp [hashDelete, hashGet, hk, ih]

theorem hashGet_hashDelete_other (hash : Hash) (key other : String) (h : key ≠ other) :
    hashGet (hashDelete hash key) other = hashGet hash other := by
  induction hash with
  | nil => rfl
  | cons p rest ih =>
    obtain ⟨k, v⟩ := p
    by_cases hk : k = key
    · have ho : k ≠ other := by rw [hk]; exact h
      simp [hashDelete, hashGet, hk, ih, h]
    · by_cases ho : k = other
      · subst ho
        simp [hashDelete, hashGet, hk]
      · simp [hashDelete, hashGet, hk, ho, ih]

theorem truthy_none : truthy none = false := rfl

theorem combo_step_get (state : Hash × Bool) (tmp name : String) :
    hashGet (if truthy (hashGet state.1 tmp) then (hashDelete state.1 tmp, true) else state).1 name
      = if tmp = name ∧ truthy (hashGet state.1 name) = true then none
        else hashGet state.1 name := by
  by_cases ht : tmp = name
  · subst ht
    by_cases hv : truthy (hashGet state.1 tmp) = true
    · simp [hv, hashGet_hashDelete_self]
    · simp [hv]
  · by_cases hv : truthy (hashGet state.1 tmp) = true
    · simp [hv, ht, hashGet_hashDelete_other _ _ _ ht]
    · simp [hv, ht]

theorem combo_loop_get (names : List String) (name : String) (state : Hash × Bool) :
    hashGet (names.foldl
        (fun (state : Hash × Bool) tmp =>
          if truthy (hashGet state.1 tmp) then (hashDelete state.1 tmp, true) else state)
        state).1 name
      = if name ∈ names ∧ truthy (hashGet state.1 name) = true then none
        else hashGet state.1 name := by
  induction names generalizing state with
  | nil => simp
  | cons tmp rest ih =>
    rw [List.foldl_cons, ih, combo_step_get]
    by_cases ht : tmp = name
    · by_cases hv : truthy (hashGet state.1 name) = true
      · simp [ht, hv, truthy_none]
      · simp [ht, hv]
    · have ht' : ¬ name = tmp := fun e => ht e.symm
      simp [ht, ht']

theorem _deleteComboStyles_get (styles : Hash) (name : String) :
    hashGet (_deleteComboStyles styles "WebkitTransition").1 name
      = if name ∈ ["WebkitTransitionProperty", "WebkitTransitionDuration",
            "WebkitTransitionDelay", "WebkitTransitionTimingFunction"]
          ∧ truthy (hashGet styles name) = true then none
        else hashGet styles name := by
  have hl : COMBO_STYLES.lookup "WebkitTransition"
      = some ["WebkitTransitionProperty", "WebkitTransitionDuration",
            "WebkitTransitionDelay", "WebkitTransitionTimingFunction"] := by decide
  unfold _deleteComboStyles
  rw [hl]
  exact combo_loop_get _ name (styles, false)

theorem _deleteComboStyles_other (styles : Hash) (key : String) (h : key ≠ "WebkitTransition") :
    _deleteComboStyles styles key = (styles, false) := by
  unfold _deleteComboStyles
  have hb : (key == "WebkitTransition") = false := by simpa using h
  have hl : COMBO_STYLES.lookup key = none := by
    simp [COMBO_STYLES, List.lookup, hb]
  rw [hl]

theorem addStyle_name_styles (name : String) (value : Option Text) (ctx : Context) (hash : Hash)
    (helem : ctx._elem = false) (hstyles : ctx._styles = some hash) :
    (addStyle (.name name) (some value) ctx).2._elem = false
      ∧ (addStyle (.name name) (some value) ctx).2._styles
        = some (if hashGet (_deleteComboStyles hash name).1 name ≠ some value then
            hashSet (_deleteComboStyles hash name).1 name value
          else (_deleteComboStyles hash name).1) := by
  obtain ⟨a1, a2, a3, a4, a5, a6, a7, a8, a9, a10, a11, a12, a13, a14⟩ := ctx
  have h8 : a8 = false := helem
  have h11 : a11 = some hash := hstyles
  subst h8
  subst h11
  by_cases hv : hashGet (_deleteComboStyles hash name).1 name = some value
  · by_cases hc : a12 = true <;> simp [addStyle, styles, hv, hc]
  · by_cases hc : a12 = true <;> simp [addStyle, styles, hv, hc]

theorem addStyle_bulk_styles (entries : Hash) (ctx : Context) (hash : Hash)
    (helem : ctx._elem = false) (hstyles : ctx._styles = some hash) :
    (addStyle (.styles entries) none ctx).2._styles
      = some (entries.foldl
        (fun (state : Hash × Bool) entry =>
          let (styles, didChange) := state
          let key := entry.1
          let (styles, didChange) :=
            if didChange then (styles, didChange) else _deleteComboStyles styles key
          let value := entry.2
          if hashGet styles key ≠ some value then (hashSet styles key value, true)
          else (styles, didChange))
        (hash, false)).1 := by
  obtain ⟨a1, a2, a3, a4, a5, a6, a7, a8, a9, a10, a11, a12, a13, a14⟩ := ctx
  have h8 : a8 = false := helem
  have h11 : a11 = some hash := hstyles
  subst h8
  subst h11
  by_cases hc : a12 = true <;> simp [addStyle, styles, hc]

theorem addStyle_single_entry (entry : String × Option Text) (ctx : Context) :
    (addStyle (.styles [entry]) none ctx).2 = addStyleEach [entry] ctx := by
  obtain ⟨key, value⟩ := entry
  unfold addStyleEach addStyle
  by_cases helem : ctx._elem = true
  · simp [helem]
  · simp only [helem, Bool.false_eq_true, if_false, List.foldl_cons, List.foldl_nil]

theorem bulk_two_get (key : String) (value w : Option Text) (combo : String) (hash : Hash)
    (hwk : combo ≠ "WebkitTransition") (hkey : key ≠ "WebkitTransition") (hkc : combo ≠ key)
    (hnew : hashGet hash key ≠ some value) :
    hashGet ([(key, value), ("WebkitTransition", w)].foldl
        (fun (state : Hash × Bool) (entry : String × Option Text) =>
          let (styles, didChange) := state
          let key := entry.1
          let (styles, didChange) :=
            if didChange then (styles, didChange) else _deleteComboStyles styles key
          let value := entry.2
          if hashGet styles key ≠ some value then (hashSet styles key value, true)
          else (styles, didChange))
        (hash, false)).1 combo = hashGet hash combo := by
  simp only [List.foldl_cons, List.foldl_nil, Bool.false_eq_true, if_false,
    _deleteComboStyles_other hash key hkey, ne_eq, hnew, not_false_eq_true, if_true]
  by_cases hv : hashGet (hashSet hash key value) "WebkitTransition" = some w
  · simp [hv, hashGet_hashSet_other _ _ _ _ hkc]
  · simp [hv, hashGet_hashSet_other _ _ _ _ hkc, hashGet_hashSet_other _ _ _ _ hwk]

theorem each_two_get (key : String) (value w : Option Text) (combo : String) (ctx : Context)
    (hash : Hash) (helem : ctx._elem = false) (hstyles : ctx._styles = some hash)
    (hcombo : combo ∈ ["WebkitTransitionProperty", "WebkitTransitionDuration",
      "WebkitTransitionDelay", "WebkitTransitionTimingFunction"])
    (htruthy : truthy (hashGet hash combo) = true)
    (hwk : combo ≠ "WebkitTransition") (hkey : key ≠ "WebkitTransition") (hkc : combo ≠ key) :
    hashGet ((addStyleEach [(key, value), ("WebkitTransition", w)] ctx)._styles.getD []) combo
      = none := by
  unfold addStyleEach
  simp only [List.foldl_cons, List.foldl_nil]
  obtain ⟨h1e, h1s⟩ := addStyle_name_styles key value ctx hash helem hstyles
  rw [_deleteComboStyles_other hash key hkey] at h1s
  have hfirst : truthy (hashGet
      (if hashGet (hash, false).1 key ≠ some value then hashSet (hash, false).1 key value
        else (hash, false).1) combo) = true := by
    by_cases hv : hashGet hash key = some value
    · simp [hv, htruthy]
    · simp [hv, hashGet_hashSet_other _ _ _ _ hkc, htruthy]
  obtain ⟨mid, h1s, hmid⟩ : ∃ mid,
      (addStyle (.name key) (some value) ctx).2._styles = some mid
        ∧ truthy (hashGet mid combo) = true := ⟨_, h1s, hfirst⟩
  obtain ⟨h2e, h2s⟩ := addStyle_name_styles "WebkitTransition" w _ mid h1e h1s
  rw [h2s, Option.getD_some]
  have hdel := _deleteComboStyles_get mid combo
  rw [if_pos ⟨hcombo, hmid⟩] at hdel
  split_ifs
  · rw [hashGet_hashSet_other _ _ _ _ hwk]
    exact hdel
  · exact hdel

/-- C34 on the code: the bulk form of `addStyle` runs `_deleteComboStyles` by
`didChange = didChange || this._deleteComboStyles(styles, key)`, which does not
make the call once an earlier key of the hash has changed a style. With a hash
of one key the bulk form and the single form leave the same context. With a
hash of two keys, a first key that changes a style and then `WebkitTransition`,
the bulk form leaves every property of the combination as it was, and the two
calls of the single form delete it, so the style hashes differ. -/
theorem addStyle_bulk_skips_combo (key : String) (value w : Option Text) (combo : String)
    (ctx : Context) (hash : Hash) (helem : ctx._elem = false) (hstyles : ctx._styles = some hash)
    (hcombo : combo ∈ ["WebkitTransitionProperty", "WebkitTransitionDuration",
      "WebkitTransitionDelay", "WebkitTransitionTimingFunction"])
    (htruthy : truthy (hashGet hash combo) = true)
    (hkey : key ≠ "WebkitTransition") (hkc : key ≠ combo)
    (hnew : hashGet hash key ≠ some value) :
    (∀ entry : String × Option Text,
        (addStyle (.styles [entry]) none ctx).2 = addStyleEach [entry] ctx)
      ∧ hashGet ((addStyle (.styles [(key, value), ("WebkitTransition", w)]) none
            ctx).2._styles.getD []) combo = hashGet hash combo
      ∧ hashGet ((addStyleEach [(key, value), ("WebkitTransition", w)] ctx)._styles.getD [])
          combo = none
      ∧ (addStyle (.styles [(key, value), ("WebkitTransition", w)]) none ctx).2._styles
        ≠ (addStyleEach [(key, value), ("WebkitTransition", w)] ctx)._styles := by
  have hwk : combo ≠ "WebkitTransition" := by
    intro e
    rw [e] at hcombo
    revert hcombo
    decide
  have hbulk : hashGet ((addStyle (.styles [(key, value), ("WebkitTransition", w)]) none
      ctx).2._styles.getD []) combo = hashGet hash combo := by
    rw [addStyle_bulk_styles _ ctx hash helem hstyles, Option.getD_some]
    exact bulk_two_get key value w combo hash hwk hkey (Ne.symm hkc) hnew
  have heach := each_two_get key value w combo ctx hash helem hstyles hcombo htruthy hwk hkey
    (Ne.symm hkc)
  refine ⟨fun entry => addStyle_single_entry entry ctx, hbulk, heach, ?_⟩
  intro e
  rw [e, heach] at hbulk
  rw [← hbulk] at htruthy
  exact absurd htruthy (by decide)

/-- Witness of C34, at the input where the two forms differ: on the style hash
`{WebkitTransitionProperty: 'left'}` the call with the hash `{color: 'red',
WebkitTransition: 'all 1s'}` keeps `WebkitTransitionProperty`, and the calls
`addStyle('color', 'red')` and `addStyle('WebkitTransition', 'all 1s')` delete
it. -/
theorem addStyle_bulk_skips_combo_witness :
    (addStyle (.styles [("color", some (.string "red")),
          ("WebkitTransition", some (.string "all 1s"))]) none
        { init none with
          _styles := some [("WebkitTransitionProperty", some (.string "left"))] }).2._styles
        = some [("WebkitTransitionProperty", some (.string "left")),
            ("color", some (.string "red")), ("WebkitTransition", some (.string "all 1s"))]
      ∧ (addStyleEach [("color", some (.string "red")),
          ("WebkitTransition", some (.string "all 1s"))]
        { init none with
          _styles := some [("WebkitTransitionProperty", some (.string "left"))] })._styles
        = some [("color", some (.string "red")), ("WebkitTransition", some (.string "all 1s"))]
      ∧ (addStyle (.styles [("color", some (.string "red")),
          ("WebkitTransition", some (.string "all 1s"))]) none
        { init none with
          _styles := some [("WebkitTransitionProperty", some (.string "left"))] }).2._styles
        ≠ (addStyleEach [("color", some (.string "red")),
          ("WebkitTransition", some (.string "all 1s"))]
        { init none with
          _styles := some [("WebkitTransitionProperty", some (.string "left"))] })._styles :=
  ⟨by decide, by decide,
    (addStyle_bulk_skips_combo "color" (some (.string "red")) (some (.string "all 1s"))
      "WebkitTransitionProperty"
      { init none with _styles := some [("WebkitTransitionProperty", some (.string "left"))] }
      [("WebkitTransitionProperty", some (.string "left"))] rfl rfl (by decide) (by decide)
      (by decide) (by decide) (by decide)).2.2.2⟩

end RenderContext

end SC
